import Mathlib

/-!
The class template cxx::stack (src/raii/stack.h): a keyed stack with copy-on-write sharing

A shallow embedding of the class template `cxx::stack<K, V>` and of its private
class `impl`, followed by theorems about them.

Modelling decisions, each tied to the source:

* `std::map<shared_ptr<K>, std::stack<l_iter>, deref_compare>` (`key_order`) is an
  association list kept in ascending key order.  Keys are compared through the
  pointers (`deref_compare`), so a key is modelled by its value; `K` carries a
  linear order, and map equivalence of keys is equality.
* `std::list<pair<shared_ptr<K>, V>>` (`pos_order`) is a list of nodes.  A list
  iterator (`l_iter`) stays valid until its node is erased, so every node carries
  an identity (a natural number) and an iterator is the identity of its node.
* `std::stack<l_iter>` is a list whose head is the top.
* `std::shared_ptr<impl>` is an optional address into a heap of control blocks
  (`cell`): the object together with its `use_count`.
* Undefined behaviour (dereferencing a null `shared_ptr`, `end()` or an erased
  iterator, `top()`/`pop()` of an empty `std::stack`, `back()` of an empty list)
  is the explicit outcome `ub`.
* The two `throw std::invalid_argument(...)` statements are told apart by their
  message: `EmptyContainer` ("The stack is empty.") and `KeyNotFound`
  ("The stack does not contain provided key.").
* Memory allocation never fails, and `size_t sz` is a natural number (the ledger
  cannot hold `2 ^ 64` nodes).
* A reference that a mutable `front` returns is modelled by the value it refers to;
  assignment through such a reference is `impl.write`.
* A `const_iterator` is the part of `key_order` from the entry it points to onwards;
  the loop from `cbegin()` to `cend()` calls `operator!=`, `operator*` and `operator++`
  and is given a bound on its rounds, `none` meaning that the bound was reached.
* `impl::front(K const &) const` (`return front(std::forward(key));`) is never
  instantiated, `stack::front(K const &) const` reads `st->key_order` itself; it has no
  counterpart here.  `impl::operator=` is declared and defined but never called.
-/

namespace cxx

/-! ## Outcomes -/

/-- The two `std::invalid_argument` exceptions of stack.h, named after their messages:
"The stack is empty." and "The stack does not contain provided key.". -/
inductive Exn where
  | EmptyContainer
  | KeyNotFound
  deriving DecidableEq, Repr

/-- Outcome of a call that may change the state `σ`: normal return with a value and
the new state, an exception together with the state it leaves behind, or undefined
behaviour. -/
inductive Res (σ α : Type) where
  | ok (a : α) (s : σ)
  | throw (e : Exn) (s : σ)
  | ub
  deriving DecidableEq, Repr

/-- Outcome of a `const` call: a value, an exception, or undefined behaviour. -/
inductive Out (α : Type) where
  | val (a : α)
  | exn (e : Exn)
  | ub
  deriving DecidableEq, Repr

/-- The outcome of a call with the state forgotten. -/
def Res.out {σ α : Type} : Res σ α → Out α
  | .ok a _ => .val a
  | .throw e _ => .exn e
  | .ub => .ub

/-- The state a call leaves behind, by normal return or by exception; `none` after
undefined behaviour. -/
def Res.state? {σ α : Type} : Res σ α → Option σ
  | .ok _ s => some s
  | .throw _ s => some s
  | .ub => none

/-! ## std::map as an ascending association list -/

section Map
variable {A S : Type} [LinearOrder A]

/-- Model of `std::map::find`: the mapped value of the entry whose key is equivalent to
`k`, `none` for `end()`. -/
def find : List (A × S) → A → Option S
  | [], _ => none
  | (k', s) :: t, k => if k' = k then some s else find t k

/-- Model of `std::map::insert`: the entry is placed in key order; a map that already
holds the key is left as it is. -/
def insert (k : A) (s : S) : List (A × S) → List (A × S)
  | [] => [(k, s)]
  | (k', s') :: t =>
    if k < k' then (k, s) :: (k', s') :: t
    else if k' < k then (k', s') :: insert k s t
    else (k', s') :: t

/-- Model of `std::map::erase(it)` for the iterator of key `k`. -/
def erase (k : A) (m : List (A × S)) : List (A × S) :=
  m.filter (fun p => decide (p.1 ≠ k))

/-- Assignment through a map iterator, `it->second = s`, for the iterator of key `k`. -/
def assign (k : A) (s : S) : List (A × S) → List (A × S)
  | [] => []
  | (k', s') :: t => if k' = k then (k', s) :: t else (k', s') :: assign k s t

end Map

/-! ## The ledger: std::list with stable iterators -/

section Ledger
variable {K V : Type}

/-- Identities of the nodes of a list, front to back. -/
def ids (l : List (Nat × K × V)) : List Nat := l.map (fun e => e.1)

/-- Identity of a newly allocated list node: one that no node of the list has. -/
def fresh (l : List (Nat × K × V)) : Nat := (ids l).foldr max 0 + 1

/-- The (key, value) pairs of a list, front to back. -/
def entries (l : List (Nat × K × V)) : List (K × V) := l.map (fun e => e.2)

/-- Model of `std::list::erase(it)`: the node the iterator `r` points to is unlinked;
`none` when no node has identity `r` (an invalid iterator). -/
def eraseNode (r : Nat) (l : List (Nat × K × V)) : Option (List (Nat × K × V)) :=
  if r ∈ ids l then some (l.filter (fun e => decide (e.1 ≠ r))) else none

/-- Dereference of a list iterator, `*it`: the node with identity `r`. -/
def node (r : Nat) (l : List (Nat × K × V)) : Option (Nat × K × V) :=
  l.find? (fun e => decide (e.1 = r))

/-- Identities of the nodes with key `k`, front to back. -/
def idsOf [DecidableEq K] (l : List (Nat × K × V)) (k : K) : List Nat :=
  ids (l.filter (fun e => decide (e.2.1 = k)))

/-- The value of the last entry with key `k` in a sequence of (key, value) pairs: the
value most recently pushed under `k` and still present. -/
def lastValue [DecidableEq K] (k : K) (es : List (K × V)) : Option V :=
  ((es.filter (fun e => decide (e.1 = k))).getLast?).map Prod.snd

/-- The number of entries with key `k` in a sequence of (key, value) pairs. -/
def countKey [DecidableEq K] (k : K) (es : List (K × V)) : Nat :=
  (es.filter (fun e => decide (e.1 = k))).length

/-- Offset in the list of the node that the iterator `r` points to: the number of nodes
in front of it. -/
def offset (r : Nat) (l : List (Nat × K × V)) : Nat := (ids l).indexOf r

/-- The offsets of the entries with key `k` in a sequence of (key, value) pairs, front to
back. -/
def keyOffsets [DecidableEq K] (k : K) : List (K × V) → List Nat
  | [] => []
  | e :: t => (if e.1 = k then [0] else []) ++ (keyOffsets k t).map (fun i => i + 1)

/-- Assignment of `v` through a reference to the value of the node with identity `r`. -/
def writeNode (r : Nat) (v : V) (l : List (Nat × K × V)) : List (Nat × K × V) :=
  l.map (fun e => if e.1 = r then (e.1, e.2.1, v) else e)

end Ledger

/-! ## class impl (the Body) -/

/-- The private class `cxx::stack<K, V>::impl`. -/
structure impl (K V : Type) where
  is_safe : Bool
  key_order : List (K × List Nat)
  pos_order : List (Nat × K × V)
  sz : Nat
  deriving DecidableEq, Repr

namespace impl
variable {K V : Type} [LinearOrder K]

/-- Default constructor `impl::impl()`: `is_safe(true), sz(0)`, empty containers. -/
def new : impl K V := ⟨true, [], [], 0⟩

/-- Body of `impl::push`. -/
def push (b : impl K V) (key : K) (value : V) : impl K V :=
  let it := find b.key_order key
  let n := fresh b.pos_order
  let pos := b.pos_order ++ [(n, key, value)]
  match it with
  | none => { b with pos_order := pos, key_order := insert key [n] b.key_order, sz := b.sz + 1 }
  | some s => { b with pos_order := pos, key_order := assign key (n :: s) b.key_order,
                       sz := b.sz + 1 }

/-- Body of `impl::pop()`. -/
def pop (b : impl K V) : Res (impl K V) Unit :=
  if b.sz = 0 then .throw .EmptyContainer b
  else
    match b.pos_order.getLast? with
    | none => .ub
    | some last =>
      match find b.key_order last.2.1 with
      | none => .ub
      | some s =>
        if s.length = 1 then
          .ok () { b with key_order := erase last.2.1 b.key_order,
                          pos_order := b.pos_order.dropLast, sz := b.sz - 1 }
        else
          match s with
          | [] => .ub
          | _ :: rest =>
            .ok () { b with key_order := assign last.2.1 rest b.key_order,
                            pos_order := b.pos_order.dropLast, sz := b.sz - 1 }

/-- Body of `impl::pop(K const &)`. -/
def pop_key (b : impl K V) (key : K) : Res (impl K V) Unit :=
  if b.sz = 0 then .throw .EmptyContainer b
  else
    match find b.key_order key with
    | none => .throw .KeyNotFound b
    | some s =>
      match s with
      | [] => .ub
      | removed :: rest =>
        let ko := if s.length = 1 then erase key b.key_order else assign key rest b.key_order
        match eraseNode removed b.pos_order with
        | none => .ub
        | some pos => .ok () { b with key_order := ko, pos_order := pos, sz := b.sz - 1 }

/-- Body of `impl::front()`; the returned pair refers to the last node of `pos_order`. -/
def front (b : impl K V) : Res (impl K V) (K × V) :=
  if b.sz = 0 then .throw .EmptyContainer b
  else
    match b.pos_order.getLast? with
    | none => .ub
    | some last => .ok last.2 b

/-- Body of `impl::front() const`. -/
def front_const (b : impl K V) : Out (K × V) :=
  if b.sz = 0 then .exn .EmptyContainer
  else
    match b.pos_order.getLast? with
    | none => .ub
    | some last => .val last.2

/-- Body of `impl::front(K const &)`; the returned reference is to the value of the node
on top of the key's stack. -/
def front_key (b : impl K V) (key : K) : Res (impl K V) V :=
  if b.sz = 0 then .throw .EmptyContainer b
  else
    match find b.key_order key with
    | none => .throw .KeyNotFound b
    | some s =>
      match s with
      | [] => .ub
      | top :: _ =>
        match node top b.pos_order with
        | none => .ub
        | some e => .ok e.2.2 b

/-- Body of `impl::size`. -/
def size (b : impl K V) : Nat := b.sz

/-- Body of `impl::count`. -/
def count (b : impl K V) (key : K) : Nat :=
  match find b.key_order key with
  | none => 0
  | some s => s.length

/-- Body of `impl::clear`. -/
def clear (b : impl K V) : impl K V :=
  { b with key_order := [], pos_order := [], sz := 0, is_safe := true }

/-- One iteration of the loop of `impl::deep_copy` on `(new_map, new_list)`. -/
def deep_copy_step (acc : List (K × List Nat) × List (Nat × K × V)) (pair : Nat × K × V) :
    List (K × List Nat) × List (Nat × K × V) :=
  let new_map := acc.1
  let new_list := acc.2
  let n := fresh new_list
  match find new_map pair.2.1 with
  | none => (insert pair.2.1 [n] new_map, new_list ++ [(n, pair.2.1, pair.2.2)])
  | some s => (assign pair.2.1 (n :: s) new_map, new_list ++ [(n, pair.2.1, pair.2.2)])

/-- Body of `impl::deep_copy(other)`, as it leaves `this`. -/
def deep_copy (other : impl K V) : impl K V :=
  let r := other.pos_order.foldl deep_copy_step ([], [])
  { key_order := r.1, pos_order := r.2, sz := other.sz, is_safe := true }

/-- Copy constructor `impl::impl(const impl &)`: `is_safe(true), sz(other.sz)` and then
`deep_copy(other)`. -/
def copy (other : impl K V) : impl K V := deep_copy other

/-- Move constructor `impl::impl(impl &&)`: the containers and `sz` are taken over (list
iterators stay valid across a move) and `is_safe` is `true`. -/
def move (other : impl K V) : impl K V :=
  { is_safe := true, key_order := other.key_order, pos_order := other.pos_order, sz := other.sz }

/-- Assignment of `v` through the reference `r` that a mutable `front` returned. -/
def write (b : impl K V) (r : Nat) (v : V) : impl K V :=
  { b with pos_order := writeNode r v b.pos_order }

end impl

/-! ## Body invariant and reachable Body states -/

section Invariant
variable {K V : Type} [LinearOrder K]

/-- The index `m` is the per-key projection of the ledger `l`: node identities are
distinct, every key with a node is mapped to the identities of its nodes, newest on top,
no other key is mapped, and the keys of `m` ascend. -/
structure Linked (m : List (K × List Nat)) (l : List (Nat × K × V)) : Prop where
  nodup : (ids l).Nodup
  index : ∀ k, find m k = if idsOf l k = [] then none else some (idsOf l k).reverse
  sorted : (m.map Prod.fst).Pairwise (fun a b => a < b)

/-- The invariant of a Body: `sz` is the length of the ledger and the index is linked
to the ledger. -/
structure impl.Inv (b : impl K V) : Prop where
  size_eq : b.sz = b.pos_order.length
  linked : Linked b.key_order b.pos_order

/-- The Body states a program can produce: from the default-constructed `impl` by `push`,
successful `pop()` and `pop(key)`, `clear`, copy and move construction, the assignment
`is_safe = safety` of the copy-on-write macro, and assignment through a reference that a
mutable `front` returned. -/
inductive impl.Reachable : impl K V → Prop where
  | new : impl.Reachable impl.new
  | push (b : impl K V) (k : K) (v : V) : impl.Reachable b → impl.Reachable (b.push k v)
  | pop (b b' : impl K V) : impl.Reachable b → b.pop = .ok () b' → impl.Reachable b'
  | pop_key (b b' : impl K V) (k : K) :
      impl.Reachable b → b.pop_key k = .ok () b' → impl.Reachable b'
  | clear (b : impl K V) : impl.Reachable b → impl.Reachable b.clear
  | copy (b : impl K V) : impl.Reachable b → impl.Reachable (impl.copy b)
  | move (b : impl K V) : impl.Reachable b → impl.Reachable (impl.move b)
  | set_safe (b : impl K V) (safety : Bool) :
      impl.Reachable b → impl.Reachable { b with is_safe := safety }
  | write (b : impl K V) (r : Nat) (v : V) : impl.Reachable b → impl.Reachable (b.write r v)

/-- A call of `push`, `pop()` or `pop(key)`. -/
inductive Call (K V : Type) where
  | push (k : K) (v : V)
  | pop
  | pop_key (k : K)
  deriving DecidableEq, Repr

/-- The Body after a sequence of calls, a call that throws leaving behind the state it
threw in; `none` if a call has undefined behaviour. -/
def impl.run : List (Call K V) → impl K V → Option (impl K V)
  | [], b => some b
  | .push k v :: t, b => impl.run t (b.push k v)
  | .pop :: t, b =>
    match b.pop with
    | .ok _ b' => impl.run t b'
    | .throw _ b' => impl.run t b'
    | .ub => none
  | .pop_key k :: t, b =>
    match b.pop_key k with
    | .ok _ b' => impl.run t b'
    | .throw _ b' => impl.run t b'
    | .ub => none

/-- The call `pop(key)` made `n` times in a row on a Body, stopping at the first call that
does not return normally. -/
def impl.pop_key_times (key : K) : Nat → impl K V → Res (impl K V) Unit
  | 0, b => .ok () b
  | n + 1, b =>
    match b.pop_key key with
    | .ok _ b' => impl.pop_key_times key n b'
    | .throw e b' => .throw e b'
    | .ub => .ub

end Invariant

/-! ## std::shared_ptr<impl>: a heap of control blocks -/

/-- Control block of a `std::shared_ptr<impl>` with the object it owns. -/
structure cell (K V : Type) where
  obj : impl K V
  use_count : Nat
  deriving DecidableEq, Repr

/-- The free store: the live control blocks by address. -/
abbrev Heap (K V : Type) := List (Nat × cell K V)

section Heap
variable {K V : Type}

/-- Address of a newly allocated control block: one that no live block has. -/
def freshAddr (h : Heap K V) : Nat := (h.map (fun p => p.1)).foldr max 0 + 1

/-- Model of `std::make_shared<impl>(b)`: a new control block with one owner. -/
def make_shared (h : Heap K V) (b : impl K V) : Nat × Heap K V :=
  (freshAddr h, insert (freshAddr h) ⟨b, 1⟩ h)

/-- Model of `shared_ptr::use_count()`: `0` for a null pointer. -/
def use_count (h : Heap K V) (st : Option Nat) : Nat :=
  match st with
  | none => 0
  | some a =>
    match find h a with
    | none => 0
    | some c => c.use_count

/-- A `shared_ptr` to the block at `a` is copied: one more owner. -/
def acquire (h : Heap K V) (a : Nat) : Heap K V :=
  match find h a with
  | none => h
  | some c => assign a { c with use_count := c.use_count + 1 } h

/-- A `shared_ptr` to the block at `a` is destroyed or reassigned: one owner less, and
the block is freed with its last owner. -/
def release (h : Heap K V) (a : Nat) : Heap K V :=
  match find h a with
  | none => h
  | some c =>
    if c.use_count ≤ 1 then erase a h
    else assign a { c with use_count := c.use_count - 1 } h

/-- The object at `a` is overwritten through the pointer. -/
def store (h : Heap K V) (a : Nat) (b : impl K V) : Heap K V :=
  match find h a with
  | none => h
  | some c => assign a { c with obj := b } h

end Heap

/-! ## class stack (the Handle) -/

/-- The class `cxx::stack<K, V>`: its one data member `std::shared_ptr<impl> st`,
`none` being the null pointer. -/
structure stack where
  st : Option Nat
  deriving DecidableEq, Repr

section Handle
variable {K V : Type} [LinearOrder K]

/-- The macro `COPY_ON_WRITE_CORE(expr, safety)`, `expr` being a call on `*st`. -/
def COPY_ON_WRITE_CORE {α : Type} (expr : impl K V → Res (impl K V) α) (safety : Bool)
    (h : Heap K V) (s : stack) : Res (Heap K V × stack) α :=
  match s.st with
  | none =>
    -- st = std::make_shared<impl>(); expr;
    let a := (make_shared h (impl.new : impl K V)).1
    let h1 := (make_shared h (impl.new : impl K V)).2
    match expr impl.new with
    | .ok r b => .ok r (store h1 a b, ⟨some a⟩)
    | .throw e b => .throw e (store h1 a b, ⟨some a⟩)
    | .ub => .ub
  | some a =>
    match find h a with
    | none => .ub
    | some c =>
      -- auto _old_impl = st;
      let h1 := acquire h a
      if use_count h1 (some a) > 2 then
        -- st = std::make_shared<impl>(impl(*st)); st->is_safe = safety; expr;
        let b1 := impl.move (impl.copy c.obj)
        let a1 := (make_shared h1 b1).1
        let h2 := release (make_shared h1 b1).2 a
        match expr { b1 with is_safe := safety } with
        | .ok r b => .ok r (release (store h2 a1 b) a, ⟨some a1⟩)
        | .throw e b =>
          -- st = _old_impl; throw;
          .throw e (release (release (acquire (store h2 a1 b) a) a1) a, ⟨some a⟩)
        | .ub => .ub
      else
        -- st->is_safe = safety; expr;
        match expr { c.obj with is_safe := safety } with
        | .ok r b => .ok r (release (store h1 a b) a, ⟨some a⟩)
        | .throw e b =>
          -- st = _old_impl; throw;
          .throw e (release (release (acquire (store h1 a b) a) a) a, ⟨some a⟩)
        | .ub => .ub

namespace stack

/-- Default constructor `stack::stack()`: `st(std::make_shared<impl>())`. -/
def new (h : Heap K V) : Heap K V × stack :=
  ((make_shared h (impl.new : impl K V)).2, ⟨some (make_shared h (impl.new : impl K V)).1⟩)

/-- Move constructor `stack::stack(stack &&)`: the new Handle, and `other` afterwards. -/
def move (other : stack) : stack × stack := (⟨other.st⟩, ⟨none⟩)

/-- Copy constructor `stack::stack(stack const &)`: the new Handle. -/
def copy (h : Heap K V) (other : stack) : Res (Heap K V) stack :=
  match other.st with
  | none => .ub
  | some a =>
    match find h a with
    | none => .ub
    | some c =>
      -- st(other.st)
      let h1 := acquire h a
      if !c.obj.is_safe then
        -- st = std::make_shared<impl>(impl(*st));
        let b1 := impl.move (impl.copy c.obj)
        .ok ⟨some (make_shared h1 b1).1⟩ (release (make_shared h1 b1).2 a)
      else .ok ⟨some a⟩ h1

/-- Destructor of `stack`: the member `st` is destroyed. -/
def destroy (h : Heap K V) (s : stack) : Heap K V :=
  match s.st with
  | none => h
  | some a => release h a

/-- Copy assignment `stack::operator=(stack other)` from an lvalue `src`: the parameter
`other` is copy-constructed from `src`, `std::swap(st, other.st)`, and `other`, now
holding the old `st`, is destroyed. -/
def assign (h : Heap K V) (s src : stack) : Res (Heap K V × stack) Unit :=
  match stack.copy h src with
  | .ok other h1 => .ok () (destroy h1 ⟨s.st⟩, ⟨other.st⟩)
  | .throw e h1 => .throw e (h1, s)
  | .ub => .ub

/-- Move assignment `x = std::move(src)` of `stack::operator=(stack other)` for two distinct
objects `x` (here `s`) and `src`: the parameter `other` is move-constructed from `src`,
`std::swap(st, other.st)`, and `other`, now holding the old `st`, is destroyed.  The
result is the heap, `x` afterwards and `src` afterwards. -/
def move_assign (h : Heap K V) (s src : stack) : Heap K V × stack × stack :=
  (destroy h ⟨s.st⟩, ⟨(stack.move src).1.st⟩, (stack.move src).2)

/-- Body of `stack::push`. -/
def push (h : Heap K V) (s : stack) (key : K) (value : V) : Res (Heap K V × stack) Unit :=
  COPY_ON_WRITE_CORE (fun b => .ok () (b.push key value)) true h s

/-- Body of `stack::pop()`. -/
def pop (h : Heap K V) (s : stack) : Res (Heap K V × stack) Unit :=
  COPY_ON_WRITE_CORE impl.pop true h s

/-- Body of `stack::pop(K const &)`. -/
def pop_key (h : Heap K V) (s : stack) (key : K) : Res (Heap K V × stack) Unit :=
  COPY_ON_WRITE_CORE (fun b => b.pop_key key) true h s

/-- Body of `stack::front()`. -/
def front (h : Heap K V) (s : stack) : Res (Heap K V × stack) (K × V) :=
  COPY_ON_WRITE_CORE impl.front false h s

/-- Body of `stack::front() const`, `return st->front();`.  `operator->` of the const
`shared_ptr<impl>` yields an `impl *`, so the call is to the non-const `impl::front()`,
whose pair of references is converted to the returned pair. -/
def front_const (h : Heap K V) (s : stack) : Out (K × V) :=
  match s.st with
  | none => .ub
  | some a =>
    match find h a with
    | none => .ub
    | some c => (impl.front c.obj).out

/-- Body of `stack::front(K const &)`. -/
def front_key (h : Heap K V) (s : stack) (key : K) : Res (Heap K V × stack) V :=
  COPY_ON_WRITE_CORE (fun b => b.front_key key) false h s

/-- Body of `stack::front(K const &) const`:
`st->key_order.find(std::make_shared<K>(key))->second.top()->second`. -/
def front_key_const (h : Heap K V) (s : stack) (key : K) : Out V :=
  match s.st with
  | none => .ub
  | some a =>
    match find h a with
    | none => .ub
    | some c =>
      match find c.obj.key_order key with
      | none => .ub
      | some [] => .ub
      | some (top :: _) =>
        match node top c.obj.pos_order with
        | none => .ub
        | some e => .val e.2.2

/-- Body of `stack::size`. -/
def size (h : Heap K V) (s : stack) : Out Nat :=
  match s.st with
  | none => .val 0
  | some a =>
    match find h a with
    | none => .ub
    | some c => .val c.obj.size

/-- Body of `stack::count`. -/
def count (h : Heap K V) (s : stack) (key : K) : Out Nat :=
  match s.st with
  | none => .ub
  | some a =>
    match find h a with
    | none => .ub
    | some c => .val (c.obj.count key)

/-- Body of `stack::clear`. -/
def clear (h : Heap K V) (s : stack) : Res (Heap K V × stack) Unit :=
  if use_count h s.st > 1 then
    -- st.reset();
    match s.st with
    | none => .ub
    | some a => .ok () (release h a, ⟨none⟩)
  else
    -- st->clear();
    match s.st with
    | none => .ub
    | some a =>
      match find h a with
      | none => .ub
      | some c => .ok () (store h a c.obj.clear, s)

end stack

/-- The (key, value) sequence of the container a Handle stands for, oldest entry first:
that of the ledger of its Body, and the empty sequence for a Handle without a Body. -/
def stack.ledger (h : Heap K V) (s : stack) : List (K × V) :=
  match s.st with
  | none => []
  | some a =>
    match find h a with
    | none => []
    | some c => entries c.obj.pos_order

/-- The safety flag of a Handle, `st->is_safe` of its Body: `true` is safe, `false` is
unsafe; `none` for a Handle without a Body. -/
def stack.is_safe (h : Heap K V) (s : stack) : Option Bool :=
  match s.st with
  | none => none
  | some a => (find h a).map (fun c => c.obj.is_safe)

/-- The mutating member functions of `stack` with their arguments. -/
inductive Mutation (K V : Type) where
  | push (k : K) (v : V)
  | pop
  | pop_key (k : K)
  | clear
  | front
  | front_key (k : K)
  deriving DecidableEq, Repr

/-- The heap and the Handle after a call of a mutating member function, whether it
returns or throws; `none` after undefined behaviour. -/
def stack.mutate (m : Mutation K V) (h : Heap K V) (s : stack) : Option (Heap K V × stack) :=
  match m with
  | .push k v => (stack.push h s k v).state?
  | .pop => (stack.pop h s).state?
  | .pop_key k => (stack.pop_key h s k).state?
  | .clear => (stack.clear h s).state?
  | .front => (stack.front h s).state?
  | .front_key k => (stack.front_key h s k).state?

/-- The Handle after a sequence of calls of mutating member functions, a call that throws
leaving behind the state it threw in; `none` if a call has undefined behaviour. -/
def stack.run : List (Mutation K V) → Heap K V × stack → Option (Heap K V × stack)
  | [], st => some st
  | m :: t, st =>
    match stack.mutate m st.1 st.2 with
    | none => none
    | some st' => stack.run t st'

/-- The call `pop(key)` made `n` times in a row on a Handle, stopping at the first call
that does not return normally. -/
def stack.pop_key_times (key : K) : Nat → Heap K V → stack → Res (Heap K V × stack) Unit
  | 0, h, s => .ok () (h, s)
  | n + 1, h, s =>
    match stack.pop_key h s key with
    | .ok _ st => stack.pop_key_times key n st.1 st.2
    | .throw e st => .throw e st
    | .ub => .ub

/-- The class `stack::const_iterator`: its one data member `key_val_map_cit it`.  An
iterator into the ordered map is modelled by the entries of the map from the one it
points to onwards, in key order; `end()` is the empty list. -/
structure const_iterator (K : Type) where
  it : List (K × List Nat)
  deriving DecidableEq, Repr

/-- Body of `const_iterator::operator++()`: `++it`, undefined on `end()`. -/
def const_iterator.inc (i : const_iterator K) : Out (const_iterator K) :=
  match i.it with
  | [] => .ub
  | _ :: t => .val ⟨t⟩

/-- Body of `const_iterator::operator*`: `*it->first`, undefined on `end()`. -/
def const_iterator.deref (i : const_iterator K) : Out K :=
  match i.it with
  | [] => .ub
  | p :: _ => .val p.1

/-- Body of `const_iterator::operator!=`: `it != other.it`. -/
def const_iterator.ne (i other : const_iterator K) : Bool := decide (i.it ≠ other.it)

/-- Body of `stack::cbegin`: `const_iterator(st->key_order.cbegin())`. -/
def stack.cbegin (h : Heap K V) (s : stack) : Out (const_iterator K) :=
  match s.st with
  | none => .ub
  | some a =>
    match find h a with
    | none => .ub
    | some c => .val ⟨c.obj.key_order⟩

/-- Body of `stack::cend`: `const_iterator(st->key_order.cend())`. -/
def stack.cend (h : Heap K V) (s : stack) : Out (const_iterator K) :=
  match s.st with
  | none => .ub
  | some a =>
    match find h a with
    | none => .ub
    | some _ => .val ⟨[]⟩

/-- The loop `for (it = first; it != last; ++it) use(*it);`, cut off after `fuel` rounds:
the keys handed to `use`, in the order of the rounds, every round calling `operator!=`,
`operator*` and `operator++`; `none` when the loop has not come to its end within `fuel`
rounds. -/
def const_iterator.collect : Nat → const_iterator K → const_iterator K → Option (Out (List K))
  | 0, first, last => if first.ne last then none else some (.val [])
  | fuel + 1, first, last =>
    if first.ne last then
      match first.deref with
      | .val k =>
        match first.inc with
        | .val next =>
          match const_iterator.collect fuel next last with
          | some (.val ks) => some (.val (k :: ks))
          | r => r
        | .exn e => some (.exn e)
        | .ub => some .ub
      | .exn e => some (.exn e)
      | .ub => some .ub
    else some (.val [])

/-- Traversal of a Handle from `cbegin()` to `cend()` in at most `fuel` rounds of the
loop: the keys visited, in order. -/
def stack.keys (fuel : Nat) (h : Heap K V) (s : stack) : Option (Out (List K)) :=
  match stack.cbegin h s, stack.cend h s with
  | .val first, .val last => const_iterator.collect fuel first last
  | _, _ => some .ub

/-- A Handle in a heap: a null `st`, or an `st` that points to a live control block with
at least one owner (the Handle itself) whose object is a reachable Body state. -/
def stack.Valid (h : Heap K V) (s : stack) : Prop :=
  ∀ a, s.st = some a → ∃ c, find h a = some c ∧ 1 ≤ c.use_count ∧ c.obj.Reachable

/-- What a call that throws has to leave of the Handle `s`, whose Body was the object of
the block `c` at address `a` of the heap `h`, in the heap `h'` after the call: the results
of `size()`, `count(k)` and `front() const` and the (key, value) sequence are the same,
the block at `a` holds the same index, ledger and `sz` with the same number of owners, a
block that was shared is the same in all, and no other address is touched. -/
def stack.Kept (h h' : Heap K V) (s : stack) (a : Nat) (c : cell K V) : Prop :=
  stack.size h' s = stack.size h s ∧
  (∀ k, stack.count h' s k = stack.count h s k) ∧
  stack.front_const h' s = stack.front_const h s ∧
  stack.ledger h' s = stack.ledger h s ∧
  (∃ c', find h' a = some c' ∧ c'.obj.pos_order = c.obj.pos_order ∧
    c'.obj.key_order = c.obj.key_order ∧ c'.obj.sz = c.obj.sz ∧ c'.use_count = c.use_count) ∧
  (2 ≤ c.use_count → find h' a = some c) ∧
  (∀ x, x ≠ a → find h' x = find h x)

end Handle

/-! ## A program state: the live Handles and the heap -/

/-- A program state: the heap and the Handle objects that are alive, in the order of
their construction. -/
structure Sys (K V : Type) where
  heap : Heap K V
  vars : List stack

/-- What a program can do with its Handles, the Handles being named by their position in
`Sys.vars`: default construction, copy construction from `j`, move construction from `j`,
the copy assignment `vars[i] = vars[j]`, the move assignment `vars[i] = std::move(vars[j])`,
destruction, a call of a mutating member function, and an assignment of `v` through a
reference, obtained from a mutable `front`, to the value of the node `r` of the Body at
address `a`. -/
inductive Action (K V : Type) where
  | construct
  | copy (j : Nat)
  | move (j : Nat)
  | assign (i j : Nat)
  | move_assign (i j : Nat)
  | destroy (i : Nat)
  | call (i : Nat) (m : Mutation K V)
  | write (a r : Nat) (v : V)
  deriving DecidableEq, Repr

section System
variable {K V : Type} [LinearOrder K]

/-- The state of a program that has not constructed a Handle yet. -/
def Sys.init : Sys K V := ⟨[], []⟩

/-- One action of the program; `none` when the action has undefined behaviour or names a
Handle or a Body that does not exist.  A move assignment of a Handle to itself leaves
every `st` as it was. -/
def Sys.step (σ : Sys K V) : Action K V → Option (Sys K V)
  | .construct => some ⟨(stack.new σ.heap).1, σ.vars ++ [(stack.new σ.heap).2]⟩
  | .copy j =>
    match σ.vars[j]? with
    | none => none
    | some src =>
      match stack.copy σ.heap src with
      | .ok c h' => some ⟨h', σ.vars ++ [c]⟩
      | _ => none
  | .move j =>
    match σ.vars[j]? with
    | none => none
    | some src => some ⟨σ.heap, σ.vars.set j (stack.move src).2 ++ [(stack.move src).1]⟩
  | .assign i j =>
    match σ.vars[i]?, σ.vars[j]? with
    | some s, some src =>
      match stack.assign σ.heap s src with
      | .ok _ st' => some ⟨st'.1, σ.vars.set i st'.2⟩
      | _ => none
    | _, _ => none
  | .move_assign i j =>
    match σ.vars[i]?, σ.vars[j]? with
    | some s, some src =>
      if i = j then some σ
      else some ⟨(stack.move_assign σ.heap s src).1,
        (σ.vars.set j (stack.move_assign σ.heap s src).2.2).set i
          (stack.move_assign σ.heap s src).2.1⟩
    | _, _ => none
  | .destroy i =>
    match σ.vars[i]? with
    | none => none
    | some s => some ⟨stack.destroy σ.heap s, σ.vars.eraseIdx i⟩
  | .call i m =>
    match σ.vars[i]? with
    | none => none
    | some s =>
      match stack.mutate m σ.heap s with
      | none => none
      | some st' => some ⟨st'.1, σ.vars.set i st'.2⟩
  | .write a r v =>
    match find σ.heap a with
    | none => none
    | some c => some ⟨store σ.heap a (c.obj.write r v), σ.vars⟩

/-- The state after a sequence of actions; `none` as soon as one of them is `none`. -/
def Sys.run : List (Action K V) → Sys K V → Option (Sys K V)
  | [], σ => some σ
  | act :: t, σ =>
    match σ.step act with
    | none => none
    | some σ' => Sys.run t σ'

/-- The number of live Handles whose `st` points to the block at `a`. -/
def owners (vars : List stack) (a : Nat) : Nat := vars.count ⟨some a⟩

/-- The invariant of program states: an address without a block has no owner; a block has
as many owners as its `use_count` says, at least one, its Body is a reachable Body state,
and a Body flagged unsafe has one owner. -/
structure Sys.Inv (σ : Sys K V) : Prop where
  dangling : ∀ a, find σ.heap a = none → owners σ.vars a = 0
  cells : ∀ a c, find σ.heap a = some c →
    c.use_count = owners σ.vars a ∧ 1 ≤ c.use_count ∧ c.obj.Reachable ∧
      (c.obj.is_safe = false → c.use_count = 1)

end System

/-- A program: construct a Handle, `push(1, 10)`, take a mutable `front()`, copy the
Handle, copy-assign the copy to a third Handle, and move the first Handle. -/
def demoProgram : List (Action Nat Nat) :=
  [.construct, .call 0 (.push 1 10), .call 0 .front, .copy 0, .construct, .assign 2 1, .move 0]

/-! ## Example states -/

/-- Scenario A of the specification as a Body, with the keys `1` for "a" and `2` for "b":
`push(1, 1); push(2, 2); push(1, 3)`. -/
def scenarioA : impl Nat Nat := ((impl.new.push 1 1).push 2 2).push 1 3

/-- A heap whose one block holds `scenarioA` and has two owners. -/
def sharedHeap : Heap Nat Nat := [(1, ⟨scenarioA, 2⟩)]

/-- A heap whose one block holds `scenarioA` and has one owner. -/
def ownedHeap : Heap Nat Nat := [(1, ⟨scenarioA, 1⟩)]

/-- A heap whose one block holds an empty Body and has two owners. -/
def emptySharedHeap : Heap Nat Nat := [(1, ⟨impl.new, 2⟩)]

/-- A heap whose one block holds `scenarioA` marked unsafe and has one owner. -/
def unsafeHeap : Heap Nat Nat := [(1, ⟨{ scenarioA with is_safe := false }, 1⟩)]

/-! ## Lemmas on the association list -/

section MapLemmas
variable {A S : Type} [LinearOrder A]
theorem find_cons (k0 : A) (s0 : S) (t : List (A × S)) (k : A) :
    find ((k0, s0) :: t) k = if k0 = k then some s0 else find t k := rfl

theorem find_insert (m : List (A × S)) (k : A) (s : S) (hk : find m k = none) (k' : A) :
    find (insert k s m) k' = if k = k' then some s else find m k' := by
  induction m with
  | nil => simp [insert, find]
  | cons p t ih =>
    obtain ⟨k0, s0⟩ := p
    have hne : k0 ≠ k := by
      intro h; simp [find, h] at hk
    have ht : find t k = none := by simpa [find, hne] using hk
    simp only [insert]
    by_cases h1 : k < k0
    · simp only [if_pos h1, find_cons]
    · simp only [if_neg h1]
      by_cases h2 : k0 < k
      · simp only [if_pos h2, find_cons, ih ht]
        by_cases h3 : k0 = k'
        · have : k ≠ k' := fun h => hne (h3.trans h.symm)
          simp [h3, this]
        · simp [h3]
      · exact absurd (le_antisymm (not_lt.mp h1) (not_lt.mp h2)) hne

theorem find_erase (m : List (A × S)) (k k' : A) :
    find (erase k m) k' = if k' = k then none else find m k' := by
  induction m with
  | nil => simp [erase, find]
  | cons p t ih =>
    obtain ⟨k0, s0⟩ := p
    unfold erase at ih ⊢
    by_cases h0 : k0 = k
    · subst h0
      simp only [List.filter_cons, ne_eq, not_true_eq_false, decide_False, Bool.false_eq_true, if_false, ih, find_cons]
      by_cases h : k' = k0
      · simp [h]
      · simp [h, Ne.symm h]
    · simp only [List.filter_cons, ne_eq, h0, not_false_eq_true, decide_True, if_true, find_cons, ih]
      by_cases h : k0 = k'
      · have : k' ≠ k := fun e => h0 (h.trans e)
        simp [h, this]
      · simp [h]

theorem find_assign (m : List (A × S)) (k : A) (s : S) (k' : A) :
    find (assign k s m) k' = if k' = k then (find m k).map (fun _ => s) else find m k' := by
  induction m with
  | nil => simp [assign, find]
  | cons p t ih =>
    obtain ⟨k0, s0⟩ := p
    simp only [assign]
    by_cases h0 : k0 = k
    · subst h0
      simp only [if_true, find_cons]
      by_cases h : k0 = k'
      · simp [h]
      · simp [h, Ne.symm h]
    · simp only [if_neg h0, find_cons, ih]
      by_cases h : k0 = k'
      · have : k' ≠ k := fun e => h0 (h.trans e)
        simp [h, this]
      · simp [h]

theorem find_assign_some (m : List (A × S)) (k : A) (s s0 : S) (h : find m k = some s0) (k' : A) :
    find (assign k s m) k' = if k' = k then some s else find m k' := by
  rw [find_assign, h]; rfl

theorem keys_assign (m : List (A × S)) (k : A) (s : S) :
    (assign k s m).map Prod.fst = m.map Prod.fst := by
  induction m with
  | nil => rfl
  | cons p t ih =>
    obtain ⟨k0, s0⟩ := p
    simp only [assign]
    by_cases h0 : k0 = k
    · simp [h0]
    · simp [h0, ih]

theorem mem_keys_insert (m : List (A × S)) (k : A) (s : S) (x : A)
    (hx : x ∈ (insert k s m).map Prod.fst) : x = k ∨ x ∈ m.map Prod.fst := by
  induction m with
  | nil => simpa [insert] using hx
  | cons p t ih =>
    obtain ⟨k0, s0⟩ := p
    simp only [insert] at hx
    by_cases h1 : k < k0
    · simp only [if_pos h1, List.map_cons, List.mem_cons] at hx
      simpa using hx
    · simp only [if_neg h1] at hx
      by_cases h2 : k0 < k
      · simp only [if_pos h2, List.map_cons, List.mem_cons] at hx
        rcases hx with hx | hx
        · right; simp [hx]
        · rcases ih hx with h | h
          · left; exact h
          · right; simp [h]
      · simp only [if_neg h2] at hx
        right; exact hx

theorem sorted_insert (m : List (A × S)) (k : A) (s : S)
    (hm : (m.map Prod.fst).Pairwise (· < ·)) :
    ((insert k s m).map Prod.fst).Pairwise (· < ·) := by
  induction m with
  | nil => simp [insert]
  | cons p t ih =>
    obtain ⟨k0, s0⟩ := p
    simp only [List.map_cons, List.pairwise_cons] at hm
    simp only [insert]
    by_cases h1 : k < k0
    · simp only [if_pos h1, List.map_cons, List.pairwise_cons]
      refine ⟨?_, hm⟩
      intro x hx
      rcases List.mem_cons.mp hx with hx | hx
      · rw [hx]; exact h1
      · exact lt_trans h1 (hm.1 x hx)
    · simp only [if_neg h1]
      by_cases h2 : k0 < k
      · simp only [if_pos h2, List.map_cons, List.pairwise_cons]
        refine ⟨?_, ih hm.2⟩
        intro x hx
        rcases mem_keys_insert t k s x hx with h | h
        · rw [h]; exact h2
        · exact hm.1 x h
      · simp only [if_neg h2, List.map_cons, List.pairwise_cons]
        exact hm

theorem sorted_erase (m : List (A × S)) (k : A)
    (hm : (m.map Prod.fst).Pairwise (· < ·)) :
    ((erase k m).map Prod.fst).Pairwise (· < ·) := by
  unfold erase
  exact List.Pairwise.sublist (List.Sublist.map _ (List.filter_sublist _)) hm

end MapLemmas

/-! ## Lemmas on the ledger -/

section LedgerLemmas
variable {K V : Type}

theorem le_foldr_max (L : List Nat) (x : Nat) (hx : x ∈ L) : x ≤ L.foldr max 0 := by
  induction L with
  | nil => simp at hx
  | cons y t ih =>
    simp only [List.foldr_cons]
    rcases List.mem_cons.mp hx with h | h
    · rw [h]; exact le_max_left _ _
    · exact le_trans (ih h) (le_max_right _ _)

theorem fresh_not_mem (l : List (Nat × K × V)) : fresh l ∉ ids l := by
  intro h
  have := le_foldr_max (ids l) (fresh l) h
  unfold fresh at this
  omega

theorem ids_append (l₁ l₂ : List (Nat × K × V)) : ids (l₁ ++ l₂) = ids l₁ ++ ids l₂ := by
  simp [ids]

end LedgerLemmas

section LinkedLemmas
variable {K V : Type} [LinearOrder K]

theorem idsOf_append (l₁ l₂ : List (Nat × K × V)) (k : K) :
    idsOf (l₁ ++ l₂) k = idsOf l₁ k ++ idsOf l₂ k := by
  simp [idsOf, ids]

theorem idsOf_singleton (n : Nat) (k : K) (v : V) (k' : K) :
    idsOf [(n, k, v)] k' = if k = k' then [n] else [] := by
  by_cases h : k = k' <;> simp [idsOf, ids, h]

theorem idsOf_sublist (l : List (Nat × K × V)) (k : K) : (idsOf l k).Sublist (ids l) := by
  unfold idsOf ids
  exact List.Sublist.map _ (List.filter_sublist _)

theorem mem_idsOf (l : List (Nat × K × V)) (k : K) (r : Nat) :
    r ∈ idsOf l k ↔ ∃ v, (r, k, v) ∈ l := by
  unfold idsOf ids
  simp only [List.mem_map, List.mem_filter, decide_eq_true_eq]
  constructor
  · rintro ⟨⟨n, k', v⟩, ⟨hm, hk⟩, hr⟩
    simp only at hk hr
    subst hk; subst hr
    exact ⟨v, hm⟩
  · rintro ⟨v, hm⟩
    exact ⟨(r, k, v), ⟨hm, rfl⟩, rfl⟩

/-- The step shared by `impl::push` and the loop of `impl::deep_copy` keeps the index
linked to the ledger. -/
theorem Linked.append {m : List (K × List Nat)} {l : List (Nat × K × V)} (hl : Linked m l)
    (k : K) (v : V) :
    Linked (match find m k with
            | none => insert k [fresh l] m
            | some s => assign k (fresh l :: s) m) (l ++ [(fresh l, k, v)]) := by
  have hidx := hl.index k
  refine ⟨?_, ?_, ?_⟩
  · rw [ids_append]
    refine List.Nodup.append hl.nodup (by simp [ids]) ?_
    intro x hx hx'
    simp only [ids, List.map_cons, List.map_nil, List.mem_singleton] at hx'
    subst hx'
    exact fresh_not_mem l hx
  · intro k'
    rw [idsOf_append, idsOf_singleton]
    by_cases he : idsOf l k = []
    · rw [if_pos he] at hidx
      rw [hidx]
      simp only
      rw [find_insert m k _ hidx]
      by_cases hk : k = k'
      · subst hk; simp [he]
      · simp only [if_neg hk, List.append_nil]
        exact hl.index k'
    · rw [if_neg he] at hidx
      rw [hidx]
      simp only
      rw [find_assign_some m k _ _ hidx]
      by_cases hk : k = k'
      · subst hk; simp
      · have hk' : k' ≠ k := fun e => hk e.symm
        simp only [if_neg hk, if_neg hk', List.append_nil]
        exact hl.index k'
  · cases hf : find m k with
    | none => simpa using sorted_insert m k _ hl.sorted
    | some s => simpa [keys_assign] using hl.sorted

end LinkedLemmas

section EraseLemmas
variable {K V : Type}

theorem filter_ne_self (l : List (Nat × K × V)) (r : Nat) (h : r ∉ ids l) :
    l.filter (fun e => decide (e.1 ≠ r)) = l := by
  rw [List.filter_eq_self]
  intro e he
  have : e.1 ≠ r := by
    intro e'
    apply h
    unfold ids
    exact List.mem_map.mpr ⟨e, he, e'⟩
  simpa using this

theorem eraseNode_split (pre post : List (Nat × K × V)) (r : Nat) (k : K) (v : V)
    (hn : (ids (pre ++ (r, k, v) :: post)).Nodup) :
    eraseNode r (pre ++ (r, k, v) :: post) = some (pre ++ post) := by
  have hmem : r ∈ ids (pre ++ (r, k, v) :: post) := by simp [ids]
  rw [ids_append] at hn
  have hn' := List.nodup_append.mp hn
  have hpre : r ∉ ids pre := by
    intro h
    exact hn'.2.2 h (by simp [ids])
  have hpost : r ∉ ids post := by
    have := hn'.2.1
    simp only [ids, List.map_cons, List.nodup_cons] at this
    exact this.1
  unfold eraseNode
  rw [if_pos hmem, List.filter_append, List.filter_cons, filter_ne_self pre r hpre,
    filter_ne_self post r hpost]
  simp

end EraseLemmas

section PopLemmas
variable {K V : Type} [LinearOrder K]

theorem Linked.find_last {m : List (K × List Nat)} {init : List (Nat × K × V)} {n : Nat} {k : K}
    {v : V} (hl : Linked m (init ++ [(n, k, v)])) :
    find m k = some (n :: (idsOf init k).reverse) := by
  have h := hl.index k
  rw [idsOf_append, idsOf_singleton] at h
  simpa using h

/-- Unlinking the last node, with the index updated as `impl::pop()` does, keeps the
index linked to the ledger. -/
theorem Linked.pop_back {m : List (K × List Nat)} {init : List (Nat × K × V)} {n : Nat} {k : K}
    {v : V} (hl : Linked m (init ++ [(n, k, v)])) :
    Linked (if idsOf init k = [] then erase k m else assign k (idsOf init k).reverse m) init := by
  have hlast := hl.find_last
  refine ⟨?_, ?_, ?_⟩
  · have := hl.nodup
    rw [ids_append] at this
    exact (List.nodup_append.mp this).1
  · intro k'
    have h := hl.index k'
    rw [idsOf_append, idsOf_singleton] at h
    by_cases he : idsOf init k = []
    · rw [if_pos he, find_erase]
      by_cases hk : k' = k
      · subst hk; simp [he]
      · have hk' : k ≠ k' := fun e => hk e.symm
        simpa [hk, hk'] using h
    · rw [if_neg he, find_assign_some m k _ _ hlast]
      by_cases hk : k' = k
      · subst hk; simp [he]
      · have hk' : k ≠ k' := fun e => hk e.symm
        simpa [hk, hk'] using h
  · by_cases he : idsOf init k = []
    · rw [if_pos he]; exact sorted_erase m k hl.sorted
    · rw [if_neg he, keys_assign]; exact hl.sorted

theorem idsOf_split (l : List (Nat × K × V)) (k : K) (xs : List Nat) (r : Nat)
    (h : idsOf l k = xs ++ [r]) :
    ∃ pre v post, l = pre ++ (r, k, v) :: post ∧ (∀ e ∈ post, e.2.1 ≠ k) ∧ idsOf pre k = xs := by
  induction l using List.reverseRecOn with
  | nil => simp [idsOf, ids] at h
  | append_singleton init e ih =>
    obtain ⟨n, k0, v0⟩ := e
    rw [idsOf_append, idsOf_singleton] at h
    by_cases hk : k0 = k
    · subst hk
      rw [if_pos rfl] at h
      have h1 := List.append_inj_left' h rfl
      have h2 := List.append_inj_right' h rfl
      simp only [List.cons.injEq, and_true] at h2
      subst h2
      exact ⟨init, v0, [], rfl, by simp, h1⟩
    · rw [if_neg hk, List.append_nil] at h
      obtain ⟨pre, v, post, hinit, hpost, hpre⟩ := ih h
      refine ⟨pre, v, post ++ [(n, k0, v0)], by simp [hinit], ?_, hpre⟩
      intro e he
      rcases List.mem_append.mp he with he | he
      · exact hpost e he
      · simp only [List.mem_singleton] at he
        subst he; exact hk

theorem idsOf_eq_nil (l : List (Nat × K × V)) (k : K) (h : ∀ e ∈ l, e.2.1 ≠ k) :
    idsOf l k = [] := by
  unfold idsOf ids
  rw [List.map_eq_nil_iff, List.filter_eq_nil_iff]
  intro e he
  simpa using h e he

/-- The node on top of the stack of `k` is the last node of the ledger with key `k`. -/
theorem Linked.split {m : List (K × List Nat)} {l : List (Nat × K × V)} (hl : Linked m l)
    (k : K) (r : Nat) (rest : List Nat) (hf : find m k = some (r :: rest)) :
    ∃ pre v post, l = pre ++ (r, k, v) :: post ∧ (∀ e ∈ post, e.2.1 ≠ k) ∧
      rest = (idsOf pre k).reverse := by
  have h := hl.index k
  rw [hf] at h
  by_cases he : idsOf l k = []
  · rw [if_pos he] at h; cases h
  · rw [if_neg he] at h
    have h1 : idsOf l k = rest.reverse ++ [r] := by
      have := congrArg List.reverse (Option.some.inj h)
      simpa using this.symm
    obtain ⟨pre, v, post, hl', hpost, hpre⟩ := idsOf_split l k _ r h1
    refine ⟨pre, v, post, hl', hpost, ?_⟩
    rw [hpre]; simp

/-- Unlinking the node on top of the stack of `k`, with the index updated as
`impl::pop(K const &)` does, keeps the index linked to the ledger. -/
theorem Linked.erase_top {m : List (K × List Nat)} {pre post : List (Nat × K × V)} {r : Nat}
    {k : K} {v : V} (hl : Linked m (pre ++ (r, k, v) :: post)) (hpost : ∀ e ∈ post, e.2.1 ≠ k) :
    Linked (if idsOf pre k = [] then erase k m else assign k (idsOf pre k).reverse m)
      (pre ++ post) := by
  have hpk : idsOf post k = [] := idsOf_eq_nil post k hpost
  have hcons : ∀ k', idsOf (pre ++ (r, k, v) :: post) k' =
      idsOf pre k' ++ ((if k = k' then [r] else []) ++ idsOf post k') := by
    intro k'
    have : (r, k, v) :: post = [(r, k, v)] ++ post := rfl
    rw [this, idsOf_append, idsOf_append, idsOf_singleton]
  have hfind : find m k = some (r :: (idsOf pre k).reverse) := by
    have h := hl.index k
    rw [hcons, hpk] at h
    simpa using h
  refine ⟨?_, ?_, ?_⟩
  · have hs : (pre ++ post).Sublist (pre ++ (r, k, v) :: post) :=
      List.Sublist.append_left (List.sublist_cons_self _ _) pre
    exact List.Nodup.sublist (List.Sublist.map _ hs) hl.nodup
  · intro k'
    have h := hl.index k'
    rw [hcons] at h
    rw [idsOf_append]
    by_cases he : idsOf pre k = []
    · rw [if_pos he, find_erase]
      by_cases hk : k' = k
      · subst hk; simp [he, hpk]
      · have hk' : k ≠ k' := fun e => hk e.symm
        simpa [hk, hk'] using h
    · rw [if_neg he, find_assign_some m k _ _ hfind]
      by_cases hk : k' = k
      · subst hk; simp [he, hpk]
      · have hk' : k ≠ k' := fun e => hk e.symm
        simpa [hk, hk'] using h
  · by_cases he : idsOf pre k = []
    · rw [if_pos he]; exact sorted_erase m k hl.sorted
    · rw [if_neg he, keys_assign]; exact hl.sorted

end PopLemmas

/-! ## The operations of impl on a Body that satisfies the invariant -/

section ImplLemmas
variable {K V : Type} [LinearOrder K]

theorem impl.Inv.count_eq {b : impl K V} (hb : b.Inv) (k : K) :
    b.count k = (idsOf b.pos_order k).length := by
  unfold impl.count
  rw [hb.linked.index k]
  by_cases he : idsOf b.pos_order k = []
  · simp [he]
  · simp [he]

theorem impl.new_inv : (impl.new : impl K V).Inv := by
  refine ⟨rfl, ⟨?_, ?_, ?_⟩⟩
  · simp [impl.new, ids]
  · intro k; simp [impl.new, find, idsOf, ids]
  · simp [impl.new]

theorem impl.clear_inv (b : impl K V) : b.clear.Inv := by
  refine ⟨rfl, ⟨?_, ?_, ?_⟩⟩
  · simp [impl.clear, ids]
  · intro k; simp [impl.clear, find, idsOf, ids]
  · simp [impl.clear]

theorem impl.push_pos_order (b : impl K V) (k : K) (v : V) :
    (b.push k v).pos_order = b.pos_order ++ [(fresh b.pos_order, k, v)] := by
  unfold impl.push
  cases find b.key_order k <;> rfl

theorem impl.push_sz (b : impl K V) (k : K) (v : V) : (b.push k v).sz = b.sz + 1 := by
  unfold impl.push
  cases find b.key_order k <;> rfl

theorem impl.push_is_safe (b : impl K V) (k : K) (v : V) : (b.push k v).is_safe = b.is_safe := by
  unfold impl.push
  cases find b.key_order k <;> rfl

theorem impl.push_key_order (b : impl K V) (k : K) (v : V) :
    (b.push k v).key_order = (match find b.key_order k with
      | none => insert k [fresh b.pos_order] b.key_order
      | some s => assign k (fresh b.pos_order :: s) b.key_order) := by
  unfold impl.push
  cases find b.key_order k <;> rfl

theorem impl.push_inv (b : impl K V) (hb : b.Inv) (k : K) (v : V) : (b.push k v).Inv := by
  refine ⟨?_, ?_⟩
  · rw [impl.push_sz, impl.push_pos_order, hb.size_eq]; simp
  · rw [impl.push_pos_order, impl.push_key_order]
    exact hb.linked.append k v

theorem impl.Inv.exists_last {b : impl K V} (hb : b.Inv) (hne : b.sz ≠ 0) :
    ∃ init n k v, b.pos_order = init ++ [(n, k, v)] := by
  have hl : b.pos_order ≠ [] := by
    intro h
    apply hne
    rw [hb.size_eq, h]; rfl
  refine ⟨b.pos_order.dropLast, (b.pos_order.getLast hl).1, (b.pos_order.getLast hl).2.1,
    (b.pos_order.getLast hl).2.2, ?_⟩
  exact (List.dropLast_append_getLast hl).symm

/-- What `impl::pop()` does to a non-empty Body whose last node is `(n, k, v)`. -/
theorem impl.pop_eq (b : impl K V) (hb : b.Inv) (init : List (Nat × K × V)) (n : Nat) (k : K)
    (v : V) (hpos : b.pos_order = init ++ [(n, k, v)]) :
    b.pop = .ok () { is_safe := b.is_safe,
                     key_order := (if idsOf init k = [] then erase k b.key_order
                                   else assign k (idsOf init k).reverse b.key_order),
                     pos_order := init,
                     sz := b.sz - 1 } := by
  have hl := hb.linked
  rw [hpos] at hl
  have hfind := hl.find_last
  have hsz : b.sz ≠ 0 := by rw [hb.size_eq, hpos]; simp
  unfold impl.pop
  rw [if_neg hsz, hpos]
  have hlast : (init ++ [(n, k, v)]).getLast? = some (n, k, v) := by simp
  simp only [hlast, hfind, List.dropLast_concat]
  by_cases he : idsOf init k = []
  · simp [he]
  · have : (idsOf init k).length ≠ 0 := by
      intro h; exact he (List.length_eq_zero.mp h)
    simp [he, this]

theorem impl.pop_inv (b : impl K V) (hb : b.Inv) (init : List (Nat × K × V)) (n : Nat) (k : K)
    (v : V) (hpos : b.pos_order = init ++ [(n, k, v)]) :
    impl.Inv ({ is_safe := b.is_safe,
                key_order := (if idsOf init k = [] then erase k b.key_order
                              else assign k (idsOf init k).reverse b.key_order),
                pos_order := init,
                sz := b.sz - 1 } : impl K V) := by
  have hl := hb.linked
  rw [hpos] at hl
  refine ⟨?_, hl.pop_back⟩
  simp only
  rw [hb.size_eq, hpos]; simp

theorem impl.pop_empty (b : impl K V) (h : b.sz = 0) : b.pop = .throw .EmptyContainer b := by
  unfold impl.pop
  rw [if_pos h]

end ImplLemmas

section ImplLemmas2
variable {K V : Type} [LinearOrder K]

/-- What `impl::pop(K const &)` does to a Body in which the stack of `key` is not
empty: the ledger splits around the last node with that key, which is unlinked. -/
theorem impl.pop_key_eq (b : impl K V) (hb : b.Inv) (key : K) (r : Nat) (rest : List Nat)
    (hf : find b.key_order key = some (r :: rest)) :
    ∃ pre v post, b.pos_order = pre ++ (r, key, v) :: post ∧ (∀ e ∈ post, e.2.1 ≠ key) ∧
      rest = (idsOf pre key).reverse ∧
      b.pop_key key = .ok () { is_safe := b.is_safe,
                               key_order := (if idsOf pre key = [] then erase key b.key_order
                                   else assign key (idsOf pre key).reverse b.key_order),
                               pos_order := pre ++ post,
                               sz := b.sz - 1 } := by
  obtain ⟨pre, v, post, hpos, hpost, hrest⟩ := hb.linked.split key r rest hf
  refine ⟨pre, v, post, hpos, hpost, hrest, ?_⟩
  have hsz : b.sz ≠ 0 := by rw [hb.size_eq, hpos]; simp
  have hn := hb.linked.nodup
  rw [hpos] at hn
  unfold impl.pop_key
  rw [if_neg hsz, hf]
  simp only [hpos, eraseNode_split pre post r key v hn, List.length_cons]
  by_cases he : idsOf pre key = []
  · have : rest = [] := by rw [hrest, he]; rfl
    simp [he, this]
  · have : rest.length ≠ 0 := by
      intro h
      apply he
      have := List.length_eq_zero.mp h
      rw [hrest] at this
      simpa using this
    simp [he, this, hrest]

theorem impl.pop_key_inv (b : impl K V) (hb : b.Inv) (key : K) (pre post : List (Nat × K × V))
    (r : Nat) (v : V) (hpos : b.pos_order = pre ++ (r, key, v) :: post)
    (hpost : ∀ e ∈ post, e.2.1 ≠ key) :
    impl.Inv ({ is_safe := b.is_safe,
                key_order := (if idsOf pre key = [] then erase key b.key_order
                              else assign key (idsOf pre key).reverse b.key_order),
                pos_order := pre ++ post,
                sz := b.sz - 1 } : impl K V) := by
  have hl := hb.linked
  rw [hpos] at hl
  refine ⟨?_, hl.erase_top hpost⟩
  simp only
  rw [hb.size_eq, hpos]; simp

theorem impl.Inv.find_of_count {b : impl K V} (hb : b.Inv) (k : K) (hc : b.count k ≠ 0) :
    ∃ r rest, find b.key_order k = some (r :: rest) := by
  have hidx := hb.linked.index k
  rw [hb.count_eq] at hc
  have he : idsOf b.pos_order k ≠ [] := fun h => hc (by rw [h]; rfl)
  rw [if_neg he] at hidx
  have hr : (idsOf b.pos_order k).reverse ≠ [] := by simpa using he
  obtain ⟨r, rest, hrr⟩ := List.exists_cons_of_ne_nil hr
  exact ⟨r, rest, by rw [hidx, hrr]⟩

theorem impl.Inv.find_none_of_count {b : impl K V} (hb : b.Inv) (k : K) (hc : b.count k = 0) :
    find b.key_order k = none := by
  have hidx := hb.linked.index k
  rw [hb.count_eq] at hc
  rw [if_pos (List.length_eq_zero.mp hc)] at hidx
  exact hidx

theorem impl.Inv.sz_ne_zero_of_count {b : impl K V} (hb : b.Inv) (k : K) (hc : b.count k ≠ 0) :
    b.sz ≠ 0 := by
  rw [hb.count_eq] at hc
  rw [hb.size_eq]
  intro h
  rw [List.length_eq_zero.mp h] at hc
  exact hc rfl

end ImplLemmas2

section EntriesLemmas
variable {K V : Type}

theorem entries_append (l₁ l₂ : List (Nat × K × V)) :
    entries (l₁ ++ l₂) = entries l₁ ++ entries l₂ := by
  simp [entries]

theorem entries_length (l : List (Nat × K × V)) : (entries l).length = l.length := by
  simp [entries]

theorem ids_writeNode (r : Nat) (v : V) (l : List (Nat × K × V)) : ids (writeNode r v l) = ids l := by
  unfold ids writeNode
  rw [List.map_map]
  apply List.map_congr_left
  intro e _
  by_cases h : e.1 = r <;> simp [h]

end EntriesLemmas

section CopyLemmas
variable {K V : Type} [LinearOrder K]

theorem impl.deep_copy_step_fst (acc : List (K × List Nat) × List (Nat × K × V))
    (pair : Nat × K × V) :
    (impl.deep_copy_step acc pair).1 = (match find acc.1 pair.2.1 with
      | none => insert pair.2.1 [fresh acc.2] acc.1
      | some s => assign pair.2.1 (fresh acc.2 :: s) acc.1) := by
  simp only [impl.deep_copy_step]
  cases find acc.1 pair.2.1 <;> rfl

theorem impl.deep_copy_step_snd (acc : List (K × List Nat) × List (Nat × K × V))
    (pair : Nat × K × V) :
    (impl.deep_copy_step acc pair).2 = acc.2 ++ [(fresh acc.2, pair.2.1, pair.2.2)] := by
  simp only [impl.deep_copy_step]
  cases find acc.1 pair.2.1 <;> rfl

/-- The loop of `impl::deep_copy` keeps the new index linked to the new list and appends
the (key, value) pairs it reads in their order. -/
theorem impl.deep_copy_loop (l : List (Nat × K × V))
    (acc : List (K × List Nat) × List (Nat × K × V)) (hacc : Linked acc.1 acc.2) :
    Linked (l.foldl impl.deep_copy_step acc).1 (l.foldl impl.deep_copy_step acc).2 ∧
      entries (l.foldl impl.deep_copy_step acc).2 = entries acc.2 ++ entries l := by
  induction l generalizing acc with
  | nil => simp [hacc, entries]
  | cons e t ih =>
    have hstep : Linked (impl.deep_copy_step acc e).1 (impl.deep_copy_step acc e).2 := by
      rw [impl.deep_copy_step_fst, impl.deep_copy_step_snd]
      exact hacc.append e.2.1 e.2.2
    obtain ⟨h1, h2⟩ := ih (impl.deep_copy_step acc e) hstep
    refine ⟨h1, ?_⟩
    rw [List.foldl_cons, h2, impl.deep_copy_step_snd, entries_append]
    simp [entries]

theorem linked_nil : Linked ([] : List (K × List Nat)) ([] : List (Nat × K × V)) := by
  refine ⟨?_, ?_, ?_⟩
  · simp [ids]
  · intro k; simp [find, idsOf, ids]
  · simp

theorem impl.copy_entries (b : impl K V) :
    entries (impl.copy b).pos_order = entries b.pos_order := by
  have h := (impl.deep_copy_loop b.pos_order ([], []) linked_nil).2
  simpa [impl.copy, impl.deep_copy, entries] using h

theorem impl.copy_sz (b : impl K V) : (impl.copy b).sz = b.sz := rfl

theorem impl.copy_is_safe (b : impl K V) : (impl.copy b).is_safe = true := rfl

theorem impl.copy_inv (b : impl K V) (hb : b.Inv) : (impl.copy b).Inv := by
  refine ⟨?_, ?_⟩
  · rw [impl.copy_sz, hb.size_eq, ← entries_length, ← impl.copy_entries, entries_length]
  · exact (impl.deep_copy_loop b.pos_order ([], []) linked_nil).1

theorem impl.move_inv (b : impl K V) (hb : b.Inv) : (impl.move b).Inv :=
  ⟨hb.size_eq, hb.linked⟩

theorem impl.set_safe_inv (b : impl K V) (hb : b.Inv) (safety : Bool) :
    impl.Inv { b with is_safe := safety } :=
  ⟨hb.size_eq, hb.linked⟩

theorem idsOf_writeNode (r : Nat) (v : V) (l : List (Nat × K × V)) (k : K) :
    idsOf (writeNode r v l) k = idsOf l k := by
  induction l with
  | nil => rfl
  | cons e t ih =>
    have hc : ∀ (x : Nat × K × V) (t' : List (Nat × K × V)),
        idsOf (x :: t') k = (if x.2.1 = k then [x.1] else []) ++ idsOf t' k := by
      intro x t'
      by_cases h : x.2.1 = k <;> simp [idsOf, ids, h]
    have hw : writeNode r v (e :: t) = (if e.1 = r then (e.1, e.2.1, v) else e) :: writeNode r v t :=
      rfl
    rw [hw, hc, hc, ih]
    by_cases h : e.1 = r <;> simp [h]

theorem impl.write_inv (b : impl K V) (hb : b.Inv) (r : Nat) (v : V) : (b.write r v).Inv := by
  refine ⟨?_, ⟨?_, ?_, ?_⟩⟩
  · simp [impl.write, writeNode, hb.size_eq]
  · simp only [impl.write, ids_writeNode]; exact hb.linked.nodup
  · intro k
    simp only [impl.write, idsOf_writeNode]
    exact hb.linked.index k
  · exact hb.linked.sorted

/-- Every reachable Body state satisfies the invariant. -/
theorem impl.Reachable.inv {b : impl K V} (h : b.Reachable) : b.Inv := by
  induction h with
  | new => exact impl.new_inv
  | push b k v _ ih => exact impl.push_inv b ih k v
  | pop b b' _ hp ih =>
    by_cases hz : b.sz = 0
    · rw [impl.pop_empty b hz] at hp; cases hp
    · obtain ⟨init, n, k, v, hpos⟩ := ih.exists_last hz
      rw [impl.pop_eq b ih init n k v hpos] at hp
      cases hp
      exact impl.pop_inv b ih init n k v hpos
  | pop_key b b' k _ hp ih =>
    by_cases hc : b.count k = 0
    · have hf := ih.find_none_of_count k hc
      unfold impl.pop_key at hp
      rw [hf] at hp
      by_cases hz : b.sz = 0
      · rw [if_pos hz] at hp; cases hp
      · rw [if_neg hz] at hp; cases hp
    · obtain ⟨r, rest, hf⟩ := ih.find_of_count k hc
      obtain ⟨pre, v, post, hpos, hpost, _, heq⟩ := impl.pop_key_eq b ih k r rest hf
      rw [heq] at hp
      cases hp
      exact impl.pop_key_inv b ih k pre post r v hpos hpost
  | clear b _ _ => exact impl.clear_inv b
  | copy b _ ih => exact impl.copy_inv b ih
  | move b _ ih => exact impl.move_inv b ih
  | set_safe b safety _ ih => exact impl.set_safe_inv b ih safety
  | write b r v _ ih => exact impl.write_inv b ih r v

end CopyLemmas

/-! ## What the accessors return, in terms of the (key, value) sequence -/

section NodeLemmas
variable {K V : Type}

theorem node_split (pre post : List (Nat × K × V)) (r : Nat) (k : K) (v : V)
    (hn : (ids (pre ++ (r, k, v) :: post)).Nodup) :
    node r (pre ++ (r, k, v) :: post) = some (r, k, v) := by
  rw [ids_append] at hn
  have hpre : ∀ e ∈ pre, e.1 ≠ r := by
    intro e he h
    have h1 : r ∈ ids pre := List.mem_map.mpr ⟨e, he, h⟩
    exact (List.nodup_append.mp hn).2.2 h1 (by simp [ids])
  unfold node
  rw [List.find?_append]
  have : List.find? (fun e => decide (e.1 = r)) pre = none := by
    rw [List.find?_eq_none]
    intro e he
    simpa using hpre e he
  rw [this]
  simp

theorem entries_getLast? (l : List (Nat × K × V)) :
    (entries l).getLast? = l.getLast?.map (fun e => e.2) := by
  unfold entries
  rw [List.getLast?_map]

theorem impl.front_out (b : impl K V) : b.front.out = b.front_const := by
  unfold impl.front impl.front_const
  by_cases hz : b.sz = 0
  · simp [hz, Res.out]
  · rw [if_neg hz, if_neg hz]
    cases b.pos_order.getLast? <;> rfl

end NodeLemmas

section ObserveLemmas
variable {K V : Type} [LinearOrder K]

theorem idsOf_length (l : List (Nat × K × V)) (k : K) :
    (idsOf l k).length = countKey k (entries l) := by
  unfold idsOf ids countKey entries
  rw [List.length_map, List.filter_map, List.length_map]
  rfl

theorem impl.Inv.count_entries {b : impl K V} (hb : b.Inv) (k : K) :
    b.count k = countKey k (entries b.pos_order) := by
  rw [hb.count_eq, idsOf_length]

theorem impl.Inv.size_entries {b : impl K V} (hb : b.Inv) :
    b.size = (entries b.pos_order).length := by
  rw [entries_length]; exact hb.size_eq

theorem impl.Inv.front_const_entries {b : impl K V} (hb : b.Inv) :
    b.front_const = (match (entries b.pos_order).getLast? with
      | none => .exn .EmptyContainer
      | some e => .val e) := by
  unfold impl.front_const
  rw [entries_getLast?]
  by_cases hz : b.sz = 0
  · have : b.pos_order = [] := List.length_eq_zero.mp (by rw [← hb.size_eq]; exact hz)
    simp [hz, this]
  · obtain ⟨init, n, k, v, hpos⟩ := hb.exists_last hz
    simp [hz, hpos]

theorem impl.Inv.front_entries {b : impl K V} (hb : b.Inv) :
    b.front = (match (entries b.pos_order).getLast? with
      | none => .throw .EmptyContainer b
      | some e => .ok e b) := by
  unfold impl.front
  rw [entries_getLast?]
  by_cases hz : b.sz = 0
  · have : b.pos_order = [] := List.length_eq_zero.mp (by rw [← hb.size_eq]; exact hz)
    simp [hz, this]
  · obtain ⟨init, n, k, v, hpos⟩ := hb.exists_last hz
    simp [hz, hpos]

theorem lastValue_split (pre post : List (Nat × K × V)) (r : Nat) (k : K) (v : V)
    (hpost : ∀ e ∈ post, e.2.1 ≠ k) :
    lastValue k (entries (pre ++ (r, k, v) :: post)) = some v := by
  have hp : (entries post).filter (fun e => decide (e.1 = k)) = [] := by
    rw [List.filter_eq_nil_iff]
    intro e he
    unfold entries at he
    obtain ⟨x, hx, rfl⟩ := List.mem_map.mp he
    simpa using hpost x hx
  unfold lastValue
  have : entries (pre ++ (r, k, v) :: post) = entries pre ++ (k, v) :: entries post := by
    simp [entries]
  rw [this, List.filter_append, List.filter_cons, hp]
  simp

theorem lastValue_eq_none (l : List (Nat × K × V)) (k : K) (h : idsOf l k = []) :
    lastValue k (entries l) = none := by
  have h1 : countKey k (entries l) = 0 := by rw [← idsOf_length, h]; rfl
  unfold countKey at h1
  unfold lastValue
  rw [List.length_eq_zero.mp h1]
  rfl

/-- The top of the stack of `key` dereferences to the last entry with that key. -/
theorem impl.Inv.node_top {b : impl K V} (hb : b.Inv) (key : K) (r : Nat) (rest : List Nat)
    (hf : find b.key_order key = some (r :: rest)) :
    ∃ v, node r b.pos_order = some (r, key, v) ∧ lastValue key (entries b.pos_order) = some v := by
  obtain ⟨pre, v, post, hpos, hpost, _⟩ := hb.linked.split key r rest hf
  have hn := hb.linked.nodup
  rw [hpos] at hn
  exact ⟨v, by rw [hpos]; exact node_split pre post r key v hn,
    by rw [hpos]; exact lastValue_split pre post r key v hpost⟩

theorem impl.Inv.front_key_entries {b : impl K V} (hb : b.Inv) (key : K) :
    b.front_key key = (if b.sz = 0 then .throw .EmptyContainer b else
      match lastValue key (entries b.pos_order) with
      | none => .throw .KeyNotFound b
      | some v => .ok v b) := by
  unfold impl.front_key
  by_cases hz : b.sz = 0
  · rw [if_pos hz, if_pos hz]
  · rw [if_neg hz, if_neg hz]
    by_cases hc : b.count key = 0
    · have hf := hb.find_none_of_count key hc
      have he : idsOf b.pos_order key = [] := by
        rw [hb.count_eq] at hc; exact List.length_eq_zero.mp hc
      rw [hf, lastValue_eq_none _ _ he]
    · obtain ⟨r, rest, hf⟩ := hb.find_of_count key hc
      obtain ⟨v, hnode, hlast⟩ := hb.node_top key r rest hf
      rw [hf, hlast]
      simp only [hnode]

end ObserveLemmas

/-! ## Lemmas on the heap of control blocks -/

section HeapLemmas
variable {K V : Type}

theorem find_none_of_not_mem {S : Type} (m : List (Nat × S)) (k : Nat)
    (h : k ∉ m.map (fun p => p.1)) : find m k = none := by
  induction m with
  | nil => rfl
  | cons p t ih =>
    obtain ⟨k0, s0⟩ := p
    simp only [List.map_cons, List.mem_cons, not_or] at h
    rw [find_cons, if_neg (fun e => h.1 e.symm)]
    exact ih h.2

theorem find_freshAddr (h : Heap K V) : find h (freshAddr h) = none := by
  apply find_none_of_not_mem
  intro hm
  have := le_foldr_max _ _ hm
  unfold freshAddr at this
  omega

theorem find_make_shared (h : Heap K V) (b : impl K V) (x : Nat) :
    find (make_shared h b).2 x = if x = freshAddr h then some ⟨b, 1⟩ else find h x := by
  unfold make_shared
  simp only
  rw [find_insert h _ _ (find_freshAddr h)]
  by_cases hx : x = freshAddr h
  · simp [hx]
  · have : freshAddr h ≠ x := fun e => hx e.symm
    simp [hx, this]

theorem make_shared_fst (h : Heap K V) (b : impl K V) : (make_shared h b).1 = freshAddr h := rfl

theorem find_acquire (h : Heap K V) (a x : Nat) :
    find (acquire h a) x = if x = a then
      (find h a).map (fun c => { c with use_count := c.use_count + 1 }) else find h x := by
  unfold acquire
  cases hf : find h a with
  | none =>
    by_cases hx : x = a
    · simp [hx, hf]
    · simp [hx]
  | some c =>
    simp only [find_assign_some h a _ c hf, Option.map_some']

theorem find_store (h : Heap K V) (a : Nat) (b : impl K V) (x : Nat) :
    find (store h a b) x = if x = a then
      (find h a).map (fun c => { c with obj := b }) else find h x := by
  unfold store
  cases hf : find h a with
  | none =>
    by_cases hx : x = a
    · simp [hx, hf]
    · simp [hx]
  | some c =>
    simp only [find_assign_some h a _ c hf, Option.map_some']

theorem find_release (h : Heap K V) (a x : Nat) :
    find (release h a) x = if x = a then
      (match find h a with
       | none => none
       | some c => if c.use_count ≤ 1 then none
                   else some { c with use_count := c.use_count - 1 }) else find h x := by
  unfold release
  cases hf : find h a with
  | none =>
    by_cases hx : x = a
    · simp [hx, hf]
    · simp [hx]
  | some c =>
    by_cases hc : c.use_count ≤ 1
    · simp only [if_pos hc, find_erase]
    · simp only [if_neg hc, find_assign_some h a _ c hf]

theorem freshAddr_ne (h : Heap K V) (a : Nat) (c : cell K V) (hf : find h a = some c) :
    freshAddr h ≠ a := by
  intro e
  rw [← e, find_freshAddr] at hf
  cases hf

end HeapLemmas

/-! ## The copy-on-write macro, case by case -/

section CowHeapLemmas
variable {K V : Type}

theorem use_count_acquire (h : Heap K V) (a : Nat) (c : cell K V) (hf : find h a = some c) :
    use_count (acquire h a) (some a) = c.use_count + 1 := by
  unfold use_count
  simp only [find_acquire, if_true, hf, Option.map_some']

theorem freshAddr_acquire_ne (h : Heap K V) (a : Nat) (c : cell K V) (hf : find h a = some c) :
    freshAddr (acquire h a) ≠ a := by
  apply freshAddr_ne (acquire h a) a { c with use_count := c.use_count + 1 }
  simp only [find_acquire, if_true, hf, Option.map_some']

theorem find_freshAddr_acquire (h : Heap K V) (a : Nat) (c : cell K V) (hf : find h a = some c) :
    find h (freshAddr (acquire h a)) = none := by
  have h1 := find_freshAddr (acquire h a)
  rw [find_acquire, if_neg (freshAddr_acquire_ne h a c hf)] at h1
  exact h1

end CowHeapLemmas

section CowLemmas
variable {K V : Type} [LinearOrder K]

/-- A Handle without a Body: the macro allocates an empty Body and runs `expr` on it. -/
theorem COW_null {α : Type} (expr : impl K V → Res (impl K V) α) (safety : Bool)
    (h : Heap K V) (s : stack) (hst : s.st = none) :
    COPY_ON_WRITE_CORE expr safety h s =
      (match expr impl.new with
       | .ok r b => .ok r (store (make_shared h impl.new).2 (freshAddr h) b, ⟨some (freshAddr h)⟩)
       | .throw e b =>
         .throw e (store (make_shared h impl.new).2 (freshAddr h) b, ⟨some (freshAddr h)⟩)
       | .ub => .ub) := by
  unfold COPY_ON_WRITE_CORE
  rw [hst]
  rfl

/-- A Handle whose Body has another owner, `expr` returning normally: the Handle moves to
a fresh block that holds the result of `expr` on the copy, the old block loses one owner. -/
theorem COW_shared_ok {α : Type} (expr : impl K V → Res (impl K V) α) (safety : Bool)
    (h : Heap K V) (s : stack) (a : Nat) (c : cell K V) (hst : s.st = some a)
    (hf : find h a = some c) (hc : 2 ≤ c.use_count) (r : α) (b : impl K V)
    (hexpr : expr { impl.move (impl.copy c.obj) with is_safe := safety } = .ok r b) :
    ∃ h', COPY_ON_WRITE_CORE expr safety h s = .ok r (h', ⟨some (freshAddr (acquire h a))⟩) ∧
      ∀ x, find h' x = if x = freshAddr (acquire h a) then some ⟨b, 1⟩
        else if x = a then some ⟨c.obj, c.use_count - 1⟩ else find h x := by
  have hne := freshAddr_acquire_ne h a c hf
  unfold COPY_ON_WRITE_CORE
  rw [hst]
  simp only [hf, use_count_acquire h a c hf, if_pos (show c.use_count + 1 > 2 by omega), hexpr]
  refine ⟨_, rfl, ?_⟩
  intro x
  by_cases hx : x = freshAddr (acquire h a)
  · subst hx
    simp [find_release, find_store, find_make_shared, make_shared_fst, hne]
  · by_cases hxa : x = a
    · subst hxa
      have h1 : ¬ c.use_count + 1 ≤ 1 := by omega
      have h2 : ¬ c.use_count ≤ 1 := by omega
      have h3 : c.use_count ≠ 0 := by omega
      simp [find_release, find_store, find_make_shared, make_shared_fst, find_acquire, hf,
        hne.symm, h2, h3]
    · simp [find_release, find_store, find_make_shared, make_shared_fst, find_acquire, hx, hxa]

/-- A Handle whose Body has another owner, `expr` throwing: the Handle is back on the
old block and every address holds what it held before the call. -/
theorem COW_shared_throw {α : Type} (expr : impl K V → Res (impl K V) α) (safety : Bool)
    (h : Heap K V) (s : stack) (a : Nat) (c : cell K V) (hst : s.st = some a)
    (hf : find h a = some c) (hc : 2 ≤ c.use_count) (e : Exn) (b : impl K V)
    (hexpr : expr { impl.move (impl.copy c.obj) with is_safe := safety } = .throw e b) :
    ∃ h', COPY_ON_WRITE_CORE expr safety h s = .throw e (h', ⟨some a⟩) ∧
      ∀ x, find h' x = find h x := by
  have hne := freshAddr_acquire_ne h a c hf
  have hnone := find_freshAddr_acquire h a c hf
  unfold COPY_ON_WRITE_CORE
  rw [hst]
  simp only [hf, use_count_acquire h a c hf, if_pos (show c.use_count + 1 > 2 by omega), hexpr]
  refine ⟨_, rfl, ?_⟩
  intro x
  by_cases hx : x = freshAddr (acquire h a)
  · subst hx
    simp [find_release, find_store, find_make_shared, make_shared_fst, find_acquire, hne, hnone]
  · by_cases hxa : x = a
    · subst hxa
      have h1 : ¬ c.use_count + 1 ≤ 1 := by omega
      have h2 : ¬ c.use_count ≤ 1 := by omega
      have h3 : c.use_count ≠ 0 := by omega
      simp [find_release, find_store, find_make_shared, make_shared_fst, find_acquire, hf,
        hne.symm, h2, h3]
    · simp [find_release, find_store, find_make_shared, make_shared_fst, find_acquire, hx, hxa]

/-- A Handle that alone owns its Body, `expr` returning normally: the Body is updated in
place. -/
theorem COW_exclusive_ok {α : Type} (expr : impl K V → Res (impl K V) α) (safety : Bool)
    (h : Heap K V) (s : stack) (a : Nat) (c : cell K V) (hst : s.st = some a)
    (hf : find h a = some c) (hc : c.use_count = 1) (r : α) (b : impl K V)
    (hexpr : expr { c.obj with is_safe := safety } = .ok r b) :
    ∃ h', COPY_ON_WRITE_CORE expr safety h s = .ok r (h', ⟨some a⟩) ∧
      ∀ x, find h' x = if x = a then some ⟨b, 1⟩ else find h x := by
  unfold COPY_ON_WRITE_CORE
  rw [hst]
  simp only [hf, use_count_acquire h a c hf, if_neg (show ¬ c.use_count + 1 > 2 by omega), hexpr]
  refine ⟨_, rfl, ?_⟩
  intro x
  by_cases hxa : x = a
  · subst hxa
    simp [find_release, find_store, find_acquire, hf, hc]
  · simp [find_release, find_store, find_acquire, hxa]

/-- A Handle that alone owns its Body, `expr` throwing: the Handle keeps its block, whose
object is what `expr` left of the Body with `is_safe` assigned. -/
theorem COW_exclusive_throw {α : Type} (expr : impl K V → Res (impl K V) α) (safety : Bool)
    (h : Heap K V) (s : stack) (a : Nat) (c : cell K V) (hst : s.st = some a)
    (hf : find h a = some c) (hc : c.use_count = 1) (e : Exn) (b : impl K V)
    (hexpr : expr { c.obj with is_safe := safety } = .throw e b) :
    ∃ h', COPY_ON_WRITE_CORE expr safety h s = .throw e (h', ⟨some a⟩) ∧
      ∀ x, find h' x = if x = a then some ⟨b, 1⟩ else find h x := by
  unfold COPY_ON_WRITE_CORE
  rw [hst]
  simp only [hf, use_count_acquire h a c hf, if_neg (show ¬ c.use_count + 1 > 2 by omega), hexpr]
  refine ⟨_, rfl, ?_⟩
  intro x
  by_cases hxa : x = a
  · subst hxa
    simp [find_release, find_store, find_acquire, hf, hc]
  · simp [find_release, find_store, find_acquire, hxa]

end CowLemmas

/-! ## The Handle operations in terms of the (key, value) sequence -/

section HandleLemmas
variable {K V : Type} [LinearOrder K]

/-- The macro on a valid Handle: `expr` runs on a reachable Body `b0` that has the
(key, value) sequence of the Handle; the Handle ends on a block that holds what `expr`
returned, or, after an exception, on its old address. -/
theorem COW_result {α : Type} (expr : impl K V → Res (impl K V) α) (safety : Bool)
    (h : Heap K V) (s : stack) (hv : s.Valid h) :
    ∃ b0 : impl K V, b0.Reachable ∧ entries b0.pos_order = s.ledger h ∧
      (∀ a c, s.st = some a → find h a = some c →
        b0 = if 2 ≤ c.use_count then { impl.move (impl.copy c.obj) with is_safe := safety }
             else { c.obj with is_safe := safety }) ∧
      (∀ r b, expr b0 = .ok r b → ∃ h' a' n, COPY_ON_WRITE_CORE expr safety h s =
          .ok r (h', ⟨some a'⟩) ∧ find h' a' = some ⟨b, n⟩ ∧ 1 ≤ n) ∧
      (∀ e b, expr b0 = .throw e b → ∃ h' a' c', COPY_ON_WRITE_CORE expr safety h s =
          .throw e (h', ⟨some a'⟩) ∧ find h' a' = some c' ∧ 1 ≤ c'.use_count ∧
          (s.st ≠ none → s.st = some a') ∧
          (∀ a c, s.st = some a → find h a = some c →
            c'.use_count = c.use_count ∧ (2 ≤ c.use_count → c' = c) ∧
            (c.use_count = 1 → c'.obj = b) ∧ ∀ x, x ≠ a → find h' x = find h x)) ∧
      (expr b0 = .ub → COPY_ON_WRITE_CORE expr safety h s = .ub) := by
  cases hst : s.st with
  | none =>
    refine ⟨impl.new, impl.Reachable.new, ?_, ?_, ?_, ?_, ?_⟩
    · simp [stack.ledger, hst, impl.new, entries]
    · intro a c hc; cases hc
    · intro r b hexpr
      refine ⟨store (make_shared h impl.new).2 (freshAddr h) b, freshAddr h, 1, ?_, ?_, le_refl _⟩
      · rw [COW_null expr safety h s hst, hexpr]
      · simp [find_store, find_make_shared]
    · intro e b hexpr
      refine ⟨store (make_shared h impl.new).2 (freshAddr h) b, freshAddr h, ⟨b, 1⟩, ?_, ?_,
        le_refl _, ?_, ?_⟩
      · rw [COW_null expr safety h s hst, hexpr]
      · simp [find_store, find_make_shared]
      · intro hc; exact absurd rfl hc
      · intro a c hc; cases hc
    · intro hexpr
      rw [COW_null expr safety h s hst, hexpr]
  | some a =>
    obtain ⟨c, hf, hc, hr⟩ := hv a hst
    by_cases hsh : 2 ≤ c.use_count
    · refine ⟨{ impl.move (impl.copy c.obj) with is_safe := safety },
        impl.Reachable.set_safe _ _ (impl.Reachable.move _ (impl.Reachable.copy _ hr)),
        ?_, ?_, ?_, ?_, ?_⟩
      · simp [stack.ledger, hst, hf, impl.move, impl.copy_entries]
      · intro a1 c1 ha1 hf1
        cases ha1
        rw [hf] at hf1
        cases hf1
        rw [if_pos hsh]
      · intro r b hexpr
        obtain ⟨h', heq, hfind⟩ := COW_shared_ok expr safety h s a c hst hf hsh r b hexpr
        exact ⟨h', _, 1, heq, by rw [hfind]; simp, le_refl _⟩
      · intro e b hexpr
        obtain ⟨h', heq, hfind⟩ := COW_shared_throw expr safety h s a c hst hf hsh e b hexpr
        refine ⟨h', a, c, heq, by rw [hfind, hf], hc, fun _ => rfl, ?_⟩
        intro a1 c1 ha1 hf1
        cases ha1
        rw [hf] at hf1
        cases hf1
        exact ⟨rfl, fun _ => rfl, fun h1 => by omega, fun x _ => hfind x⟩
      · intro hexpr
        unfold COPY_ON_WRITE_CORE
        rw [hst]
        simp only [hf, use_count_acquire h a c hf, if_pos (show c.use_count + 1 > 2 by omega),
          hexpr]
    · have hone : c.use_count = 1 := by omega
      refine ⟨{ c.obj with is_safe := safety }, impl.Reachable.set_safe _ _ hr, ?_, ?_, ?_, ?_, ?_⟩
      · simp [stack.ledger, hst, hf]
      · intro a1 c1 ha1 hf1
        cases ha1
        rw [hf] at hf1
        cases hf1
        rw [if_neg hsh]
      · intro r b hexpr
        obtain ⟨h', heq, hfind⟩ := COW_exclusive_ok expr safety h s a c hst hf hone r b hexpr
        exact ⟨h', a, 1, heq, by rw [hfind]; simp, le_refl _⟩
      · intro e b hexpr
        obtain ⟨h', heq, hfind⟩ := COW_exclusive_throw expr safety h s a c hst hf hone e b hexpr
        refine ⟨h', a, ⟨b, 1⟩, heq, by rw [hfind]; simp, le_refl _, fun _ => rfl, ?_⟩
        intro a1 c1 ha1 hf1
        cases ha1
        rw [hf] at hf1
        cases hf1
        refine ⟨hone.symm, fun h2 => by omega, fun _ => rfl, ?_⟩
        intro x hx
        rw [hfind, if_neg hx]
      · intro hexpr
        unfold COPY_ON_WRITE_CORE
        rw [hst]
        simp only [hf, use_count_acquire h a c hf,
          if_neg (show ¬ c.use_count + 1 > 2 by omega), hexpr]

end HandleLemmas

/-! ## pop() and pop(key) on the Body -/

section PopTheorems
variable {K V : Type} [LinearOrder K]

/-- On every reachable non-empty Body `pop()` returns normally and removes exactly the
last node of the ledger (the entry most recently pushed and still present), whatever its
key: the ledger loses its last element, `size()` goes down by one, `count` of the key of
the removed entry goes down by one, and `count` of every other key is unchanged. -/
theorem impl.pop_last (b : impl K V) (hr : b.Reachable) (hne : b.size ≠ 0) :
    ∃ b' last, b.pop = .ok () b' ∧ b.pos_order.getLast? = some last ∧
      b'.pos_order = b.pos_order.dropLast ∧ b'.size + 1 = b.size ∧
      b'.count last.2.1 + 1 = b.count last.2.1 ∧
      ∀ k', k' ≠ last.2.1 → b'.count k' = b.count k' := by
  have hb := hr.inv
  obtain ⟨init, n, k, v, hpos⟩ := hb.exists_last hne
  have hb' := impl.pop_inv b hb init n k v hpos
  have hcount : ∀ k', b.count k' =
      (idsOf init k').length + (if k = k' then 1 else 0) := by
    intro k'
    rw [hb.count_eq, hpos, idsOf_append, idsOf_singleton, List.length_append]
    by_cases hk : k = k' <;> simp [hk]
  refine ⟨_, (n, k, v), impl.pop_eq b hb init n k v hpos, by rw [hpos]; simp,
    by rw [hpos]; simp, ?_, ?_, ?_⟩
  · have := hb.size_eq
    rw [hpos] at this
    simp only [impl.size, this, List.length_append, List.length_singleton]
    omega
  · rw [hb'.count_eq, hcount]
    simp
  · intro k' hk'
    have hk : ¬ k = k' := fun e => hk' e.symm
    rw [hb'.count_eq, hcount]
    simp [hk]

/-- On every reachable Body and for every key `k` with `count(k) > 0`, `pop(k)` returns
normally and removes exactly the last node of the ledger whose key is `k`, also when
nodes with other keys follow it: the ledger is `pre ++ e :: post` with `e` of key `k` and
no node of key `k` in `post`, and becomes `pre ++ post`; `size()` and `count(k)` go down
by one and `count` of every other key is unchanged. -/
theorem impl.pop_key_newest (b : impl K V) (hr : b.Reachable) (k : K)
    (hc : 0 < b.count k) :
    ∃ b' pre e post, b.pop_key k = .ok () b' ∧ b.pos_order = pre ++ e :: post ∧ e.2.1 = k ∧
      (∀ x ∈ post, x.2.1 ≠ k) ∧ b'.pos_order = pre ++ post ∧ b'.size + 1 = b.size ∧
      b'.count k + 1 = b.count k ∧ ∀ k', k' ≠ k → b'.count k' = b.count k' := by
  have hb := hr.inv
  obtain ⟨r, rest, hf⟩ := hb.find_of_count k (by omega)
  obtain ⟨pre, v, post, hpos, hpost, _, heq⟩ := impl.pop_key_eq b hb k r rest hf
  have hb' := impl.pop_key_inv b hb k pre post r v hpos hpost
  have hpk : idsOf post k = [] := idsOf_eq_nil post k hpost
  have hcount : ∀ k', b.count k' =
      (idsOf pre k').length + ((if k = k' then 1 else 0) + (idsOf post k').length) := by
    intro k'
    have hcons : (r, k, v) :: post = [(r, k, v)] ++ post := rfl
    rw [hb.count_eq, hpos, hcons, idsOf_append, idsOf_append, idsOf_singleton,
      List.length_append, List.length_append]
    by_cases hk : k = k' <;> simp [hk]
  refine ⟨_, pre, (r, k, v), post, heq, hpos, rfl, hpost, rfl, ?_, ?_, ?_⟩
  · have := hb.size_eq
    rw [hpos] at this
    simp only [impl.size, this, List.length_append, List.length_cons]
    omega
  · rw [hb'.count_eq, hcount]
    simp [idsOf_append, hpk]
  · intro k' hk'
    have hk : ¬ k = k' := fun e => hk' e.symm
    rw [hb'.count_eq, hcount]
    simp [idsOf_append, hk]

/-- On every reachable Body and for every key `k` without entries, `pop(k)`
throws and leaves the Body, hence `size()`, as it was; the exception is `KeyNotFound` when
the container is not empty and `EmptyContainer` when it is. -/
theorem impl.pop_key_absent (b : impl K V) (hr : b.Reachable) (k : K) (hc : b.count k = 0) :
    b.pop_key k = .throw (if b.size = 0 then .EmptyContainer else .KeyNotFound) b := by
  have hf := hr.inv.find_none_of_count k hc
  unfold impl.pop_key impl.size
  by_cases hz : b.sz = 0
  · rw [if_pos hz, if_pos hz]
  · rw [if_neg hz, if_neg hz, hf]

end PopTheorems

/-! ## size() and the counts along a sequence of calls -/

section SizeTheorems
variable {K V : Type} [LinearOrder K]

theorem mem_keys_iff_find {S : Type} (m : List (K × S)) (k : K) :
    k ∈ m.map Prod.fst ↔ find m k ≠ none := by
  induction m with
  | nil => simp [find]
  | cons p t ih =>
    obtain ⟨k0, s0⟩ := p
    rw [find_cons]
    by_cases h : k0 = k
    · simp [h]
    · have h' : ¬ k = k0 := fun e => h e.symm
      simp [h, h', ih]

theorem idsOf_length_count (l : List (Nat × K × V)) (k : K) :
    (idsOf l k).length = (l.map (fun e => e.2.1)).count k := by
  induction l with
  | nil => rfl
  | cons e t ih =>
    have hc : idsOf (e :: t) k = (if e.2.1 = k then [e.1] else []) ++ idsOf t k := by
      by_cases h : e.2.1 = k <;> simp [idsOf, ids, h]
    rw [hc, List.length_append, ih, List.map_cons, List.count_cons]
    by_cases h : e.2.1 = k <;> simp [h, Nat.add_comm]

/-- On a Body that satisfies the invariant, the counts of the keys of the index add up to
the length of the ledger. -/
theorem impl.Inv.sum_counts {b : impl K V} (hb : b.Inv) :
    ((b.key_order.map Prod.fst).map b.count).sum = b.pos_order.length := by
  have hnd : (b.key_order.map Prod.fst).Nodup :=
    List.Pairwise.imp (fun h => ne_of_lt h) hb.linked.sorted
  have hperm : (b.key_order.map Prod.fst).Perm (b.pos_order.map (fun e => e.2.1)).dedup := by
    rw [List.perm_ext_iff_of_nodup hnd (List.nodup_dedup _)]
    intro k
    rw [mem_keys_iff_find, hb.linked.index k, List.mem_dedup]
    by_cases he : idsOf b.pos_order k = []
    · have h0 : (b.pos_order.map (fun e => e.2.1)).count k = 0 := by
        rw [← idsOf_length_count, he]; rfl
      simp [he, List.count_eq_zero.mp h0]
    · have h0 : (b.pos_order.map (fun e => e.2.1)).count k ≠ 0 := by
        rw [← idsOf_length_count]
        intro h; exact he (List.length_eq_zero.mp h)
      have hm : k ∈ b.pos_order.map (fun e => e.2.1) := by
        by_contra hnm
        exact h0 (List.count_eq_zero.mpr hnm)
      simp [he, hm]
  have hfun : b.count = fun k => (b.pos_order.map (fun e => e.2.1)).count k := by
    funext k
    rw [hb.count_eq, idsOf_length_count]
  rw [(hperm.map b.count).sum_eq, hfun, List.sum_map_count_dedup_eq_length, List.length_map]

theorem impl.run_reachable (calls : List (Call K V)) (b : impl K V) (hr : b.Reachable) :
    ∃ b', impl.run calls b = some b' ∧ b'.Reachable := by
  induction calls generalizing b with
  | nil => exact ⟨b, rfl, hr⟩
  | cons c t ih =>
    cases c with
    | push k v => exact ih _ (impl.Reachable.push b k v hr)
    | pop =>
      simp only [impl.run]
      by_cases hz : b.sz = 0
      · rw [impl.pop_empty b hz]; exact ih b hr
      · obtain ⟨init, n, k, v, hpos⟩ := hr.inv.exists_last hz
        have heq := impl.pop_eq b hr.inv init n k v hpos
        rw [heq]
        exact ih _ (impl.Reachable.pop b _ hr heq)
    | pop_key k =>
      simp only [impl.run]
      by_cases hc : b.count k = 0
      · have hf := hr.inv.find_none_of_count k hc
        unfold impl.pop_key
        rw [hf]
        by_cases hz : b.sz = 0
        · rw [if_pos hz]; exact ih b hr
        · rw [if_neg hz]; exact ih b hr
      · obtain ⟨r, rest, hf⟩ := hr.inv.find_of_count k hc
        obtain ⟨pre, v, post, _, _, _, heq⟩ := impl.pop_key_eq b hr.inv k r rest hf
        rw [heq]
        exact ih _ (impl.Reachable.pop_key b _ k hr heq)

/-- C5: for every sequence of `push`, `pop()` and `pop(key)` calls, throwing or not, on
the default-constructed Body, and after every call of it (after the first `n` calls, for
every `n`): no call has undefined behaviour, `size()` is the number of ledger entries, and
`size()` is the sum of `count(k)` over the keys of the index, which are pairwise distinct
and are exactly the keys with a non-zero count. -/
theorem size_is_ledger_length_and_sum_of_counts (calls : List (Call K V)) (n : Nat) :
    ∃ b, impl.run (calls.take n) (impl.new : impl K V) = some b ∧
      b.size = b.pos_order.length ∧
      b.size = ((b.key_order.map Prod.fst).map b.count).sum ∧
      (b.key_order.map Prod.fst).Nodup ∧
      ∀ k, k ∈ b.key_order.map Prod.fst ↔ b.count k ≠ 0 := by
  obtain ⟨b, hrun, hr⟩ := impl.run_reachable (calls.take n) impl.new impl.Reachable.new
  refine ⟨b, hrun, hr.inv.size_eq, ?_, ?_, ?_⟩
  · rw [hr.inv.sum_counts]; exact hr.inv.size_eq
  · exact List.Pairwise.imp (fun h => ne_of_lt h) hr.inv.linked.sorted
  · intro k
    rw [mem_keys_iff_find]
    constructor
    · intro hf hc
      exact hf (hr.inv.find_none_of_count k hc)
    · intro hc hf
      obtain ⟨r, rest, hf'⟩ := hr.inv.find_of_count k hc
      rw [hf] at hf'
      cases hf'

end SizeTheorems

/-! ## The const member functions of a valid Handle -/

section HandleLedger
variable {K V : Type}

theorem stack.ledger_of_find (h : Heap K V) (a : Nat) (c : cell K V) (hf : find h a = some c) :
    stack.ledger h ⟨some a⟩ = entries c.obj.pos_order := by
  simp [stack.ledger, hf]

end HandleLedger

section HandleObserve
variable {K V : Type} [LinearOrder K]

theorem stack.valid_of_find (h : Heap K V) (a : Nat) (b : impl K V) (n : Nat)
    (hf : find h a = some ⟨b, n⟩) (hn : 1 ≤ n) (hr : b.Reachable) :
    stack.Valid h ⟨some a⟩ := by
  intro a' ha'
  cases ha'
  exact ⟨⟨b, n⟩, hf, hn, hr⟩

theorem stack.size_ledger (h : Heap K V) (s : stack) (hv : s.Valid h) :
    stack.size h s = .val (s.ledger h).length := by
  cases hst : s.st with
  | none => simp [stack.size, stack.ledger, hst]
  | some a =>
    obtain ⟨c, hf, _, hr⟩ := hv a hst
    simp only [stack.size, stack.ledger, hst, hf, hr.inv.size_entries]

theorem stack.count_ledger (h : Heap K V) (s : stack) (hv : s.Valid h) (hst : s.st ≠ none)
    (k : K) : stack.count h s k = .val (countKey k (s.ledger h)) := by
  cases hst' : s.st with
  | none => exact absurd hst' hst
  | some a =>
    obtain ⟨c, hf, _, hr⟩ := hv a hst'
    simp only [stack.count, stack.ledger, hst', hf, hr.inv.count_entries]

theorem stack.front_const_ledger (h : Heap K V) (s : stack) (hv : s.Valid h) (hst : s.st ≠ none) :
    stack.front_const h s = (match (s.ledger h).getLast? with
      | none => .exn .EmptyContainer
      | some e => .val e) := by
  cases hst' : s.st with
  | none => exact absurd hst' hst
  | some a =>
    obtain ⟨c, hf, _, hr⟩ := hv a hst'
    simp only [stack.front_const, stack.ledger, hst', hf, impl.front_out,
      hr.inv.front_const_entries]

theorem stack.front_key_const_ledger (h : Heap K V) (s : stack) (hv : s.Valid h)
    (hst : s.st ≠ none) (k : K) :
    stack.front_key_const h s k = (match lastValue k (s.ledger h) with
      | none => .ub
      | some v => .val v) := by
  cases hst' : s.st with
  | none => exact absurd hst' hst
  | some a =>
    obtain ⟨c, hf, _, hr⟩ := hv a hst'
    simp only [stack.front_key_const, stack.ledger, hst', hf]
    by_cases hc : c.obj.count k = 0
    · have hfk := hr.inv.find_none_of_count k hc
      have he : idsOf c.obj.pos_order k = [] := by
        rw [hr.inv.count_eq] at hc; exact List.length_eq_zero.mp hc
      rw [hfk, lastValue_eq_none _ _ he]
    · obtain ⟨r, rest, hfk⟩ := hr.inv.find_of_count k hc
      obtain ⟨v, hnode, hlast⟩ := hr.inv.node_top k r rest hfk
      rw [hfk, hlast]
      simp only [hnode]

end HandleObserve

/-! ## push and the front accessors of the Handle -/

section PairLemmas
variable {K V : Type} [DecidableEq K]

theorem countKey_append (k : K) (es₁ es₂ : List (K × V)) :
    countKey k (es₁ ++ es₂) = countKey k es₁ + countKey k es₂ := by
  simp [countKey]

theorem lastValue_of_split (k : K) (v : V) (pre post : List (K × V))
    (hpost : ∀ e ∈ post, e.1 ≠ k) : lastValue k (pre ++ (k, v) :: post) = some v := by
  have hp : post.filter (fun e => decide (e.1 = k)) = [] := by
    rw [List.filter_eq_nil_iff]
    intro e he
    simpa using hpost e he
  unfold lastValue
  rw [List.filter_append, List.filter_cons, hp]
  simp

theorem exists_split_of_countKey (k : K) (es : List (K × V)) (h : countKey k es ≠ 0) :
    ∃ pre v post, es = pre ++ (k, v) :: post ∧ ∀ e ∈ post, e.1 ≠ k := by
  induction es using List.reverseRecOn with
  | nil => exact absurd rfl h
  | append_singleton init e ih =>
    obtain ⟨k0, v0⟩ := e
    by_cases hk : k0 = k
    · subst hk
      exact ⟨init, v0, [], rfl, by simp⟩
    · have h0 : countKey k init ≠ 0 := by
        rw [countKey_append] at h
        simpa [countKey, hk] using h
      obtain ⟨pre, v, post, hinit, hpost⟩ := ih h0
      refine ⟨pre, v, post ++ [(k0, v0)], by simp [hinit], ?_⟩
      intro e he
      rcases List.mem_append.mp he with he | he
      · exact hpost e he
      · simp only [List.mem_singleton] at he
        subst he; exact hk

end PairLemmas

section HandleTheorems
variable {K V : Type} [LinearOrder K]

theorem stack.push_result (h : Heap K V) (s : stack) (hv : s.Valid h) (k : K) (v : V) :
    ∃ h' s', stack.push h s k v = .ok () (h', s') ∧ s'.Valid h' ∧ s'.st ≠ none ∧
      s'.ledger h' = s.ledger h ++ [(k, v)] := by
  obtain ⟨b0, hr0, hent, _, hok, _, _⟩ :=
    COW_result (fun b => (.ok () (b.push k v) : Res (impl K V) Unit)) true h s hv
  obtain ⟨h', a', n, heq, hf, hn⟩ := hok () (b0.push k v) rfl
  refine ⟨h', ⟨some a'⟩, heq, ?_, by simp, ?_⟩
  · exact stack.valid_of_find h' a' _ n hf hn (impl.Reachable.push b0 k v hr0)
  · rw [stack.ledger_of_find h' a' _ hf]
    simp only
    rw [impl.push_pos_order, entries_append, hent]
    rfl

theorem stack.front_result (h : Heap K V) (s : stack) (hv : s.Valid h) (e : K × V)
    (hl : (s.ledger h).getLast? = some e) : (stack.front h s).out = .val e := by
  obtain ⟨b0, hr0, hent, _, hok, _, _⟩ := COW_result impl.front false h s hv
  have hfront : b0.front = .ok e b0 := by
    rw [hr0.inv.front_entries, hent, hl]
  obtain ⟨h', a', n, heq, _, _⟩ := hok e b0 hfront
  unfold stack.front
  rw [heq]
  rfl

/-- C6: for every valid Handle in every heap (with a Body of its own, with a shared Body,
or without a Body), every key and every value, `push(k, v)` returns normally; afterwards
`size()` is one more than before and `count(k)` is one more than before, wherever
`count(k)` had a value before (on a Handle without a Body `count(k)` is `1` afterwards);
the entry `(k, v)` is appended to the (key, value) sequence. -/
theorem push_never_fails_and_counts (h : Heap K V) (s : stack) (hv : s.Valid h) (k : K) (v : V) :
    ∃ h' s', stack.push h s k v = .ok () (h', s') ∧
      (∃ n, stack.size h s = .val n ∧ stack.size h' s' = .val (n + 1)) ∧
      (∀ n, stack.count h s k = .val n → stack.count h' s' k = .val (n + 1)) ∧
      (s.st = none → stack.count h' s' k = .val 1) ∧
      s'.ledger h' = s.ledger h ++ [(k, v)] := by
  obtain ⟨h', s', heq, hv', hst', hled⟩ := stack.push_result h s hv k v
  have hck : countKey k (s.ledger h ++ [(k, v)]) = countKey k (s.ledger h) + 1 := by
    rw [countKey_append]; simp [countKey]
  refine ⟨h', s', heq, ⟨(s.ledger h).length, stack.size_ledger h s hv, ?_⟩, ?_, ?_, hled⟩
  · rw [stack.size_ledger h' s' hv', hled]; simp
  · intro n hn
    have hst : s.st ≠ none := by
      intro hnone
      simp [stack.count, hnone] at hn
    rw [stack.count_ledger h s hv hst] at hn
    cases hn
    rw [stack.count_ledger h' s' hv' hst', hled, hck]
  · intro hnone
    rw [stack.count_ledger h' s' hv' hst', hled, hck]
    simp [stack.ledger, hnone, countKey]

/-- C7: for every valid Handle whose container is not empty, `front() const` and `front()`
return the last entry of the (key, value) sequence, the entry most recently pushed and
still present; for every valid Handle, key and value, `front() const` and `front()`
right after `push(k, v)` return `(k, v)`; and on every reachable non-empty Body both
`impl::front()` and `impl::front() const` return the (key, value) of the last node of the
ledger. -/
theorem front_returns_ledger_tail (h : Heap K V) (s : stack) (hv : s.Valid h) :
    (∀ n, stack.size h s = .val (n + 1) →
      ∃ e, (s.ledger h).getLast? = some e ∧ stack.front_const h s = .val e ∧
        (stack.front h s).out = .val e) ∧
    (∀ k v, ∃ h' s', stack.push h s k v = .ok () (h', s') ∧
      stack.front_const h' s' = .val (k, v) ∧ (stack.front h' s').out = .val (k, v)) ∧
    (∀ b : impl K V, b.Reachable → b.size ≠ 0 →
      ∃ last, b.pos_order.getLast? = some last ∧ b.front = .ok last.2 b ∧
        b.front_const = .val last.2) := by
  refine ⟨?_, ?_, ?_⟩
  rotate_left 2
  · intro b hr hne
    obtain ⟨init, n, k, v, hpos⟩ := hr.inv.exists_last hne
    have hz : b.sz ≠ 0 := hne
    have hlast : b.pos_order.getLast? = some (n, k, v) := by rw [hpos]; simp
    refine ⟨(n, k, v), hlast, ?_, ?_⟩
    · unfold impl.front
      rw [if_neg hz, hlast]
    · unfold impl.front_const
      rw [if_neg hz, hlast]
  · intro n hn
    have hst : s.st ≠ none := by
      intro hnone
      simp [stack.size, hnone] at hn
    rw [stack.size_ledger h s hv] at hn
    have hne : s.ledger h ≠ [] := by
      intro he
      rw [he] at hn
      cases hn
    refine ⟨(s.ledger h).getLast hne, List.getLast?_eq_getLast _ hne, ?_, ?_⟩
    · rw [stack.front_const_ledger h s hv hst, List.getLast?_eq_getLast _ hne]
    · exact stack.front_result h s hv _ (List.getLast?_eq_getLast _ hne)
  · intro k v
    obtain ⟨h', s', heq, hv', hst', hled⟩ := stack.push_result h s hv k v
    have hl : (s'.ledger h').getLast? = some (k, v) := by rw [hled]; simp
    refine ⟨h', s', heq, ?_, stack.front_result h' s' hv' _ hl⟩
    rw [stack.front_const_ledger h' s' hv' hst', hl]

/-- C8: for every valid Handle and every key `k` with `count(k) > 0`, the (key, value)
sequence is `pre ++ (k, v) :: post` with no entry of key `k` in `post`, whatever other
keys `post` holds, and both `front(k)` and `front(k) const` return that `v`, the value
most recently pushed under `k` and still present. -/
theorem front_key_returns_newest_of_key (h : Heap K V) (s : stack) (hv : s.Valid h) (k : K)
    (n : Nat) (hc : stack.count h s k = .val (n + 1)) :
    ∃ pre v post, s.ledger h = pre ++ (k, v) :: post ∧ (∀ e ∈ post, e.1 ≠ k) ∧
      (stack.front_key h s k).out = .val v ∧ stack.front_key_const h s k = .val v := by
  have hst : s.st ≠ none := by
    intro hnone
    simp [stack.count, hnone] at hc
  rw [stack.count_ledger h s hv hst] at hc
  have hck : countKey k (s.ledger h) ≠ 0 := by
    have := Out.val.inj hc
    omega
  obtain ⟨pre, v, post, hsplit, hpost⟩ := exists_split_of_countKey k (s.ledger h) hck
  have hlast : lastValue k (s.ledger h) = some v := by
    rw [hsplit]; exact lastValue_of_split k v pre post hpost
  refine ⟨pre, v, post, hsplit, hpost, ?_, ?_⟩
  · obtain ⟨b0, hr0, hent, _, hok, _, _⟩ :=
      COW_result (fun b => b.front_key k) false h s hv
    have hsz : b0.sz ≠ 0 := by
      rw [hr0.inv.size_eq, ← entries_length, hent, hsplit]
      simp
    have hfront : b0.front_key k = .ok v b0 := by
      rw [hr0.inv.front_key_entries, if_neg hsz, hent, hlast]
    obtain ⟨h', a', m, heq, _, _⟩ := hok v b0 hfront
    unfold stack.front_key
    rw [heq]
    rfl
  · rw [stack.front_key_const_ledger h s hv hst, hlast]

end HandleTheorems

section HandleWitnesses

theorem scenarioA_reachable : scenarioA.Reachable :=
  impl.Reachable.push _ 1 3 (impl.Reachable.push _ 2 2 (impl.Reachable.push _ 1 1
    impl.Reachable.new))

theorem sharedHeap_valid : stack.Valid sharedHeap ⟨some 1⟩ :=
  stack.valid_of_find sharedHeap 1 scenarioA 2 (by decide) (by decide) scenarioA_reachable

theorem ownedHeap_valid : stack.Valid ownedHeap ⟨some 1⟩ :=
  stack.valid_of_find ownedHeap 1 scenarioA 1 (by decide) (by decide) scenarioA_reachable

theorem push_never_fails_and_counts_witness :
    stack.Valid sharedHeap ⟨some 1⟩ ∧
    ∃ h' s', stack.push sharedHeap ⟨some 1⟩ 1 4 = .ok () (h', s') ∧
      (∃ n, stack.size sharedHeap ⟨some 1⟩ = .val n ∧ stack.size h' s' = .val (n + 1)) ∧
      (∀ n, stack.count sharedHeap ⟨some 1⟩ 1 = .val n → stack.count h' s' 1 = .val (n + 1)) ∧
      ((⟨some 1⟩ : stack).st = none → stack.count h' s' 1 = .val 1) ∧
      s'.ledger h' = stack.ledger sharedHeap ⟨some 1⟩ ++ [(1, 4)] :=
  ⟨sharedHeap_valid, push_never_fails_and_counts sharedHeap ⟨some 1⟩ sharedHeap_valid 1 4⟩

theorem front_returns_ledger_tail_witness :
    stack.Valid ownedHeap ⟨some 1⟩ ∧ stack.size ownedHeap ⟨some 1⟩ = .val (2 + 1) ∧
    ∃ e, (stack.ledger ownedHeap ⟨some 1⟩).getLast? = some e ∧
      stack.front_const ownedHeap ⟨some 1⟩ = .val e ∧
      (stack.front ownedHeap ⟨some 1⟩).out = .val e :=
  ⟨ownedHeap_valid, by decide,
    (front_returns_ledger_tail ownedHeap ⟨some 1⟩ ownedHeap_valid).1 2 (by decide)⟩

theorem front_key_returns_newest_of_key_witness :
    stack.Valid sharedHeap ⟨some 1⟩ ∧ stack.count sharedHeap ⟨some 1⟩ 2 = .val (0 + 1) ∧
    ∃ pre v post, stack.ledger sharedHeap ⟨some 1⟩ = pre ++ (2, v) :: post ∧
      (∀ e ∈ post, e.1 ≠ 2) ∧
      (stack.front_key sharedHeap ⟨some 1⟩ 2).out = .val v ∧
      stack.front_key_const sharedHeap ⟨some 1⟩ 2 = .val v :=
  ⟨sharedHeap_valid, by decide,
    front_key_returns_newest_of_key sharedHeap ⟨some 1⟩ sharedHeap_valid 2 0 (by decide)⟩

end HandleWitnesses

/-! ## Calls that throw: the strong guarantee on the Handle -/

section FrontEmpty
variable {K V : Type}

theorem impl.front_empty (b : impl K V) (h : b.sz = 0) : b.front = .throw .EmptyContainer b := by
  unfold impl.front
  rw [if_pos h]

end FrontEmpty

section ThrowTheorems
variable {K V : Type} [LinearOrder K]

theorem stack.eq_of_st (s : stack) (a : Nat) (hst : s.st = some a) : s = ⟨some a⟩ := by
  cases s
  simp only at hst
  rw [hst]

/-- A call through the macro whose `expr` throws on the prepared Body, leaving that Body
as it found it, leaves the Handle with what it had. -/
theorem COW_throw_kept {α : Type} (expr : impl K V → Res (impl K V) α) (safety : Bool)
    (h : Heap K V) (s : stack) (a : Nat) (c : cell K V) (hst : s.st = some a)
    (hf : find h a = some c) (hc : 1 ≤ c.use_count) (hr : c.obj.Reachable) (e : Exn)
    (hexpr : ∀ b0 : impl K V, b0.Reachable → entries b0.pos_order = entries c.obj.pos_order →
      expr b0 = .throw e b0) :
    ∃ h', COPY_ON_WRITE_CORE expr safety h s = .throw e (h', s) ∧ stack.Kept h h' s a c := by
  have hv : s.Valid h := by
    intro a1 ha1
    rw [hst] at ha1
    cases ha1
    exact ⟨c, hf, hc, hr⟩
  obtain ⟨b0, hr0, hent, hb0, _, hthrow, _⟩ := COW_result expr safety h s hv
  have hled : s.ledger h = entries c.obj.pos_order := by
    simp [stack.ledger, hst, hf]
  rw [hled] at hent
  obtain ⟨h', a', c', heq, hf', _, hsame, hrest⟩ := hthrow e b0 (hexpr b0 hr0 hent)
  have ha' : a' = a := by
    have := hsame (by rw [hst]; simp)
    rw [hst] at this
    exact (Option.some.inj this).symm
  subst ha'
  obtain ⟨huc, hshared, hexcl, hframe⟩ := hrest a' c hst hf
  have hobj : c'.obj.pos_order = c.obj.pos_order ∧ c'.obj.key_order = c.obj.key_order ∧
      c'.obj.sz = c.obj.sz := by
    by_cases hsh : 2 ≤ c.use_count
    · rw [hshared hsh]; exact ⟨rfl, rfl, rfl⟩
    · have hone : c.use_count = 1 := by omega
      rw [hexcl hone, hb0 a' c hst hf, if_neg hsh]
      exact ⟨rfl, rfl, rfl⟩
  obtain ⟨hpos, hko, hsz⟩ := hobj
  refine ⟨h', ?_, ?_, ?_, ?_, ?_, ⟨c', hf', hpos, hko, hsz, huc⟩, ?_, hframe⟩
  · rw [heq, stack.eq_of_st s a' hst]
  · simp [stack.size, hst, hf, hf', impl.size, hsz]
  · intro k
    simp [stack.count, hst, hf, hf', impl.count, hko]
  · simp [stack.front_const, hst, hf, hf', impl.front_out, impl.front_const, hsz, hpos]
  · simp [stack.ledger, hst, hf, hf', hpos]
  · intro hsh
    rw [hf', hshared hsh]

theorem impl.Reachable.sz_of_entries {b0 b : impl K V} (h0 : b0.Reachable) (hb : b.Reachable)
    (hent : entries b0.pos_order = entries b.pos_order) : b0.sz = b.sz := by
  rw [h0.inv.size_eq, hb.inv.size_eq, ← entries_length, hent, entries_length]

theorem impl.Reachable.count_of_entries {b0 b : impl K V} (h0 : b0.Reachable)
    (hb : b.Reachable) (hent : entries b0.pos_order = entries b.pos_order) (k : K) :
    b0.count k = b.count k := by
  rw [h0.inv.count_entries, hb.inv.count_entries, hent]

theorem impl.pop_key_of_count_zero (b : impl K V) (hb : b.Inv) (k : K) (hc : b.count k = 0) :
    b.pop_key k = .throw (if b.size = 0 then .EmptyContainer else .KeyNotFound) b := by
  have hf := hb.find_none_of_count k hc
  unfold impl.pop_key impl.size
  by_cases hz : b.sz = 0
  · rw [if_pos hz, if_pos hz]
  · rw [if_neg hz, if_neg hz, hf]

theorem impl.front_key_of_count_zero (b : impl K V) (hb : b.Inv) (k : K) (hc : b.count k = 0) :
    b.front_key k = .throw (if b.size = 0 then .EmptyContainer else .KeyNotFound) b := by
  have hf := hb.find_none_of_count k hc
  unfold impl.front_key impl.size
  by_cases hz : b.sz = 0
  · rw [if_pos hz, if_pos hz]
  · rw [if_neg hz, if_neg hz, hf]

/-- C2: for every Handle that holds a Body, alone (`use_count = 1`) or together with other
Handles (`use_count ≥ 2`): `pop()` and the mutable `front()` on an empty container, and
`pop(key)` and the mutable `front(key)` with a key that has no entries, throw and leave
the Handle as it was: the same `st`, the same `size()`, `count(k)` for every `k` and
`front() const`, the same ledger nodes in the same order with the same index, the same
number of owners, and a block that was shared unchanged at the same address. -/
theorem failed_mutation_keeps_content (h : Heap K V) (s : stack) (a : Nat) (c : cell K V)
    (hst : s.st = some a) (hf : find h a = some c) (hc : 1 ≤ c.use_count)
    (hr : c.obj.Reachable) :
    (c.obj.size = 0 →
      (∃ h', stack.pop h s = .throw .EmptyContainer (h', s) ∧ stack.Kept h h' s a c) ∧
      (∃ h', stack.front h s = .throw .EmptyContainer (h', s) ∧ stack.Kept h h' s a c)) ∧
    (∀ k, c.obj.count k = 0 →
      (∃ e h', stack.pop_key h s k = .throw e (h', s) ∧ stack.Kept h h' s a c) ∧
      (∃ e h', stack.front_key h s k = .throw e (h', s) ∧ stack.Kept h h' s a c)) := by
  refine ⟨?_, ?_⟩
  · intro hz
    refine ⟨?_, ?_⟩
    · apply COW_throw_kept impl.pop true h s a c hst hf hc hr
      intro b0 h0 hent
      exact impl.pop_empty b0 (by rw [h0.sz_of_entries hr hent]; exact hz)
    · apply COW_throw_kept impl.front false h s a c hst hf hc hr
      intro b0 h0 hent
      exact impl.front_empty b0 (by rw [h0.sz_of_entries hr hent]; exact hz)
  · intro k hk
    refine ⟨?_, ?_⟩
    · refine ⟨if c.obj.size = 0 then .EmptyContainer else .KeyNotFound, ?_⟩
      apply COW_throw_kept (fun b => b.pop_key k) true h s a c hst hf hc hr
      intro b0 h0 hent
      have := impl.pop_key_of_count_zero b0 h0.inv k (by rw [h0.count_of_entries hr hent]; exact hk)
      rw [this]
      simp only [impl.size, h0.sz_of_entries hr hent]
    · refine ⟨if c.obj.size = 0 then .EmptyContainer else .KeyNotFound, ?_⟩
      apply COW_throw_kept (fun b => b.front_key k) false h s a c hst hf hc hr
      intro b0 h0 hent
      have := impl.front_key_of_count_zero b0 h0.inv k
        (by rw [h0.count_of_entries hr hent]; exact hk)
      rw [this]
      simp only [impl.size, h0.sz_of_entries hr hent]

end ThrowTheorems

section ThrowWitnesses

theorem failed_mutation_keeps_content_witness :
    (⟨some 1⟩ : stack).st = some 1 ∧ find emptySharedHeap 1 = some ⟨impl.new, 2⟩ ∧
    1 ≤ (⟨impl.new, 2⟩ : cell Nat Nat).use_count ∧ (impl.new : impl Nat Nat).size = 0 ∧
    (impl.new : impl Nat Nat).count 7 = 0 ∧
    ((∃ h', stack.pop emptySharedHeap ⟨some 1⟩ = .throw .EmptyContainer (h', ⟨some 1⟩) ∧
        stack.Kept emptySharedHeap h' ⟨some 1⟩ 1 ⟨impl.new, 2⟩) ∧
      (∃ h', stack.front emptySharedHeap ⟨some 1⟩ = .throw .EmptyContainer (h', ⟨some 1⟩) ∧
        stack.Kept emptySharedHeap h' ⟨some 1⟩ 1 ⟨impl.new, 2⟩)) ∧
    ((∃ e h', stack.pop_key emptySharedHeap ⟨some 1⟩ 7 = .throw e (h', ⟨some 1⟩) ∧
        stack.Kept emptySharedHeap h' ⟨some 1⟩ 1 ⟨impl.new, 2⟩) ∧
      (∃ e h', stack.front_key emptySharedHeap ⟨some 1⟩ 7 = .throw e (h', ⟨some 1⟩) ∧
        stack.Kept emptySharedHeap h' ⟨some 1⟩ 1 ⟨impl.new, 2⟩)) :=
  ⟨rfl, by decide, by decide, by decide, by decide,
    (failed_mutation_keeps_content emptySharedHeap ⟨some 1⟩ 1 ⟨impl.new, 2⟩ rfl (by decide)
      (by decide) impl.Reachable.new).1 (by decide),
    (failed_mutation_keeps_content emptySharedHeap ⟨some 1⟩ 1 ⟨impl.new, 2⟩ rfl (by decide)
      (by decide) impl.Reachable.new).2 7 (by decide)⟩

end ThrowWitnesses

/-! ## Handles without a Body -/

section NullHandle
variable {K V : Type} [LinearOrder K]

/-- On every valid Handle, with or without a Body, `pop()` and the mutable `front()` throw
`EmptyContainer` exactly when `size()` is `0`; on a Handle with a Body so does
`front() const`. -/
theorem stack.empty_iff_size_zero (h : Heap K V) (s : stack) (hv : s.Valid h) :
    ((stack.pop h s).out = .exn .EmptyContainer ↔ stack.size h s = .val 0) ∧
    ((stack.front h s).out = .exn .EmptyContainer ↔ stack.size h s = .val 0) ∧
    (s.st ≠ none → (stack.front_const h s = .exn .EmptyContainer ↔ stack.size h s = .val 0)) := by
  have hsize := stack.size_ledger h s hv
  refine ⟨?_, ?_, ?_⟩
  · obtain ⟨b0, hr0, hent, _, hok, hthrow, _⟩ := COW_result impl.pop true h s hv
    have hsz : b0.sz = (s.ledger h).length := by
      rw [hr0.inv.size_eq, ← entries_length, hent]
    by_cases hz : b0.sz = 0
    · obtain ⟨h', a', c', heq, _⟩ := hthrow _ _ (impl.pop_empty b0 hz)
      unfold stack.pop
      rw [heq, hsize, ← hsz, hz]
      simp [Res.out]
    · obtain ⟨init, n, k, v, hpos⟩ := hr0.inv.exists_last hz
      obtain ⟨h', a', m, heq, _⟩ := hok _ _ (impl.pop_eq b0 hr0.inv init n k v hpos)
      unfold stack.pop
      rw [heq, hsize, ← hsz]
      simp [Res.out, hz]
  · obtain ⟨b0, hr0, hent, _, hok, hthrow, _⟩ := COW_result impl.front false h s hv
    have hsz : b0.sz = (s.ledger h).length := by
      rw [hr0.inv.size_eq, ← entries_length, hent]
    by_cases hz : b0.sz = 0
    · obtain ⟨h', a', c', heq, _⟩ := hthrow _ _ (impl.front_empty b0 hz)
      unfold stack.front
      rw [heq, hsize, ← hsz, hz]
      simp [Res.out]
    · obtain ⟨init, n, k, v, hpos⟩ := hr0.inv.exists_last hz
      have hfront : b0.front = .ok (k, v) b0 := by
        unfold impl.front
        rw [if_neg hz, hpos]
        simp
      obtain ⟨h', a', m, heq, _⟩ := hok _ _ hfront
      unfold stack.front
      rw [heq, hsize, ← hsz]
      simp [Res.out, hz]
  · intro hst
    rw [stack.front_const_ledger h s hv hst, hsize]
    cases hl : (s.ledger h).getLast? with
    | none =>
      have : s.ledger h = [] := by simpa using hl
      simp [this]
    | some e =>
      have : s.ledger h ≠ [] := by
        intro he
        rw [he] at hl
        cases hl
      simp [this]

end NullHandle

section NullHandleScenarios

/-- C9 fails on a Handle that was cleared while it shared its Body: after `stack a;`
`stack b(a); b.clear();` the member `st` of `b` is null, `b.size()` is `0`, and
`b.front() const` dereferences the null pointer instead of throwing `EmptyContainer`. -/
theorem front_const_of_cleared_copy_is_ub :
    ∃ h1 a h2 b h3 b', stack.new ([] : Heap Nat Nat) = (h1, a) ∧
      stack.copy h1 a = .ok b h2 ∧ stack.clear h2 b = .ok () (h3, b') ∧
      b'.st = none ∧ stack.size h3 b' = .val 0 ∧ stack.front_const h3 b' = .ub ∧
      stack.front_const h3 b' ≠ .exn .EmptyContainer := by
  refine ⟨_, _, _, _, _, _, rfl, rfl, rfl, ?_, ?_, ?_, ?_⟩ <;> decide

/-- C1 fails on a Handle that was cleared while it shared its Body: after `stack a;`
`stack b(a); b.clear();` the member `st` of `b` is null, and the copy construction
`stack c(b)` dereferences the null pointer (`st->is_safe`). -/
theorem copy_of_cleared_copy_is_ub :
    ∃ h1 a h2 b h3 b', stack.new ([] : Heap Nat Nat) = (h1, a) ∧
      stack.copy h1 a = .ok b h2 ∧ stack.clear h2 b = .ok () (h3, b') ∧
      b'.st = none ∧ stack.copy h3 b' = .ub := by
  refine ⟨_, _, _, _, _, _, rfl, rfl, rfl, ?_, ?_⟩ <;> decide

end NullHandleScenarios

/-! ## Frame: what a mutating call leaves untouched -/

section Frame
variable {K V : Type} [LinearOrder K]

/-- A call through the macro on a valid Handle `s` leaves the object of every other live
block as it was, and also the object of the block of `s` itself when that block has
another owner. -/
theorem COW_frame {α : Type} (expr : impl K V → Res (impl K V) α) (safety : Bool)
    (h : Heap K V) (s : stack) (hv : s.Valid h) (y : Nat) (cy : cell K V)
    (hy : find h y = some cy) (hcy : 1 ≤ cy.use_count) (hsh : s.st = some y → 2 ≤ cy.use_count)
    (hexpr : ∀ b0 : impl K V, b0.Reachable → expr b0 ≠ .ub) :
    ∃ st', (COPY_ON_WRITE_CORE expr safety h s).state? = some st' ∧
      ∃ n, find st'.1 y = some ⟨cy.obj, n⟩ ∧ 1 ≤ n := by
  cases hst : s.st with
  | none =>
    have hne : y ≠ freshAddr h := fun e => freshAddr_ne h y cy hy e.symm
    rw [COW_null expr safety h s hst]
    cases he : expr impl.new with
    | ok r b =>
      exact ⟨_, rfl, cy.use_count, by simp [find_store, find_make_shared, hne, hy], hcy⟩
    | throw e b =>
      exact ⟨_, rfl, cy.use_count, by simp [find_store, find_make_shared, hne, hy], hcy⟩
    | ub => exact absurd he (hexpr _ impl.Reachable.new)
  | some a =>
    obtain ⟨c, hf, hc, hr⟩ := hv a hst
    by_cases hshared : 2 ≤ c.use_count
    · have hr0 : impl.Reachable { impl.move (impl.copy c.obj) with is_safe := safety } :=
        impl.Reachable.set_safe _ _ (impl.Reachable.move _ (impl.Reachable.copy _ hr))
      have hyf : y ≠ freshAddr (acquire h a) := by
        intro e
        have := find_freshAddr_acquire h a c hf
        rw [← e, hy] at this
        cases this
      cases he : expr { impl.move (impl.copy c.obj) with is_safe := safety } with
      | ok r b =>
        obtain ⟨h', heq, hfind⟩ := COW_shared_ok expr safety h s a c hst hf hshared r b he
        rw [heq]
        refine ⟨_, rfl, ?_⟩
        simp only [hfind, if_neg hyf]
        by_cases hya : y = a
        · subst hya
          rw [hf] at hy
          cases hy
          exact ⟨cy.use_count - 1, by simp, by omega⟩
        · exact ⟨cy.use_count, by simp [hya, hy], hcy⟩
      | throw e b =>
        obtain ⟨h', heq, hfind⟩ := COW_shared_throw expr safety h s a c hst hf hshared e b he
        rw [heq]
        exact ⟨_, rfl, cy.use_count, by simp only [hfind, hy], hcy⟩
      | ub => exact absurd he (hexpr _ hr0)
    · have hone : c.use_count = 1 := by omega
      have hya : y ≠ a := by
        intro e
        subst e
        rw [hf] at hy
        cases hy
        have := hsh hst
        omega
      cases he : expr { c.obj with is_safe := safety } with
      | ok r b =>
        obtain ⟨h', heq, hfind⟩ := COW_exclusive_ok expr safety h s a c hst hf hone r b he
        rw [heq]
        exact ⟨_, rfl, cy.use_count, by simp only [hfind, if_neg hya, hy], hcy⟩
      | throw e b =>
        obtain ⟨h', heq, hfind⟩ := COW_exclusive_throw expr safety h s a c hst hf hone e b he
        rw [heq]
        exact ⟨_, rfl, cy.use_count, by simp only [hfind, if_neg hya, hy], hcy⟩
      | ub => exact absurd he (hexpr _ (impl.Reachable.set_safe _ _ hr))

theorem impl.pop_ne_ub (b : impl K V) (hr : b.Reachable) : b.pop ≠ .ub := by
  by_cases hz : b.sz = 0
  · rw [impl.pop_empty b hz]; simp
  · obtain ⟨init, n, k, v, hpos⟩ := hr.inv.exists_last hz
    rw [impl.pop_eq b hr.inv init n k v hpos]; simp

theorem impl.pop_key_ne_ub (b : impl K V) (hr : b.Reachable) (k : K) : b.pop_key k ≠ .ub := by
  by_cases hc : b.count k = 0
  · rw [impl.pop_key_of_count_zero b hr.inv k hc]; simp
  · obtain ⟨r, rest, hf⟩ := hr.inv.find_of_count k hc
    obtain ⟨pre, v, post, _, _, _, heq⟩ := impl.pop_key_eq b hr.inv k r rest hf
    rw [heq]; simp

theorem impl.front_ne_ub (b : impl K V) (hr : b.Reachable) : b.front ≠ .ub := by
  rw [hr.inv.front_entries]
  cases (entries b.pos_order).getLast? <;> simp

theorem impl.front_key_ne_ub (b : impl K V) (hr : b.Reachable) (k : K) :
    b.front_key k ≠ .ub := by
  rw [hr.inv.front_key_entries]
  by_cases hz : b.sz = 0
  · rw [if_pos hz]; simp
  · rw [if_neg hz]
    cases lastValue k (entries b.pos_order) <;> simp

/-- A mutating call on a valid Handle `s` has defined behaviour and leaves the object of
every other live block as it was, and also the object of the block of `s` itself when
that block has another owner. -/
theorem stack.mutate_frame (m : Mutation K V) (h : Heap K V) (s : stack) (hv : s.Valid h)
    (hst : s.st ≠ none) (y : Nat) (cy : cell K V) (hy : find h y = some cy)
    (hcy : 1 ≤ cy.use_count) (hsh : s.st = some y → 2 ≤ cy.use_count) :
    ∃ st', stack.mutate m h s = some st' ∧ ∃ n, find st'.1 y = some ⟨cy.obj, n⟩ ∧ 1 ≤ n := by
  cases m with
  | push k v =>
    exact COW_frame _ true h s hv y cy hy hcy hsh (fun _ _ => by simp)
  | pop => exact COW_frame _ true h s hv y cy hy hcy hsh impl.pop_ne_ub
  | pop_key k =>
    exact COW_frame _ true h s hv y cy hy hcy hsh (fun b hb => impl.pop_key_ne_ub b hb k)
  | front => exact COW_frame _ false h s hv y cy hy hcy hsh impl.front_ne_ub
  | front_key k =>
    exact COW_frame _ false h s hv y cy hy hcy hsh (fun b hb => impl.front_key_ne_ub b hb k)
  | clear =>
    cases hst' : s.st with
    | none => exact absurd hst' hst
    | some a =>
      obtain ⟨c, hf, hc, hr⟩ := hv a hst'
      simp only [stack.mutate, stack.clear, hst', use_count, hf]
      by_cases hgt : c.use_count > 1
      · rw [if_pos hgt]
        refine ⟨_, rfl, ?_⟩
        simp only [find_release]
        by_cases hya : y = a
        · subst hya
          rw [hf] at hy
          cases hy
          have : ¬ cy.use_count ≤ 1 := by omega
          exact ⟨cy.use_count - 1, by simp [hf, this], by omega⟩
        · exact ⟨cy.use_count, by simp [hya, hy], hcy⟩
      · rw [if_neg hgt]
        have hya : y ≠ a := by
          intro e
          subst e
          rw [hf] at hy
          cases hy
          have := hsh hst'
          omega
        exact ⟨_, rfl, cy.use_count, by simp [find_store, hya, hy], hcy⟩

end Frame

section CopyFrame
variable {K V : Type} [LinearOrder K]

/-- Copy construction from a Handle that holds a Body: the copy is a valid Handle with a
Body, the source block keeps its object, and the copy is on the source block only if that
block then has two owners or more. -/
theorem stack.copy_result (h : Heap K V) (o : stack) (y : Nat) (cy : cell K V)
    (hst : o.st = some y) (hy : find h y = some cy) (hcy : 1 ≤ cy.use_count)
    (hr : cy.obj.Reachable) :
    ∃ c h1 n, stack.copy h o = .ok c h1 ∧ c.Valid h1 ∧ c.st ≠ none ∧
      find h1 y = some ⟨cy.obj, n⟩ ∧ 1 ≤ n ∧ (c.st = some y → 2 ≤ n) := by
  unfold stack.copy
  rw [hst]
  simp only [hy]
  by_cases hsafe : cy.obj.is_safe = true
  · have hy1 : find (acquire h y) y = some ⟨cy.obj, cy.use_count + 1⟩ := by
      simp [find_acquire, hy]
    refine ⟨⟨some y⟩, acquire h y, cy.use_count + 1, by simp [hsafe], ?_, by simp, hy1,
      by omega, fun _ => by omega⟩
    exact stack.valid_of_find _ y _ _ hy1 (by omega) hr
  · have hne := freshAddr_acquire_ne h y cy hy
    have hy1 : find (release (make_shared (acquire h y) (impl.move (impl.copy cy.obj))).2 y) y =
        some ⟨cy.obj, cy.use_count⟩ := by
      have h0 : cy.use_count ≠ 0 := by omega
      simp [find_release, find_make_shared, find_acquire, hy, hne.symm, h0]
    have hc1 : find (release (make_shared (acquire h y) (impl.move (impl.copy cy.obj))).2 y)
        (freshAddr (acquire h y)) = some ⟨impl.move (impl.copy cy.obj), 1⟩ := by
      simp [find_release, find_make_shared, hne]
    refine ⟨⟨some (freshAddr (acquire h y))⟩, _, cy.use_count, by simp [hsafe, make_shared_fst],
      ?_, by simp, hy1, hcy, ?_⟩
    · exact stack.valid_of_find _ _ _ 1 hc1 (le_refl _)
        (impl.Reachable.move _ (impl.Reachable.copy _ hr))
    · intro he
      exact absurd (Option.some.inj he) hne

/-- Copy, then mutate the copy: for every Handle `o` that holds a Body and every mutating
member function, copy construction from `o` and then the call on the copy, returning or
throwing, have defined behaviour and leave `o.size()`, `o.front() const`, `o.count(k)`
for every `k` and the (key, value) sequence of `o` as they were before the copy. -/
theorem stack.copy_then_mutate_frame (h : Heap K V) (o : stack) (y : Nat) (cy : cell K V)
    (hst : o.st = some y) (hy : find h y = some cy) (hcy : 1 ≤ cy.use_count)
    (hr : cy.obj.Reachable) (m : Mutation K V) :
    ∃ c h1, stack.copy h o = .ok c h1 ∧
      ∃ h2 c', stack.mutate m h1 c = some (h2, c') ∧
        stack.size h2 o = stack.size h o ∧
        stack.front_const h2 o = stack.front_const h o ∧
        (∀ k, stack.count h2 o k = stack.count h o k) ∧
        stack.ledger h2 o = stack.ledger h o := by
  obtain ⟨c, h1, n, hcopy, hv, hcst, hy1, hn, hsh⟩ := stack.copy_result h o y cy hst hy hcy hr
  obtain ⟨st', hmut, n', hy2, _⟩ :=
    stack.mutate_frame m h1 c hv hcst y ⟨cy.obj, n⟩ hy1 hn hsh
  refine ⟨c, h1, hcopy, st'.1, st'.2, hmut, ?_, ?_, ?_, ?_⟩
  · simp [stack.size, hst, hy, hy2]
  · simp [stack.front_const, hst, hy, hy2]
  · intro k
    simp [stack.count, hst, hy, hy2]
  · simp [stack.ledger, hst, hy, hy2]

end CopyFrame

/-! ## The scenarios of the specification, evaluated -/

section Scenarios

/-- Scenario A, with the keys `1` for "a" and `2` for "b", on a default-constructed
Handle: after `push(1,1); push(2,2); push(1,3)`, `size() == 3` and `front() == (1,3)`;
after `pop()`, `size() == 2`, `front() == (2,2)` and `count(1) == 1`. -/
theorem scenario_A_on_handle :
    ∃ h0 s0 h1 s1 h2 s2 h3 s3 h4 s4, stack.new ([] : Heap Nat Nat) = (h0, s0) ∧
      stack.push h0 s0 1 1 = .ok () (h1, s1) ∧ stack.push h1 s1 2 2 = .ok () (h2, s2) ∧
      stack.push h2 s2 1 3 = .ok () (h3, s3) ∧
      stack.size h3 s3 = .val 3 ∧ stack.front_const h3 s3 = .val (1, 3) ∧
      stack.pop h3 s3 = .ok () (h4, s4) ∧
      stack.size h4 s4 = .val 2 ∧ stack.front_const h4 s4 = .val (2, 2) ∧
      stack.count h4 s4 1 = .val 1 := by
  refine ⟨_, _, _, _, _, _, _, _, _, _, rfl, rfl, rfl, rfl, ?_, ?_, rfl, ?_, ?_, ?_⟩ <;> decide

/-- Scenario B, with the key `1` for "x": after `push(1,10)`, `copy = original` and
`copy.push(1,20)`, `original.count(1) == 1` and `copy.count(1) == 2`. -/
theorem scenario_B_on_handle :
    ∃ h0 s0 h1 s1 c h2 h3 c', stack.new ([] : Heap Nat Nat) = (h0, s0) ∧
      stack.push h0 s0 1 10 = .ok () (h1, s1) ∧ stack.copy h1 s1 = .ok c h2 ∧
      stack.push h2 c 1 20 = .ok () (h3, c') ∧
      stack.count h3 s1 1 = .val 1 ∧ stack.count h3 c' 1 = .val 2 := by
  refine ⟨_, _, _, _, _, _, _, _, rfl, rfl, rfl, rfl, ?_, ?_⟩ <;> decide

/-- Scenario C: the mutable `front()` and `front() const` on a default-constructed Handle
throw `EmptyContainer`. -/
theorem scenario_C_on_handle :
    (stack.front (stack.new ([] : Heap Nat Nat)).1 (stack.new ([] : Heap Nat Nat)).2).out =
      .exn .EmptyContainer ∧
    stack.front_const (stack.new ([] : Heap Nat Nat)).1 (stack.new ([] : Heap Nat Nat)).2 =
      .exn .EmptyContainer := by
  decide

/-- Scenario D, with the key `7` for "z" and one entry of key `1` in the container:
`pop(7)` throws `KeyNotFound` and `size()` is `1` before and after. -/
theorem scenario_D_on_handle :
    ∃ h0 s0 h1 s1 h2 s2, stack.new ([] : Heap Nat Nat) = (h0, s0) ∧
      stack.push h0 s0 1 10 = .ok () (h1, s1) ∧ stack.size h1 s1 = .val 1 ∧
      stack.pop_key h1 s1 7 = .throw .KeyNotFound (h2, s2) ∧ stack.size h2 s2 = .val 1 := by
  refine ⟨_, _, _, _, _, _, rfl, rfl, ?_, rfl, ?_⟩ <;> decide

end Scenarios

/-! ## pop(key): when it throws, when it returns, and repeated calls -/

section PopKeyOutcome
variable {K V : Type} [LinearOrder K]

/-- `pop(key)` on a reachable Body in which `key` has an entry returns normally, in a
reachable Body with one entry of `key` less. -/
theorem impl.pop_key_success (b : impl K V) (hr : b.Reachable) (k : K) (hc : b.count k ≠ 0) :
    ∃ b', b.pop_key k = .ok () b' ∧ b'.Reachable ∧ b'.count k + 1 = b.count k ∧
      b'.size + 1 = b.size := by
  have hb := hr.inv
  obtain ⟨r, rest, hf⟩ := hb.find_of_count k hc
  obtain ⟨pre, v, post, hpos, hpost, _, heq⟩ := impl.pop_key_eq b hb k r rest hf
  have hb' := impl.pop_key_inv b hb k pre post r v hpos hpost
  have hpk : idsOf post k = [] := idsOf_eq_nil post k hpost
  refine ⟨_, heq, impl.Reachable.pop_key b _ k hr heq, ?_, ?_⟩
  · have hcons : (r, k, v) :: post = [(r, k, v)] ++ post := rfl
    rw [hb'.count_eq, hb.count_eq, hpos, hcons, idsOf_append, idsOf_append, idsOf_append,
      idsOf_singleton]
    simp [hpk]
  · have := hb.size_eq
    rw [hpos] at this
    simp only [impl.size, this, List.length_append, List.length_cons]
    omega

theorem impl.pop_key_times_count (k : K) (n : Nat) (b : impl K V) (hr : b.Reachable)
    (hn : b.count k = n) :
    ∃ b', impl.pop_key_times k n b = .ok () b' ∧ b'.Reachable ∧ b'.count k = 0 ∧
      b'.size + n = b.size := by
  induction n generalizing b with
  | zero => exact ⟨b, rfl, hr, hn, rfl⟩
  | succ n ih =>
    obtain ⟨b1, heq, hr1, hc1, hs1⟩ := impl.pop_key_success b hr k (by omega)
    obtain ⟨b', heq', hr', hc', hs'⟩ := ih b1 hr1 (by omega)
    refine ⟨b', ?_, hr', hc', by omega⟩
    simp only [impl.pop_key_times, heq]
    exact heq'

/-- On every reachable Body and for every key `k`, `pop(k)` throws `EmptyContainer`
when `size() == 0`, throws `KeyNotFound` when `size() > 0` and `count(k) == 0`, and
returns normally exactly when `count(k) > 0`; `count(k)` calls of `pop(k)` in a row all
return normally and leave `count(k) == 0` with `size()` reduced by their number, and one
more `pop(k)` on that Body, if it is not empty, throws `KeyNotFound`. -/
theorem impl.pop_key_cases (b : impl K V) (hr : b.Reachable) (k : K) :
    (b.size = 0 → b.pop_key k = .throw .EmptyContainer b) ∧
    (0 < b.size → b.count k = 0 → b.pop_key k = .throw .KeyNotFound b) ∧
    ((∃ b', b.pop_key k = .ok () b') ↔ 0 < b.count k) ∧
    (∃ b', impl.pop_key_times k (b.count k) b = .ok () b' ∧ b'.count k = 0 ∧
      b'.size + b.count k = b.size ∧
      (0 < b'.size → b'.pop_key k = .throw .KeyNotFound b')) := by
  have hb := hr.inv
  have hzero : ∀ b1 : impl K V, b1.Reachable → b1.count k = 0 →
      b1.pop_key k = .throw (if b1.size = 0 then .EmptyContainer else .KeyNotFound) b1 :=
    fun b1 h1 hc => impl.pop_key_of_count_zero b1 h1.inv k hc
  refine ⟨?_, ?_, ?_, ?_⟩
  · intro hz
    have hz' : b.sz = 0 := hz
    unfold impl.pop_key
    rw [if_pos hz']
  · intro hpos hc
    rw [hzero b hr hc, if_neg (by omega)]
  · constructor
    · rintro ⟨b', heq⟩
      by_contra hc
      rw [hzero b hr (by omega)] at heq
      cases heq
    · intro hc
      obtain ⟨b', heq, _⟩ := impl.pop_key_success b hr k (by omega)
      exact ⟨b', heq⟩
  · obtain ⟨b', heq, hr', hc', hs'⟩ := impl.pop_key_times_count k (b.count k) b hr rfl
    refine ⟨b', heq, hc', hs', ?_⟩
    intro hpos
    rw [hzero b' hr' hc', if_neg (by omega)]

end PopKeyOutcome

section PopKeyOutcomeWitness

/-- Scenario E, with the keys `1` for "a" and `2` for "b", on a default-constructed
Handle: after `push(1,1); push(1,2); push(2,3)` and `pop(1)` twice, `count(1) == 0`, and
a third `pop(1)` throws `KeyNotFound`. -/
theorem scenario_E_on_handle :
    ∃ h0 s0 h1 s1 h2 s2 h3 s3 h4 s4 h5 s5 h6 s6, stack.new ([] : Heap Nat Nat) = (h0, s0) ∧
      stack.push h0 s0 1 1 = .ok () (h1, s1) ∧ stack.push h1 s1 1 2 = .ok () (h2, s2) ∧
      stack.push h2 s2 2 3 = .ok () (h3, s3) ∧ stack.pop_key h3 s3 1 = .ok () (h4, s4) ∧
      stack.pop_key h4 s4 1 = .ok () (h5, s5) ∧ stack.count h5 s5 1 = .val 0 ∧
      stack.pop_key h5 s5 1 = .throw .KeyNotFound (h6, s6) := by
  refine ⟨_, _, _, _, _, _, _, _, _, _, _, _, _, _, rfl, rfl, rfl, rfl, rfl, rfl, ?_, rfl⟩
  decide

end PopKeyOutcomeWitness

/-! ## front(key) with a key that has no entries -/

section FrontKeyAbsent
variable {K V : Type} [LinearOrder K]

/-- On a valid Handle with a Body, `front(key) const` with a key that has no entries
dereferences `end()`: it neither throws nor returns a value. -/
theorem stack.front_key_const_absent (h : Heap K V) (s : stack) (hv : s.Valid h) (k : K)
    (hc : stack.count h s k = .val 0) : stack.front_key_const h s k = .ub := by
  have hst : s.st ≠ none := by
    intro hnone
    simp [stack.count, hnone] at hc
  rw [stack.count_ledger h s hv hst] at hc
  have hck : countKey k (s.ledger h) = 0 := Out.val.inj hc
  rw [stack.front_key_const_ledger h s hv hst]
  have : lastValue k (s.ledger h) = none := by
    unfold countKey at hck
    unfold lastValue
    rw [List.length_eq_zero.mp hck]
    rfl
  rw [this]

/-- C13 (amended): on every valid Handle (with a Body of its own, with a shared Body or
without a Body) and for every key `k` without entries (`count(k)`, where it has a value,
is `0`), the mutable `front(k)` throws: `KeyNotFound` when `size()` is not `0`, and
`EmptyContainer` when `size()` is `0`. -/
theorem front_key_absent_throws (h : Heap K V) (s : stack) (hv : s.Valid h) (k : K)
    (hk : ∀ n, stack.count h s k = .val n → n = 0) :
    ∃ m, stack.size h s = .val m ∧
      (stack.front_key h s k).out =
        .exn (if m = 0 then .EmptyContainer else .KeyNotFound) := by
  have hck : countKey k (s.ledger h) = 0 := by
    cases hst : s.st with
    | none => simp [stack.ledger, hst, countKey]
    | some a =>
      have hne : s.st ≠ none := by rw [hst]; simp
      exact hk _ (stack.count_ledger h s hv hne k)
  refine ⟨(s.ledger h).length, stack.size_ledger h s hv, ?_⟩
  obtain ⟨b0, hr0, hent, _, _, hthrow, _⟩ := COW_result (fun b => b.front_key k) false h s hv
  have hc0 : b0.count k = 0 := by rw [hr0.inv.count_entries, hent]; exact hck
  have hsz : b0.size = (s.ledger h).length := by rw [hr0.inv.size_entries, hent]
  have hfk := impl.front_key_of_count_zero b0 hr0.inv k hc0
  obtain ⟨h', a', c', heq, _⟩ := hthrow _ _ hfk
  unfold stack.front_key
  rw [heq, hsz]
  rfl

end FrontKeyAbsent

section FrontKeyAbsentScenarios

/-- C12 fails on a Handle that holds the one entry `(1, 10)`: key `7` has no entries,
`count(7)` is `0`, and `front(7) const` dereferences the `end()` that `find` returns
instead of throwing `KeyNotFound`. -/
theorem front_key_const_of_absent_key_is_ub :
    ∃ h0 s0 h1 s1, stack.new ([] : Heap Nat Nat) = (h0, s0) ∧
      stack.push h0 s0 1 10 = .ok () (h1, s1) ∧ stack.count h1 s1 7 = .val 0 ∧
      stack.front_key_const h1 s1 7 = .ub ∧
      stack.front_key_const h1 s1 7 ≠ .exn .KeyNotFound := by
  refine ⟨_, _, _, _, rfl, rfl, ?_, ?_, ?_⟩ <;> decide

/-- C13 as stated fails on the empty container: on a default-constructed Handle key `7`
has no entries, and the mutable `front(7)` throws `EmptyContainer`, not `KeyNotFound`. -/
theorem front_key_on_empty_is_not_KeyNotFound :
    stack.count (stack.new ([] : Heap Nat Nat)).1 (stack.new ([] : Heap Nat Nat)).2 7 = .val 0 ∧
    (stack.front_key (stack.new ([] : Heap Nat Nat)).1 (stack.new ([] : Heap Nat Nat)).2 7).out =
      .exn .EmptyContainer ∧
    (stack.front_key (stack.new ([] : Heap Nat Nat)).1 (stack.new ([] : Heap Nat Nat)).2 7).out ≠
      .exn .KeyNotFound := by
  decide

theorem sharedHeap_no_seven (n : Nat) (hn : stack.count sharedHeap ⟨some 1⟩ 7 = .val n) :
    n = 0 := by
  have h0 : stack.count sharedHeap ⟨some 1⟩ 7 = .val 0 := by decide
  rw [h0] at hn
  exact (Out.val.inj hn).symm

theorem front_key_absent_throws_witness :
    stack.Valid sharedHeap ⟨some 1⟩ ∧ (∀ n, stack.count sharedHeap ⟨some 1⟩ 7 = .val n → n = 0) ∧
    ∃ m, stack.size sharedHeap ⟨some 1⟩ = .val m ∧
      (stack.front_key sharedHeap ⟨some 1⟩ 7).out =
        .exn (if m = 0 then .EmptyContainer else .KeyNotFound) :=
  ⟨sharedHeap_valid, sharedHeap_no_seven,
    front_key_absent_throws sharedHeap ⟨some 1⟩ sharedHeap_valid 7 sharedHeap_no_seven⟩

end FrontKeyAbsentScenarios

/-! ## clear() -/

section ClearResult
variable {K V : Type}

/-- `clear()` on a Handle with a Body: a Body with one owner is emptied in place, a Body
with more owners is let go, which leaves the Handle with a null `st`. -/
theorem stack.clear_result (h : Heap K V) (s : stack) (a : Nat) (c : cell K V)
    (hst : s.st = some a) (hf : find h a = some c) :
    (c.use_count ≤ 1 → stack.clear h s = .ok () (store h a c.obj.clear, s)) ∧
    (2 ≤ c.use_count → stack.clear h s = .ok () (release h a, ⟨none⟩)) := by
  refine ⟨?_, ?_⟩
  · intro hc
    simp only [stack.clear, hst, use_count, hf, if_neg (show ¬ c.use_count > 1 by omega)]
  · intro hc
    simp only [stack.clear, hst, use_count, hf, if_pos (show c.use_count > 1 by omega)]

end ClearResult

section Clear
variable {K V : Type} [LinearOrder K]

/-- `clear()` on a Handle that alone owns its Body leaves `size() == 0` and
`count(k) == 0` for every key. -/
theorem stack.clear_exclusive (h : Heap K V) (s : stack) (a : Nat) (c : cell K V)
    (hst : s.st = some a) (hf : find h a = some c) (hc : c.use_count ≤ 1) :
    ∃ h', stack.clear h s = .ok () (h', s) ∧ stack.size h' s = .val 0 ∧
      ∀ k, stack.count h' s k = .val 0 := by
  refine ⟨_, (stack.clear_result h s a c hst hf).1 hc, ?_, ?_⟩
  · simp [stack.size, hst, find_store, hf, impl.clear, impl.size]
  · intro k
    simp [stack.count, hst, find_store, hf, impl.clear, impl.count, find]

end Clear

section ClearScenarios

/-- C14 fails on a Handle that shares its Body: after `stack a; stack b(a); b.clear();`
the member `st` of `b` is null, `b.size()` is `0`, and `b.count(7)` dereferences the
null pointer instead of returning `0`. -/
theorem count_after_clear_of_copy_is_ub :
    ∃ h1 a h2 b h3 b', stack.new ([] : Heap Nat Nat) = (h1, a) ∧
      stack.copy h1 a = .ok b h2 ∧ stack.clear h2 b = .ok () (h3, b') ∧
      b'.st = none ∧ stack.size h3 b' = .val 0 ∧ stack.count h3 b' 7 = .ub ∧
      stack.count h3 b' 7 ≠ .val 0 := by
  refine ⟨_, _, _, _, _, _, rfl, rfl, rfl, ?_, ?_, ?_, ?_⟩ <;> decide

/-- C15 fails on a Handle that shares its Body: after `stack a; stack b(a); b.clear();`
the member `st` of `b` is null, and a second `b.clear()` finds `use_count() == 0` and
dereferences the null pointer (`st->clear()`); so it does on a moved-from Handle. -/
theorem clear_after_clear_of_copy_is_ub :
    (∃ h1 a h2 b h3 b', stack.new ([] : Heap Nat Nat) = (h1, a) ∧
      stack.copy h1 a = .ok b h2 ∧ stack.clear h2 b = .ok () (h3, b') ∧
      b'.st = none ∧ stack.clear h3 b' = .ub) ∧
    (∃ h1 a, stack.new ([] : Heap Nat Nat) = (h1, a) ∧
      stack.clear h1 (stack.move a).2 = .ub) := by
  refine ⟨⟨_, _, _, _, _, _, rfl, rfl, rfl, ?_, ?_⟩, ⟨_, _, rfl, ?_⟩⟩ <;> decide

end ClearScenarios

/-! ## Every call on a reachable Body returns or throws, in a reachable Body -/

section Total
variable {K V : Type} [LinearOrder K]

theorem impl.pop_total (b : impl K V) (hr : b.Reachable) :
    (∃ r b', b.pop = .ok r b' ∧ b'.Reachable ∧ b'.is_safe = b.is_safe) ∨
    (∃ e, b.pop = .throw e b) := by
  by_cases hz : b.sz = 0
  · exact Or.inr ⟨_, impl.pop_empty b hz⟩
  · obtain ⟨init, n, k, v, hpos⟩ := hr.inv.exists_last hz
    have heq := impl.pop_eq b hr.inv init n k v hpos
    exact Or.inl ⟨(), _, heq, impl.Reachable.pop b _ hr heq, rfl⟩

theorem impl.pop_key_total (b : impl K V) (hr : b.Reachable) (k : K) :
    (∃ r b', b.pop_key k = .ok r b' ∧ b'.Reachable ∧ b'.is_safe = b.is_safe) ∨
    (∃ e, b.pop_key k = .throw e b) := by
  by_cases hc : b.count k = 0
  · exact Or.inr ⟨_, impl.pop_key_of_count_zero b hr.inv k hc⟩
  · obtain ⟨r, rest, hf⟩ := hr.inv.find_of_count k hc
    obtain ⟨pre, v, post, _, _, _, heq⟩ := impl.pop_key_eq b hr.inv k r rest hf
    exact Or.inl ⟨(), _, heq, impl.Reachable.pop_key b _ k hr heq, rfl⟩

theorem impl.front_total (b : impl K V) (hr : b.Reachable) :
    (∃ r, b.front = .ok r b) ∨ (∃ e, b.front = .throw e b) := by
  rw [hr.inv.front_entries]
  cases (entries b.pos_order).getLast? with
  | none => exact Or.inr ⟨_, rfl⟩
  | some e => exact Or.inl ⟨e, rfl⟩

theorem impl.front_key_total (b : impl K V) (hr : b.Reachable) (k : K) :
    (∃ r, b.front_key k = .ok r b) ∨ (∃ e, b.front_key k = .throw e b) := by
  rw [hr.inv.front_key_entries]
  by_cases hz : b.sz = 0
  · rw [if_pos hz]; exact Or.inr ⟨_, rfl⟩
  · rw [if_neg hz]
    cases lastValue k (entries b.pos_order) with
    | none => exact Or.inr ⟨_, rfl⟩
    | some v => exact Or.inl ⟨v, rfl⟩

/-- A call through the macro on a Handle that alone owns its Body leaves the Handle on its
block, still the only owner, with the Body that `expr` left. -/
theorem COW_exclusive_state {α : Type} (expr : impl K V → Res (impl K V) α) (safety : Bool)
    (h : Heap K V) (a : Nat) (b : impl K V) (hf : find h a = some ⟨b, 1⟩) (hr : b.Reachable)
    (hexpr : ∀ b0 : impl K V, b0.Reachable →
      (∃ r b', expr b0 = .ok r b' ∧ b'.Reachable) ∨ (∃ e b', expr b0 = .throw e b' ∧ b'.Reachable)) :
    ∃ h' b', (COPY_ON_WRITE_CORE expr safety h ⟨some a⟩).state? = some (h', ⟨some a⟩) ∧
      find h' a = some ⟨b', 1⟩ ∧ b'.Reachable := by
  have hr0 : impl.Reachable { b with is_safe := safety } := impl.Reachable.set_safe _ _ hr
  rcases hexpr _ hr0 with ⟨r, b', he, hr'⟩ | ⟨e, b', he, hr'⟩
  · obtain ⟨h', heq, hfind⟩ :=
      COW_exclusive_ok expr safety h ⟨some a⟩ a ⟨b, 1⟩ rfl hf rfl r b' he
    exact ⟨h', b', by rw [heq]; rfl, by rw [hfind]; simp, hr'⟩
  · obtain ⟨h', heq, hfind⟩ :=
      COW_exclusive_throw expr safety h ⟨some a⟩ a ⟨b, 1⟩ rfl hf rfl e b' he
    exact ⟨h', b', by rw [heq]; rfl, by rw [hfind]; simp, hr'⟩

/-- A mutating call on a Handle that alone owns its Body has defined behaviour and leaves
the Handle on its block, still the only owner, with a reachable Body. -/
theorem stack.mutate_exclusive (m : Mutation K V) (h : Heap K V) (a : Nat) (b : impl K V)
    (hf : find h a = some ⟨b, 1⟩) (hr : b.Reachable) :
    ∃ h' b', stack.mutate m h ⟨some a⟩ = some (h', ⟨some a⟩) ∧
      find h' a = some ⟨b', 1⟩ ∧ b'.Reachable := by
  cases m with
  | push k v =>
    exact COW_exclusive_state _ true h a b hf hr
      (fun b0 h0 => Or.inl ⟨(), _, rfl, impl.Reachable.push b0 k v h0⟩)
  | pop =>
    refine COW_exclusive_state _ true h a b hf hr (fun b0 h0 => ?_)
    rcases impl.pop_total b0 h0 with ⟨r, b', he, hr', _⟩ | ⟨e, he⟩
    · exact Or.inl ⟨r, b', he, hr'⟩
    · exact Or.inr ⟨e, b0, he, h0⟩
  | pop_key k =>
    refine COW_exclusive_state _ true h a b hf hr (fun b0 h0 => ?_)
    rcases impl.pop_key_total b0 h0 k with ⟨r, b', he, hr', _⟩ | ⟨e, he⟩
    · exact Or.inl ⟨r, b', he, hr'⟩
    · exact Or.inr ⟨e, b0, he, h0⟩
  | front =>
    refine COW_exclusive_state _ false h a b hf hr (fun b0 h0 => ?_)
    rcases impl.front_total b0 h0 with ⟨r, he⟩ | ⟨e, he⟩
    · exact Or.inl ⟨r, b0, he, h0⟩
    · exact Or.inr ⟨e, b0, he, h0⟩
  | front_key k =>
    refine COW_exclusive_state _ false h a b hf hr (fun b0 h0 => ?_)
    rcases impl.front_key_total b0 h0 k with ⟨r, he⟩ | ⟨e, he⟩
    · exact Or.inl ⟨r, b0, he, h0⟩
    · exact Or.inr ⟨e, b0, he, h0⟩
  | clear =>
    have hc := (stack.clear_result h ⟨some a⟩ a ⟨b, 1⟩ rfl hf).1 (le_refl _)
    refine ⟨_, b.clear, by simp only [stack.mutate, hc]; rfl, by simp [find_store, hf],
      impl.Reachable.clear b hr⟩

theorem stack.run_exclusive (ms : List (Mutation K V)) (h : Heap K V) (a : Nat) (b : impl K V)
    (hf : find h a = some ⟨b, 1⟩) (hr : b.Reachable) :
    ∃ h' b', stack.run ms (h, ⟨some a⟩) = some (h', ⟨some a⟩) ∧
      find h' a = some ⟨b', 1⟩ ∧ b'.Reachable := by
  induction ms generalizing h b with
  | nil => exact ⟨h, b, rfl, hf, hr⟩
  | cons m t ih =>
    obtain ⟨h1, b1, hm, hf1, hr1⟩ := stack.mutate_exclusive m h a b hf hr
    obtain ⟨h', b', hrun, hf', hr'⟩ := ih h1 b1 hf1 hr1
    exact ⟨h', b', by simp only [stack.run, hm]; exact hrun, hf', hr'⟩

end Total

/-! ## Traversal of the keys -/

section Keys
variable {K V : Type} [LinearOrder K]

theorem const_iterator.collect_to_end (m : List (K × List Nat)) (fuel : Nat) :
    const_iterator.collect fuel ⟨m⟩ ⟨[]⟩ =
      if m.length ≤ fuel then some (.val (m.map Prod.fst)) else none := by
  induction m generalizing fuel with
  | nil => cases fuel <;> simp [const_iterator.collect, const_iterator.ne]
  | cons p t ih =>
    cases fuel with
    | zero => simp [const_iterator.collect, const_iterator.ne]
    | succ n =>
      simp only [const_iterator.collect, const_iterator.ne, const_iterator.deref,
        const_iterator.inc, ih n]
      by_cases hl : t.length ≤ n <;> simp [hl]

theorem stack.keys_of_find (h : Heap K V) (a : Nat) (c : cell K V) (hf : find h a = some c)
    (fuel : Nat) :
    stack.keys fuel h ⟨some a⟩ =
      if (c.obj.key_order.map Prod.fst).length ≤ fuel then
        some (.val (c.obj.key_order.map Prod.fst)) else none := by
  simp only [stack.keys, stack.cbegin, stack.cend, hf, const_iterator.collect_to_end,
    List.length_map]

theorem impl.Inv.mem_keys {b : impl K V} (hb : b.Inv) (k : K) :
    k ∈ b.key_order.map Prod.fst ↔ b.count k ≠ 0 := by
  rw [mem_keys_iff_find]
  constructor
  · intro hf hc
    exact hf (hb.find_none_of_count k hc)
  · intro hc hf
    obtain ⟨r, rest, hf'⟩ := hb.find_of_count k hc
    rw [hf] at hf'
    cases hf'

theorem eq_of_ascending_of_mem (l₁ l₂ : List K) (h₁ : l₁.Pairwise (fun a b => a < b))
    (h₂ : l₂.Pairwise (fun a b => a < b)) (hm : ∀ k, k ∈ l₁ ↔ k ∈ l₂) : l₁ = l₂ := by
  have hn₁ : l₁.Nodup := List.Pairwise.imp (fun h => ne_of_lt h) h₁
  have hn₂ : l₂.Nodup := List.Pairwise.imp (fun h => ne_of_lt h) h₂
  have hp : l₁.Perm l₂ := (List.perm_ext_iff_of_nodup hn₁ hn₂).mpr hm
  exact List.eq_of_perm_of_sorted hp h₁ h₂

/-- C16: for every sequence of mutating calls (`push`, `pop()`, `pop(key)`, `clear`, and
the mutable `front` accessors as well), throwing or not, on a default-constructed Handle
in any heap, no call has undefined behaviour and the loop from `cbegin()` to `cend()`
afterwards, which compares with `operator!=`, reads with `operator*` and advances with
`operator++`, ends after exactly as many rounds as it visits keys, without undefined
behaviour; the keys it visits form a strictly ascending sequence, hence each key at most
once, which holds exactly the keys `k` with `count(k) > 0`; it is the only strictly
ascending sequence of those keys, whatever the order of the calls that produced them. -/
theorem keys_ascending_and_exact (h : Heap K V) (ms : List (Mutation K V)) :
    ∃ h' s' ks, stack.run ms (stack.new h) = some (h', s') ∧
      (∀ fuel, stack.keys fuel h' s' = if ks.length ≤ fuel then some (.val ks) else none) ∧
      ks.Pairwise (fun a b => a < b) ∧ ks.Nodup ∧
      (∀ k, k ∈ ks ↔ ∃ n, stack.count h' s' k = .val (n + 1)) ∧
      (∀ ks' : List K, ks'.Pairwise (fun a b => a < b) →
        (∀ k, k ∈ ks' ↔ ∃ n, stack.count h' s' k = .val (n + 1)) → ks' = ks) := by
  have hnew : find (stack.new h).1 (freshAddr h) = some ⟨(impl.new : impl K V), 1⟩ := by
    simp [stack.new, find_make_shared]
  obtain ⟨h', b', hrun, hf', hr'⟩ :=
    stack.run_exclusive ms (stack.new h).1 (freshAddr h) impl.new hnew impl.Reachable.new
  have hsorted := hr'.inv.linked.sorted
  have hmem : ∀ k, k ∈ b'.key_order.map Prod.fst ↔
      ∃ n, stack.count h' ⟨some (freshAddr h)⟩ k = .val (n + 1) := by
    intro k
    rw [hr'.inv.mem_keys]
    simp only [stack.count, hf']
    constructor
    · intro hc
      exact ⟨b'.count k - 1, by rw [Nat.sub_add_cancel (Nat.pos_of_ne_zero hc)]⟩
    · rintro ⟨n, hn⟩
      have := Out.val.inj hn
      omega
  refine ⟨h', ⟨some (freshAddr h)⟩, b'.key_order.map Prod.fst, hrun,
    stack.keys_of_find h' _ _ hf', hsorted, List.Pairwise.imp (fun h => ne_of_lt h) hsorted,
    hmem, ?_⟩
  intro ks' hs' hm'
  exact eq_of_ascending_of_mem ks' _ hs' hsorted (fun k => by rw [hm' k, hmem k])

end Keys

section KeysScenario

/-- Keys pushed in the order 5, 3, 4, 3 on a default-constructed Handle are visited in the
order 3, 4, 5, in three rounds of the loop; two rounds do not reach `cend()`. -/
theorem keys_of_unordered_pushes :
    ∃ h' s', stack.run [.push 5 1, .push 3 1, .push 4 1, .push 3 2]
        (stack.new ([] : Heap Nat Nat)) = some (h', s') ∧
      stack.keys 3 h' s' = some (.val [3, 4, 5]) ∧ stack.keys 2 h' s' = none := by
  refine ⟨_, _, rfl, ?_, ?_⟩ <;> decide

end KeysScenario

/-! ## Handles that share a Body -/

section Sharing
variable {K V : Type} [LinearOrder K]

/-- C17: for every two Handles `a` and `b` on one Body (the block has two owners or more)
and every mutating member function, the call on `a`, returning or throwing, has defined
behaviour and leaves the block of `b` with the very same object, so that `b.size()`,
`b.front() const`, `b.count(k)` and `b.front(k) const` for every `k` and the
(key, value) sequence of `b` are what they were. -/
theorem shared_handle_unaffected (h : Heap K V) (a b : stack) (y : Nat) (cy : cell K V)
    (ha : a.st = some y) (hb : b.st = some y) (hy : find h y = some cy)
    (hc : 2 ≤ cy.use_count) (hr : cy.obj.Reachable) (m : Mutation K V) :
    ∃ h' a', stack.mutate m h a = some (h', a') ∧
      (∃ n, find h' y = some ⟨cy.obj, n⟩ ∧ 1 ≤ n) ∧
      stack.size h' b = stack.size h b ∧
      stack.front_const h' b = stack.front_const h b ∧
      (∀ k, stack.count h' b k = stack.count h b k) ∧
      (∀ k, stack.front_key_const h' b k = stack.front_key_const h b k) ∧
      stack.ledger h' b = stack.ledger h b := by
  have hv : a.Valid h := by
    intro a1 ha1
    rw [ha] at ha1
    cases ha1
    exact ⟨cy, hy, by omega, hr⟩
  obtain ⟨st', hmut, n, hy', hn⟩ :=
    stack.mutate_frame m h a hv (by rw [ha]; simp) y cy hy (by omega) (fun _ => hc)
  refine ⟨st'.1, st'.2, hmut, ⟨n, hy', hn⟩, ?_, ?_, ?_, ?_, ?_⟩
  · simp [stack.size, hb, hy, hy']
  · simp [stack.front_const, hb, hy, hy']
  · intro k
    simp [stack.count, hb, hy, hy']
  · intro k
    simp [stack.front_key_const, hb, hy, hy']
  · simp [stack.ledger, hb, hy, hy']

/-- C19: for every source Handle with a Body: a safe source is copied by sharing, the new
Handle is on the block of the source, which gains one owner, and no block is allocated;
an unsafe source is copied by duplication, the new Handle is the one owner of a block at
an address that was free, whose Body is safe and has the (key, value) sequence, `size()`
and `count(k)` for every `k` of the source Body, while the block of the source is left
as it was, unsafe and with the owners it had. -/
theorem copy_shares_or_duplicates (h : Heap K V) (o : stack) (y : Nat) (cy : cell K V)
    (hst : o.st = some y) (hy : find h y = some cy) (hcy : 1 ≤ cy.use_count)
    (hr : cy.obj.Reachable) :
    (cy.obj.is_safe = true →
      ∃ h', stack.copy h o = .ok ⟨some y⟩ h' ∧
        find h' y = some ⟨cy.obj, cy.use_count + 1⟩ ∧ ∀ x, x ≠ y → find h' x = find h x) ∧
    (cy.obj.is_safe = false →
      ∃ a' h' b', stack.copy h o = .ok ⟨some a'⟩ h' ∧ a' ≠ y ∧ find h a' = none ∧
        find h' a' = some ⟨b', 1⟩ ∧ b'.is_safe = true ∧ b'.Inv ∧
        entries b'.pos_order = entries cy.obj.pos_order ∧ b'.size = cy.obj.size ∧
        (∀ k, b'.count k = cy.obj.count k) ∧
        find h' y = some cy ∧ ∀ x, x ≠ y → x ≠ a' → find h' x = find h x) := by
  refine ⟨?_, ?_⟩
  · intro hsafe
    refine ⟨acquire h y, ?_, ?_, ?_⟩
    · unfold stack.copy
      rw [hst]
      simp [hy, hsafe]
    · simp [find_acquire, hy]
    · intro x hx
      simp [find_acquire, hx]
  · intro hsafe
    have hne := freshAddr_acquire_ne h y cy hy
    have hr1 : (impl.move (impl.copy cy.obj)).Reachable :=
      impl.Reachable.move _ (impl.Reachable.copy _ hr)
    have hent : entries (impl.move (impl.copy cy.obj)).pos_order = entries cy.obj.pos_order := by
      simp [impl.move, impl.copy_entries]
    refine ⟨freshAddr (acquire h y),
      release (make_shared (acquire h y) (impl.move (impl.copy cy.obj))).2 y,
      impl.move (impl.copy cy.obj), ?_, hne,
      find_freshAddr_acquire h y cy hy, ?_, rfl, hr1.inv, hent, rfl, ?_, ?_, ?_⟩
    · unfold stack.copy
      rw [hst]
      simp [hy, hsafe, make_shared_fst]
    · simp [find_release, find_make_shared, hne]
    · intro k
      exact hr1.count_of_entries hr hent k
    · have h0 : cy.use_count ≠ 0 := by omega
      simp [find_release, find_make_shared, find_acquire, hy, hne.symm, h0]
    · intro x hx hx'
      simp [find_release, find_make_shared, find_acquire, hx, hx']

end Sharing

section SharingWitnesses

theorem shared_handle_unaffected_witness :
    (⟨some 1⟩ : stack).st = some 1 ∧ find sharedHeap 1 = some ⟨scenarioA, 2⟩ ∧
    2 ≤ (⟨scenarioA, 2⟩ : cell Nat Nat).use_count ∧ scenarioA.Reachable ∧
    ∃ h' a', stack.mutate (.pop_key 1) sharedHeap ⟨some 1⟩ = some (h', a') ∧
      (∃ n, find h' 1 = some ⟨scenarioA, n⟩ ∧ 1 ≤ n) ∧
      stack.size h' ⟨some 1⟩ = stack.size sharedHeap ⟨some 1⟩ ∧
      stack.front_const h' ⟨some 1⟩ = stack.front_const sharedHeap ⟨some 1⟩ ∧
      (∀ k, stack.count h' ⟨some 1⟩ k = stack.count sharedHeap ⟨some 1⟩ k) ∧
      (∀ k, stack.front_key_const h' ⟨some 1⟩ k = stack.front_key_const sharedHeap ⟨some 1⟩ k) ∧
      stack.ledger h' ⟨some 1⟩ = stack.ledger sharedHeap ⟨some 1⟩ :=
  ⟨rfl, by decide, by decide, scenarioA_reachable,
    shared_handle_unaffected sharedHeap ⟨some 1⟩ ⟨some 1⟩ 1 ⟨scenarioA, 2⟩ rfl rfl (by decide)
      (by decide) scenarioA_reachable (.pop_key 1)⟩

theorem unsafe_scenarioA_reachable :
    impl.Reachable ({ scenarioA with is_safe := false } : impl Nat Nat) :=
  impl.Reachable.set_safe _ false scenarioA_reachable

theorem copy_shares_or_duplicates_witness :
    ((⟨some 1⟩ : stack).st = some 1 ∧ find ownedHeap 1 = some ⟨scenarioA, 1⟩ ∧
      1 ≤ (⟨scenarioA, 1⟩ : cell Nat Nat).use_count ∧ scenarioA.Reachable ∧
      scenarioA.is_safe = true ∧
      ∃ h', stack.copy ownedHeap ⟨some 1⟩ = .ok ⟨some 1⟩ h' ∧
        find h' 1 = some ⟨scenarioA, 1 + 1⟩ ∧ ∀ x, x ≠ 1 → find h' x = find ownedHeap x) ∧
    (find unsafeHeap 1 = some ⟨{ scenarioA with is_safe := false }, 1⟩ ∧
      ∃ a' h' b', stack.copy unsafeHeap ⟨some 1⟩ = .ok ⟨some a'⟩ h' ∧ a' ≠ 1 ∧
        find unsafeHeap a' = none ∧ find h' a' = some ⟨b', 1⟩ ∧ b'.is_safe = true ∧ b'.Inv ∧
        entries b'.pos_order = entries scenarioA.pos_order ∧ b'.size = scenarioA.size ∧
        (∀ k, b'.count k = scenarioA.count k) ∧
        find h' 1 = some ⟨{ scenarioA with is_safe := false }, 1⟩ ∧
        ∀ x, x ≠ 1 → x ≠ a' → find h' x = find unsafeHeap x) :=
  ⟨⟨rfl, by decide, by decide, scenarioA_reachable, by decide,
      (copy_shares_or_duplicates ownedHeap ⟨some 1⟩ 1 ⟨scenarioA, 1⟩ rfl (by decide) (by decide)
        scenarioA_reachable).1 (by decide)⟩,
    ⟨by decide,
      (copy_shares_or_duplicates unsafeHeap ⟨some 1⟩ 1 ⟨{ scenarioA with is_safe := false }, 1⟩
        rfl (by decide) (by decide) unsafe_scenarioA_reachable).2 rfl⟩⟩

end SharingWitnesses

/-! ## The safety flag -/

section Flag
variable {K V : Type} [LinearOrder K]

/-- A call through the macro that returns normally leaves the Handle on a block whose
Body has the flag the macro assigned (`true` for a Body the macro has just allocated),
provided `expr` itself leaves the flag alone. -/
theorem COW_ok_flag {α : Type} (expr : impl K V → Res (impl K V) α) (safety : Bool)
    (h : Heap K V) (s : stack) (hv : s.Valid h)
    (hflag : ∀ b0 : impl K V, b0.Reachable → ∀ r b, expr b0 = .ok r b → b.is_safe = b0.is_safe)
    (r : α) (h' : Heap K V) (s' : stack)
    (heq : COPY_ON_WRITE_CORE expr safety h s = .ok r (h', s')) :
    stack.is_safe h' s' = some (if s.st = none then true else safety) := by
  cases hst : s.st with
  | none =>
    rw [COW_null expr safety h s hst] at heq
    cases he : expr impl.new with
    | ok r1 b =>
      rw [he] at heq
      cases heq
      have := hflag impl.new impl.Reachable.new r b he
      simp [stack.is_safe, find_store, find_make_shared, this, impl.new]
    | throw e b => rw [he] at heq; cases heq
    | ub => rw [he] at heq; cases heq
  | some a =>
    obtain ⟨c, hf, _, _⟩ := hv a hst
    obtain ⟨b0, hr0, _, hb0, hok, hthrow, hub⟩ := COW_result expr safety h s hv
    have hs0 : b0.is_safe = safety := by
      rw [hb0 a c hst hf]
      by_cases hsh : 2 ≤ c.use_count
      · rw [if_pos hsh]
      · rw [if_neg hsh]
    cases he : expr b0 with
    | ok r1 b =>
      obtain ⟨h1, a1, n, heq1, hf1, _⟩ := hok r1 b he
      rw [heq1] at heq
      cases heq
      simp [stack.is_safe, hf1, hflag b0 hr0 r b he, hs0]
    | throw e b =>
      obtain ⟨h1, a1, c1, heq1, _⟩ := hthrow e b he
      rw [heq1] at heq
      cases heq
    | ub =>
      rw [hub he] at heq
      cases heq

/-- C20: on every valid Handle, a mutable `front()` or `front(key)` that returns normally
leaves the Handle with a Body whose flag is unsafe, a `push`, `pop()` or `pop(key)` that
returns normally leaves it with a Body whose flag is safe, and a `clear()` that returns
normally leaves it with a Body whose flag is safe or without a Body, whatever the flag
was before the call. -/
theorem flag_after_successful_call (h : Heap K V) (s : stack) (hv : s.Valid h) :
    (∀ r h' s', stack.front h s = .ok r (h', s') → stack.is_safe h' s' = some false) ∧
    (∀ k r h' s', stack.front_key h s k = .ok r (h', s') → stack.is_safe h' s' = some false) ∧
    (∀ k v h' s', stack.push h s k v = .ok () (h', s') → stack.is_safe h' s' = some true) ∧
    (∀ h' s', stack.pop h s = .ok () (h', s') → stack.is_safe h' s' = some true) ∧
    (∀ k h' s', stack.pop_key h s k = .ok () (h', s') → stack.is_safe h' s' = some true) ∧
    (∀ h' s', stack.clear h s = .ok () (h', s') →
      stack.is_safe h' s' = some true ∨ s'.st = none) := by
  refine ⟨?_, ?_, ?_, ?_, ?_, ?_⟩
  · intro r h' s' heq
    have hfl := COW_ok_flag impl.front false h s hv (fun b0 h0 r b he => by
      rcases impl.front_total b0 h0 with ⟨r1, h1⟩ | ⟨e, h1⟩
      · rw [h1] at he; cases he; rfl
      · rw [h1] at he; cases he) r h' s' heq
    cases hst : s.st with
    | none =>
      unfold stack.front at heq
      rw [COW_null impl.front false h s hst, impl.front_empty impl.new rfl] at heq
      cases heq
    | some a => simpa [hst] using hfl
  · intro k r h' s' heq
    have hfl := COW_ok_flag (fun b => b.front_key k) false h s hv (fun b0 h0 r b he => by
      rcases impl.front_key_total b0 h0 k with ⟨r1, h1⟩ | ⟨e, h1⟩
      · simp only [h1] at he; cases he; rfl
      · simp only [h1] at he; cases he) r h' s' heq
    cases hst : s.st with
    | none =>
      unfold stack.front_key at heq
      rw [COW_null _ false h s hst] at heq
      have : (impl.new : impl K V).front_key k = .throw .EmptyContainer impl.new := by
        unfold impl.front_key
        rw [if_pos (show (impl.new : impl K V).sz = 0 from rfl)]
      simp only [this] at heq
      cases heq
    | some a => simpa [hst] using hfl
  · intro k v h' s' heq
    have hfl := COW_ok_flag (fun b => (.ok () (b.push k v) : Res (impl K V) Unit)) true h s hv
      (fun b0 _ r b he => by
        cases he
        exact impl.push_is_safe b0 k v) () h' s' heq
    simpa using hfl
  · intro h' s' heq
    have hfl := COW_ok_flag impl.pop true h s hv (fun b0 h0 r b he => by
      rcases impl.pop_total b0 h0 with ⟨r1, b1, h1, _, hs1⟩ | ⟨e, h1⟩
      · rw [h1] at he; cases he; exact hs1
      · rw [h1] at he; cases he) () h' s' heq
    simpa using hfl
  · intro k h' s' heq
    have hfl := COW_ok_flag (fun b => b.pop_key k) true h s hv (fun b0 h0 r b he => by
      rcases impl.pop_key_total b0 h0 k with ⟨r1, b1, h1, _, hs1⟩ | ⟨e, h1⟩
      · simp only [h1] at he; cases he; exact hs1
      · simp only [h1] at he; cases he) () h' s' heq
    simpa using hfl
  · intro h' s' heq
    cases hst : s.st with
    | none =>
      simp [stack.clear, hst, use_count] at heq
    | some a =>
      obtain ⟨c, hf, _, _⟩ := hv a hst
      by_cases hsh : 2 ≤ c.use_count
      · rw [(stack.clear_result h s a c hst hf).2 hsh] at heq
        cases heq
        exact Or.inr rfl
      · rw [(stack.clear_result h s a c hst hf).1 (by omega)] at heq
        cases heq
        left
        simp [stack.is_safe, hst, find_store, hf, impl.clear]

end Flag

section FlagScenarios

/-- C18 fails on a Handle that alone owns its Body.  After `stack s; s.push(1, 10);`
`s.front();` the Handle is unsafe; `s.pop(7)` then throws `KeyNotFound` and leaves the
Handle safe.  After `stack t;` the Handle is safe; `t.front()` then throws
`EmptyContainer` and leaves the Handle unsafe. -/
theorem failed_call_changes_flag :
    (∃ h0 s0 h1 s1 h2 s2 h3 s3, stack.new ([] : Heap Nat Nat) = (h0, s0) ∧
      stack.push h0 s0 1 10 = .ok () (h1, s1) ∧ stack.front h1 s1 = .ok (1, 10) (h2, s2) ∧
      stack.is_safe h2 s2 = some false ∧
      stack.pop_key h2 s2 7 = .throw .KeyNotFound (h3, s3) ∧
      stack.is_safe h3 s3 = some true) ∧
    (∃ h0 s0 h1 s1, stack.new ([] : Heap Nat Nat) = (h0, s0) ∧
      stack.is_safe h0 s0 = some true ∧
      stack.front h0 s0 = .throw .EmptyContainer (h1, s1) ∧
      stack.is_safe h1 s1 = some false) := by
  refine ⟨⟨_, _, _, _, _, _, _, _, rfl, rfl, rfl, ?_, rfl, ?_⟩, ⟨_, _, _, _, rfl, ?_, rfl, ?_⟩⟩ <;>
    decide

theorem flag_after_successful_call_witness :
    stack.Valid ownedHeap ⟨some 1⟩ ∧
    (∃ r h' s', stack.front ownedHeap ⟨some 1⟩ = .ok r (h', s') ∧
      stack.is_safe h' s' = some false) ∧
    (∃ h' s', stack.pop unsafeHeap ⟨some 1⟩ = .ok () (h', s') ∧
      stack.is_safe h' s' = some true) :=
  ⟨ownedHeap_valid,
    ⟨_, _, _, rfl, (flag_after_successful_call ownedHeap ⟨some 1⟩ ownedHeap_valid).1 _ _ _ rfl⟩,
    ⟨_, _, rfl, (flag_after_successful_call unsafeHeap ⟨some 1⟩
      (stack.valid_of_find unsafeHeap 1 _ 1 (by decide) (by decide)
        unsafe_scenarioA_reachable)).2.2.2.1 _ _ rfl⟩⟩

end FlagScenarios

/-! ## The invariants of the Body, stated on the index and the ledger -/

section MapRestore
variable {A S : Type} [LinearOrder A]

theorem erase_of_find_none (m : List (A × S)) (k : A) (h : find m k = none) : erase k m = m := by
  unfold erase
  rw [List.filter_eq_self]
  intro p hp
  have : p.1 ≠ k := by
    intro e
    have hm : k ∈ m.map Prod.fst := List.mem_map.mpr ⟨p, hp, e⟩
    induction m with
    | nil => simp at hp
    | cons q t ih =>
      obtain ⟨k0, s0⟩ := q
      rw [find_cons] at h
      by_cases h0 : k0 = k
      · rw [if_pos h0] at h; cases h
      · rw [if_neg h0] at h
        rcases List.mem_cons.mp hp with hp | hp
        · rw [hp] at e; exact h0 e
        · exact ih h hp (List.mem_map.mpr ⟨p, hp, e⟩)
  simpa using this

theorem erase_insert (m : List (A × S)) (k : A) (s : S) (h : find m k = none) :
    erase k (insert k s m) = m := by
  induction m with
  | nil => simp [insert, erase]
  | cons q t ih =>
    obtain ⟨k0, s0⟩ := q
    rw [find_cons] at h
    by_cases h0 : k0 = k
    · rw [if_pos h0] at h; cases h
    · rw [if_neg h0] at h
      have hrest : erase k ((k0, s0) :: t) = (k0, s0) :: t :=
        erase_of_find_none _ k (by rw [find_cons, if_neg h0]; exact h)
      simp only [insert]
      by_cases h1 : k < k0
      · rw [if_pos h1]
        have : erase k ((k, s) :: (k0, s0) :: t) = erase k ((k0, s0) :: t) := by
          simp [erase]
        rw [this, hrest]
      · rw [if_neg h1]
        by_cases h2 : k0 < k
        · rw [if_pos h2]
          have : erase k ((k0, s0) :: insert k s t) = (k0, s0) :: erase k (insert k s t) := by
            simp [erase, h0]
          rw [this, ih h]
        · exact absurd (le_antisymm (not_lt.mp h1) (not_lt.mp h2)) h0

theorem assign_self (m : List (A × S)) (k : A) (s : S) (h : find m k = some s) :
    assign k s m = m := by
  induction m with
  | nil => rfl
  | cons q t ih =>
    obtain ⟨k0, s0⟩ := q
    rw [find_cons] at h
    simp only [assign]
    by_cases h0 : k0 = k
    · rw [if_pos h0] at h
      cases h
      rw [if_pos h0]
    · rw [if_neg h0] at h
      rw [if_neg h0, ih h]

theorem assign_assign (m : List (A × S)) (k : A) (s s' : S) :
    assign k s (assign k s' m) = assign k s m := by
  induction m with
  | nil => rfl
  | cons q t ih =>
    obtain ⟨k0, s0⟩ := q
    simp only [assign]
    by_cases h0 : k0 = k
    · simp [h0, assign]
    · simp [h0, assign, ih]

theorem find_of_mem_sorted (m : List (A × S)) (hm : (m.map Prod.fst).Pairwise (fun a b => a < b))
    (k : A) (s : S) (h : (k, s) ∈ m) : find m k = some s := by
  induction m with
  | nil => simp at h
  | cons q t ih =>
    obtain ⟨k0, s0⟩ := q
    simp only [List.map_cons, List.pairwise_cons] at hm
    rw [find_cons]
    rcases List.mem_cons.mp h with h | h
    · cases h; simp
    · have hlt : k0 < k := hm.1 k (List.mem_map.mpr ⟨(k, s), h, rfl⟩)
      rw [if_neg (ne_of_lt hlt)]
      exact ih hm.2 h

end MapRestore

section SplitLast
variable {K V : Type}

theorem impl.split_last (b : impl K V) (last : Nat × K × V)
    (hl : b.pos_order.getLast? = some last) :
    b.pos_order = b.pos_order.dropLast ++ [(last.1, last.2.1, last.2.2)] := by
  have hne : b.pos_order ≠ [] := by
    intro h
    rw [h] at hl
    cases hl
  have h1 := List.dropLast_append_getLast hne
  rw [List.getLast?_eq_getLast _ hne] at hl
  have h2 : b.pos_order.getLast hne = last := Option.some.inj hl
  rw [h2] at h1
  exact h1.symm

end SplitLast

section BodyInvariants
variable {K V : Type} [LinearOrder K]

/-- What `impl::pop(K const &)` does when the last node of the ledger has the key: the
same as `impl::pop()`. -/
theorem impl.pop_key_last (b : impl K V) (hb : b.Inv) (init : List (Nat × K × V)) (n : Nat)
    (k : K) (v : V) (hpos : b.pos_order = init ++ [(n, k, v)]) :
    b.pop_key k = .ok () { is_safe := b.is_safe,
                           key_order := (if idsOf init k = [] then erase k b.key_order
                                         else assign k (idsOf init k).reverse b.key_order),
                           pos_order := init,
                           sz := b.sz - 1 } := by
  have hl := hb.linked
  rw [hpos] at hl
  have hfind := hl.find_last
  have hsz : b.sz ≠ 0 := by rw [hb.size_eq, hpos]; simp
  have herase : eraseNode n (init ++ [(n, k, v)]) = some (init ++ []) :=
    eraseNode_split init [] n k v hl.nodup
  unfold impl.pop_key
  rw [if_neg hsz, hfind]
  simp only [hpos, herase, List.length_cons, List.append_nil]
  by_cases he : idsOf init k = []
  · simp [he]
  · have : (idsOf init k).length ≠ 0 := by
      intro h; exact he (List.length_eq_zero.mp h)
    simp [he, this]

/-- C22: in every reachable non-empty Body the last node of the ledger is the top of the
stack that the index holds for the key of that node. -/
theorem ledger_tail_is_top_of_its_substack (b : impl K V) (hr : b.Reachable) (hne : b.size ≠ 0) :
    ∃ last rest, b.pos_order.getLast? = some last ∧
      find b.key_order last.2.1 = some (last.1 :: rest) := by
  obtain ⟨init, n, k, v, hpos⟩ := hr.inv.exists_last hne
  have hl := hr.inv.linked
  rw [hpos] at hl
  exact ⟨(n, k, v), _, by rw [hpos]; simp, hl.find_last⟩

/-- C23: in every reachable Body the index is the per-key projection of the ledger: node
identities are distinct; for every key `k` the stack of `k`, read from bottom to top, is
the list of the nodes of key `k` in ledger order, without repetition; every node of the
ledger is in the stack of its own key and in no stack of another key; every entry of the
index has a non-empty stack and is the one entry of its key. -/
theorem index_is_projection_of_ledger (b : impl K V) (hr : b.Reachable) :
    (ids b.pos_order).Nodup ∧
    (∀ k, ((find b.key_order k).getD []).reverse = idsOf b.pos_order k) ∧
    (∀ k, ((find b.key_order k).getD []).Nodup) ∧
    (∀ k r, r ∈ (find b.key_order k).getD [] ↔ ∃ v, (r, k, v) ∈ b.pos_order) ∧
    (∀ e ∈ b.pos_order, ∃ s, find b.key_order e.2.1 = some s ∧ e.1 ∈ s ∧
      ∀ k' s', find b.key_order k' = some s' → e.1 ∈ s' → k' = e.2.1) ∧
    (∀ p ∈ b.key_order, p.2 ≠ [] ∧ find b.key_order p.1 = some p.2) := by
  have hl := hr.inv.linked
  have hproj : ∀ k, ((find b.key_order k).getD []).reverse = idsOf b.pos_order k := by
    intro k
    rw [hl.index k]
    by_cases he : idsOf b.pos_order k = []
    · simp [he]
    · simp [he]
  have hstack : ∀ k, (find b.key_order k).getD [] = (idsOf b.pos_order k).reverse := by
    intro k
    rw [← hproj k, List.reverse_reverse]
  have hmem : ∀ k r, r ∈ (find b.key_order k).getD [] ↔ ∃ v, (r, k, v) ∈ b.pos_order := by
    intro k r
    rw [hstack k, List.mem_reverse, mem_idsOf]
  refine ⟨hl.nodup, hproj, ?_, hmem, ?_, ?_⟩
  · intro k
    rw [hstack k, List.nodup_reverse]
    exact List.Nodup.sublist (idsOf_sublist b.pos_order k) hl.nodup
  · intro e he
    obtain ⟨r, k, v⟩ := e
    have hr1 : r ∈ (find b.key_order k).getD [] := (hmem k r).mpr ⟨v, he⟩
    cases hf : find b.key_order k with
    | none => rw [hf] at hr1; simp at hr1
    | some s =>
      rw [hf] at hr1
      refine ⟨s, rfl, hr1, ?_⟩
      intro k' s' hf' hr'
      have : r ∈ (find b.key_order k').getD [] := by rw [hf']; exact hr'
      obtain ⟨v', he'⟩ := (hmem k' r).mp this
      have hinj := List.inj_on_of_nodup_map hl.nodup he' he rfl
      exact (congrArg (fun x => x.2.1) hinj)
  · intro p hp
    obtain ⟨k, s⟩ := p
    have hf := find_of_mem_sorted b.key_order hl.sorted k s hp
    refine ⟨?_, hf⟩
    intro hs
    have hidx := hl.index k
    rw [hf] at hidx
    by_cases he : idsOf b.pos_order k = []
    · rw [if_pos he] at hidx; cases hidx
    · rw [if_neg he] at hidx
      have := Option.some.inj hidx
      simp only at hs
      rw [hs] at this
      exact he (by simpa using this.symm)

/-- C24: on every reachable Body `b`, `push(k, v)` followed by `pop()` returns normally
and gives back `b` itself: the same ledger, the same index with the same keys and stacks,
the same `sz` and flag; and so does `push(k, v)` followed by `pop(k)`. -/
theorem push_then_pop_restores (b : impl K V) (hr : b.Reachable) (k : K) (v : V) :
    (b.push k v).pop = .ok () b ∧ (b.push k v).pop_key k = .ok () b := by
  have hb := hr.inv
  have hb' := impl.push_inv b hb k v
  have hpos := impl.push_pos_order b k v
  have hko : (if idsOf b.pos_order k = [] then erase k (b.push k v).key_order
      else assign k (idsOf b.pos_order k).reverse (b.push k v).key_order) = b.key_order := by
    have hidx := hb.linked.index k
    rw [impl.push_key_order]
    by_cases he : idsOf b.pos_order k = []
    · rw [if_pos he] at hidx
      rw [if_pos he, hidx]
      exact erase_insert b.key_order k _ hidx
    · rw [if_neg he] at hidx
      rw [if_neg he, hidx]
      simp only
      rw [assign_assign, assign_self b.key_order k _ hidx]
  have hres : ({ is_safe := (b.push k v).is_safe,
                 key_order := (if idsOf b.pos_order k = [] then erase k (b.push k v).key_order
                   else assign k (idsOf b.pos_order k).reverse (b.push k v).key_order),
                 pos_order := b.pos_order,
                 sz := (b.push k v).sz - 1 } : impl K V) = b := by
    rw [hko, impl.push_is_safe, impl.push_sz]
    cases b
    simp
  refine ⟨?_, ?_⟩
  · rw [impl.pop_eq (b.push k v) hb' b.pos_order _ k v hpos, hres]
  · rw [impl.pop_key_last (b.push k v) hb' b.pos_order _ k v hpos, hres]

/-- C25: on every reachable Body whose ledger ends in a node of key `k`, `pop()` and
`pop(k)` return normally with the very same Body. -/
theorem pop_agrees_with_pop_of_tail_key (b : impl K V) (hr : b.Reachable) (last : Nat × K × V)
    (hl : b.pos_order.getLast? = some last) :
    b.pop = b.pop_key last.2.1 ∧ ∃ b', b.pop = .ok () b' := by
  have hpos := impl.split_last b last hl
  have h1 := impl.pop_eq b hr.inv _ _ _ _ hpos
  have h2 := impl.pop_key_last b hr.inv _ _ _ _ hpos
  exact ⟨by rw [h1, h2], _, h1⟩

end BodyInvariants

section BodyInvariantWitnesses

theorem ledger_tail_is_top_of_its_substack_witness :
    scenarioA.Reachable ∧ scenarioA.size ≠ 0 ∧
    ∃ last rest, scenarioA.pos_order.getLast? = some last ∧
      find scenarioA.key_order last.2.1 = some (last.1 :: rest) :=
  ⟨scenarioA_reachable, by decide,
    ledger_tail_is_top_of_its_substack scenarioA scenarioA_reachable (by decide)⟩

theorem index_is_projection_of_ledger_witness :
    scenarioA.Reachable ∧
    ((ids scenarioA.pos_order).Nodup ∧
    (∀ k, ((find scenarioA.key_order k).getD []).reverse = idsOf scenarioA.pos_order k) ∧
    (∀ k, ((find scenarioA.key_order k).getD []).Nodup) ∧
    (∀ k r, r ∈ (find scenarioA.key_order k).getD [] ↔ ∃ v, (r, k, v) ∈ scenarioA.pos_order) ∧
    (∀ e ∈ scenarioA.pos_order, ∃ s, find scenarioA.key_order e.2.1 = some s ∧ e.1 ∈ s ∧
      ∀ k' s', find scenarioA.key_order k' = some s' → e.1 ∈ s' → k' = e.2.1) ∧
    (∀ p ∈ scenarioA.key_order, p.2 ≠ [] ∧ find scenarioA.key_order p.1 = some p.2)) :=
  ⟨scenarioA_reachable, index_is_projection_of_ledger scenarioA scenarioA_reachable⟩

theorem push_then_pop_restores_witness :
    scenarioA.Reachable ∧
    (scenarioA.push 2 9).pop = .ok () scenarioA ∧
    (scenarioA.push 2 9).pop_key 2 = .ok () scenarioA :=
  ⟨scenarioA_reachable, push_then_pop_restores scenarioA scenarioA_reachable 2 9⟩

theorem pop_agrees_with_pop_of_tail_key_witness :
    scenarioA.Reachable ∧ scenarioA.pos_order.getLast? = some (3, 1, 3) ∧
    scenarioA.pop = scenarioA.pop_key 1 ∧ ∃ b', scenarioA.pop = .ok () b' :=
  ⟨scenarioA_reachable, by decide,
    pop_agrees_with_pop_of_tail_key scenarioA scenarioA_reachable (3, 1, 3) (by decide)⟩

end BodyInvariantWitnesses

/-! ## deep_copy -/

section Offsets
variable {K V : Type} [LinearOrder K]

theorem idsOf_cons (e : Nat × K × V) (t : List (Nat × K × V)) (k : K) :
    idsOf (e :: t) k = (if e.2.1 = k then [e.1] else []) ++ idsOf t k := by
  by_cases h : e.2.1 = k <;> simp [idsOf, ids, h]

theorem offsets_idsOf (l : List (Nat × K × V)) (hn : (ids l).Nodup) (k : K) :
    (idsOf l k).map (fun r => offset r l) = keyOffsets k (entries l) := by
  induction l with
  | nil => rfl
  | cons e t ih =>
    have hn' : e.1 ∉ ids t ∧ (ids t).Nodup := by
      simpa [ids] using hn
    have htail : (idsOf t k).map (fun r => offset r (e :: t)) =
        (keyOffsets k (entries t)).map (fun i => i + 1) := by
      rw [← ih hn'.2, List.map_map]
      apply List.map_congr_left
      intro r hr
      have hne : e.1 ≠ r := by
        intro h
        apply hn'.1
        rw [h]
        exact (idsOf_sublist t k).subset hr
      simp [offset, ids, List.indexOf_cons, hne]
    rw [idsOf_cons, List.map_append, htail]
    have hent : entries (e :: t) = e.2 :: entries t := rfl
    rw [hent, keyOffsets]
    by_cases h : e.2.1 = k
    · simp [h, offset, ids, List.indexOf_cons]
    · simp [h]

/-- The stack of a key, with every node replaced by its offset in the ledger, is
determined by the (key, value) sequence of the ledger. -/
theorem Linked.offsets {m : List (K × List Nat)} {l : List (Nat × K × V)} (hl : Linked m l)
    (k : K) :
    (find m k).map (List.map (fun r => offset r l)) =
      if keyOffsets k (entries l) = [] then none
      else some (keyOffsets k (entries l)).reverse := by
  have ho := offsets_idsOf l hl.nodup k
  rw [hl.index k]
  by_cases he : idsOf l k = []
  · have : keyOffsets k (entries l) = [] := by rw [← ho, he]; rfl
    rw [if_pos he, if_pos this]
    rfl
  · have : keyOffsets k (entries l) ≠ [] := by
      rw [← ho]
      simpa using he
    rw [if_neg he, if_neg this, ← ho]
    simp

/-- C21: for every Body `b` that satisfies the invariant, `deep_copy` (and the copy
constructor of `impl`, which is `deep_copy`) produces a Body that satisfies the invariant
again, with the same `sz`, the same (key, value) sequence in the same order, the flag
safe, the same keys in the index, and for every key a stack that, node by node from top
to bottom, refers to the same ledger offsets as the stack of that key in `b` (present for
the same keys, hence of the same length and in the same order). -/
theorem deep_copy_preserves_content (b : impl K V) (hb : b.Inv) :
    (impl.deep_copy b).Inv ∧ impl.copy b = impl.deep_copy b ∧
    (impl.deep_copy b).size = b.size ∧
    entries (impl.deep_copy b).pos_order = entries b.pos_order ∧
    (impl.deep_copy b).is_safe = true ∧
    (impl.deep_copy b).key_order.map Prod.fst = b.key_order.map Prod.fst ∧
    (∀ k, (find (impl.deep_copy b).key_order k).map
        (List.map (fun r => offset r (impl.deep_copy b).pos_order)) =
      (find b.key_order k).map (List.map (fun r => offset r b.pos_order))) ∧
    (∀ k, (impl.deep_copy b).count k = b.count k) := by
  have hc : (impl.deep_copy b).Inv := impl.copy_inv b hb
  have hent : entries (impl.deep_copy b).pos_order = entries b.pos_order := impl.copy_entries b
  have hcount : ∀ k, (impl.deep_copy b).count k = b.count k := by
    intro k
    rw [hc.count_entries, hb.count_entries, hent]
  refine ⟨hc, rfl, rfl, hent, rfl, ?_, ?_, hcount⟩
  · apply eq_of_ascending_of_mem _ _ hc.linked.sorted hb.linked.sorted
    intro k
    rw [hc.mem_keys, hb.mem_keys, hcount]
  · intro k
    rw [hc.linked.offsets k, hb.linked.offsets k, hent]

end Offsets

section OffsetsWitness

theorem deep_copy_preserves_content_witness :
    scenarioA.Inv ∧
    ((impl.deep_copy scenarioA).Inv ∧ impl.copy scenarioA = impl.deep_copy scenarioA ∧
    (impl.deep_copy scenarioA).size = scenarioA.size ∧
    entries (impl.deep_copy scenarioA).pos_order = entries scenarioA.pos_order ∧
    (impl.deep_copy scenarioA).is_safe = true ∧
    (impl.deep_copy scenarioA).key_order.map Prod.fst = scenarioA.key_order.map Prod.fst ∧
    (∀ k, (find (impl.deep_copy scenarioA).key_order k).map
        (List.map (fun r => offset r (impl.deep_copy scenarioA).pos_order)) =
      (find scenarioA.key_order k).map (List.map (fun r => offset r scenarioA.pos_order))) ∧
    (∀ k, (impl.deep_copy scenarioA).count k = scenarioA.count k)) :=
  ⟨scenarioA_reachable.inv, deep_copy_preserves_content scenarioA scenarioA_reachable.inv⟩

/-- A Body whose nodes have the identities 7 and 4: `deep_copy` gives the nodes new
identities, and the stacks of the copy refer to the same ledger offsets. -/
theorem deep_copy_renumbers_nodes :
    impl.deep_copy (⟨false, [(1, [4, 7])], [(7, 1, 10), (4, 1, 20)], 2⟩ : impl Nat Nat) =
      ⟨true, [(1, [2, 1])], [(1, 1, 10), (2, 1, 20)], 2⟩ := by
  decide

end OffsetsWitness

/-! ## Program states: owners and use counts -/

section Owners

theorem owners_cons (s : stack) (W : List stack) (x : Nat) :
    owners (s :: W) x = owners W x + (if s.st = some x then 1 else 0) := by
  unfold owners
  rw [List.count_cons]
  congr 1
  by_cases h : s.st = some x
  · have : s = ⟨some x⟩ := stack.eq_of_st s x h
    simp [h, this]
  · have : ¬ s = ⟨some x⟩ := fun e => h (by rw [e])
    simp [h, this]

theorem owners_perm (V W : List stack) (hp : V.Perm W) (x : Nat) : owners V x = owners W x :=
  hp.count_eq _

theorem owners_pos_of_mem (V : List stack) (s : stack) (hs : s ∈ V) (a : Nat)
    (hst : s.st = some a) : 1 ≤ owners V a := by
  unfold owners
  have : s = ⟨some a⟩ := stack.eq_of_st s a hst
  rw [this] at hs
  exact List.count_pos_iff.mpr hs

theorem split_at_index (l : List stack) (i : Nat) (s : stack) (h : l[i]? = some s) :
    ∃ pre post, l = pre ++ s :: post ∧ (∀ s', l.set i s' = pre ++ s' :: post) ∧
      l.eraseIdx i = pre ++ post := by
  induction l generalizing i with
  | nil => simp at h
  | cons x t ih =>
    cases i with
    | zero =>
      simp only [List.getElem?_cons_zero, Option.some.injEq] at h
      subst h
      exact ⟨[], t, rfl, fun _ => rfl, rfl⟩
    | succ n =>
      simp only [List.getElem?_cons_succ] at h
      obtain ⟨pre, post, h1, h2, h3⟩ := ih n h
      refine ⟨x :: pre, post, by rw [h1]; rfl, ?_, ?_⟩
      · intro s'
        simp only [List.set_cons_succ, h2 s', List.cons_append]
      · simp only [List.eraseIdx_cons_succ, h3, List.cons_append]

theorem perm_of_index (l : List stack) (i : Nat) (s : stack) (h : l[i]? = some s) :
    l.Perm (s :: l.eraseIdx i) ∧ ∀ s', (l.set i s').Perm (s' :: l.eraseIdx i) := by
  obtain ⟨pre, post, h1, h2, h3⟩ := split_at_index l i s h
  refine ⟨?_, ?_⟩
  · rw [h3]
    nth_rewrite 1 [h1]
    exact List.perm_middle
  · intro s'
    rw [h2 s', h3]
    exact List.perm_middle

end Owners

section SysInv
variable {K V : Type} [LinearOrder K]

theorem Sys.Inv.perm {h : Heap K V} {V1 V2 : List stack} (hi : Sys.Inv ⟨h, V1⟩)
    (hp : V1.Perm V2) : Sys.Inv ⟨h, V2⟩ := by
  refine ⟨?_, ?_⟩
  · intro a ha
    have := hi.dangling a ha
    simp only at this ⊢
    rw [← owners_perm V1 V2 hp a]
    exact this
  · intro a c hf
    have := hi.cells a c hf
    simp only at this ⊢
    rw [← owners_perm V1 V2 hp a]
    exact this

theorem Sys.Inv.cell_of_head {h : Heap K V} {s : stack} {W : List stack}
    (hi : Sys.Inv ⟨h, s :: W⟩) (a : Nat) (hst : s.st = some a) :
    ∃ c, find h a = some c ∧ c.use_count = owners W a + 1 ∧ c.obj.Reachable ∧
      (c.obj.is_safe = false → c.use_count = 1) := by
  cases hf : find h a with
  | none =>
    have := hi.dangling a hf
    simp only [owners_cons, hst] at this
    simp at this
  | some c =>
    obtain ⟨h1, _, h3, h4⟩ := hi.cells a c hf
    simp only [owners_cons, hst, if_true] at h1
    exact ⟨c, rfl, h1, h3, h4⟩

theorem Sys.Inv.valid_head {h : Heap K V} {s : stack} {W : List stack}
    (hi : Sys.Inv ⟨h, s :: W⟩) : s.Valid h := by
  intro a hst
  obtain ⟨c, hf, hc, hr, _⟩ := hi.cell_of_head a hst
  exact ⟨c, hf, by omega, hr⟩

theorem Sys.init_inv : (Sys.init : Sys K V).Inv := by
  refine ⟨?_, ?_⟩
  · intro a _
    rfl
  · intro a c hf
    simp [Sys.init, find] at hf

end SysInv

section SysSteps
variable {K V : Type} [LinearOrder K]

/-- Adding or removing a Handle without a Body changes nothing. -/
theorem Sys.Inv.cons_null {h : Heap K V} {s : stack} {W : List stack} (hst : s.st = none) :
    Sys.Inv ⟨h, s :: W⟩ ↔ Sys.Inv ⟨h, W⟩ := by
  have ho : ∀ x, owners (s :: W) x = owners W x := by
    intro x
    rw [owners_cons, hst]
    simp
  constructor
  · intro hi
    refine ⟨fun a ha => ?_, fun a c hf => ?_⟩
    · have := hi.dangling a ha
      simp only [ho] at this
      exact this
    · have := hi.cells a c hf
      simp only [ho] at this
      exact this
  · intro hi
    refine ⟨fun a ha => ?_, fun a c hf => ?_⟩
    · simp only [ho]
      exact hi.dangling a ha
    · simp only [ho]
      exact hi.cells a c hf

/-- The destructor of a Handle keeps the invariant. -/
theorem Sys.Inv.destroy {h : Heap K V} {s : stack} {W : List stack}
    (hi : Sys.Inv ⟨h, s :: W⟩) : Sys.Inv ⟨stack.destroy h s, W⟩ := by
  cases hst : s.st with
  | none =>
    have : stack.destroy h s = h := by simp [stack.destroy, hst]
    rw [this]
    exact (Sys.Inv.cons_null hst).mp hi
  | some a =>
    obtain ⟨c, hf, hc, hr, hfl⟩ := hi.cell_of_head a hst
    have hd : stack.destroy h s = release h a := by simp [stack.destroy, hst]
    have ho : ∀ x, x ≠ a → owners (s :: W) x = owners W x := by
      intro x hx
      rw [owners_cons, hst]
      have : ¬ some a = some x := fun e => hx (Option.some.inj e).symm
      simp [this]
    rw [hd]
    refine ⟨fun x hx => ?_, fun x c' hx => ?_⟩
    · simp only [find_release] at hx
      by_cases hxa : x = a
      · subst hxa
        rw [if_pos rfl, hf] at hx
        simp only at hx ⊢
        by_cases hle : c.use_count ≤ 1
        · omega
        · rw [if_neg hle] at hx; cases hx
      · rw [if_neg hxa] at hx
        have := hi.dangling x hx
        simp only [ho x hxa] at this
        exact this
    · simp only [find_release] at hx
      by_cases hxa : x = a
      · subst hxa
        rw [if_pos rfl, hf] at hx
        simp only at hx ⊢
        by_cases hle : c.use_count ≤ 1
        · rw [if_pos hle] at hx; cases hx
        · rw [if_neg hle] at hx
          cases hx
          refine ⟨by simp only; omega, by simp only; omega, hr, ?_⟩
          intro hu
          have := hfl hu
          omega
      · rw [if_neg hxa] at hx
        have := hi.cells x c' hx
        simp only [ho x hxa] at this
        exact this

/-- Default construction keeps the invariant. -/
theorem Sys.Inv.construct {h : Heap K V} {W : List stack} (hi : Sys.Inv ⟨h, W⟩) :
    Sys.Inv ⟨(stack.new h).1, (stack.new h).2 :: W⟩ := by
  have hfresh := find_freshAddr h
  have h0 := hi.dangling _ hfresh
  simp only at h0
  have ho : ∀ x, owners ((stack.new h).2 :: W) x =
      owners W x + (if x = freshAddr h then 1 else 0) := by
    intro x
    rw [owners_cons]
    simp only [stack.new, make_shared_fst, Option.some.injEq]
    by_cases hx : x = freshAddr h
    · simp [hx]
    · have : ¬ freshAddr h = x := fun e => hx e.symm
      simp [hx, this]
  have hfind : ∀ x, find (stack.new h).1 x =
      if x = freshAddr h then some ⟨impl.new, 1⟩ else find h x := by
    intro x
    simp only [stack.new, find_make_shared]
  refine ⟨fun x hx => ?_, fun x c' hx => ?_⟩
  · simp only [hfind] at hx
    by_cases hxf : x = freshAddr h
    · rw [if_pos hxf] at hx; cases hx
    · rw [if_neg hxf] at hx
      simp only [ho, if_neg hxf]
      exact hi.dangling x hx
  · simp only [hfind] at hx
    by_cases hxf : x = freshAddr h
    · rw [if_pos hxf] at hx
      cases hx
      simp only [ho, if_pos hxf]
      subst hxf
      exact ⟨by omega, le_refl _, impl.Reachable.new, fun _ => trivial⟩
    · rw [if_neg hxf] at hx
      simp only [ho, if_neg hxf]
      exact hi.cells x c' hx

/-- An assignment through a reference into a Body keeps the invariant. -/
theorem Sys.Inv.write {h : Heap K V} {W : List stack} (hi : Sys.Inv ⟨h, W⟩) (a r : Nat) (v : V)
    (c : cell K V) (hf : find h a = some c) :
    Sys.Inv ⟨store h a (c.obj.write r v), W⟩ := by
  refine ⟨fun x hx => ?_, fun x c' hx => ?_⟩
  · simp only [find_store] at hx
    by_cases hxa : x = a
    · subst hxa
      rw [if_pos rfl, hf] at hx
      cases hx
    · rw [if_neg hxa] at hx
      exact hi.dangling x hx
  · simp only [find_store] at hx
    by_cases hxa : x = a
    · subst hxa
      rw [if_pos rfl, hf] at hx
      cases hx
      obtain ⟨h1, h2, h3, h4⟩ := hi.cells x c hf
      exact ⟨h1, h2, impl.Reachable.write _ r v h3, h4⟩
    · rw [if_neg hxa] at hx
      exact hi.cells x c' hx

end SysSteps

section SysPrimitives
variable {K V : Type} [LinearOrder K]

/-- The invariant looks at the heap through `find` only. -/
theorem Sys.Inv.congr {h h' : Heap K V} {W : List stack} (hi : Sys.Inv ⟨h, W⟩)
    (hfind : ∀ x, find h' x = find h x) : Sys.Inv ⟨h', W⟩ := by
  refine ⟨fun x hx => ?_, fun x c' hx => ?_⟩
  · simp only [hfind] at hx
    exact hi.dangling x hx
  · simp only [hfind] at hx
    exact hi.cells x c' hx

/-- A new block with a reachable Body and one owner, the new Handle, keeps the invariant. -/
theorem Sys.Inv.alloc {h h' : Heap K V} {W : List stack} (hi : Sys.Inv ⟨h, W⟩) (f : Nat)
    (b : impl K V) (hfree : find h f = none)
    (hfind : ∀ x, find h' x = if x = f then some ⟨b, 1⟩ else find h x) (hr : b.Reachable) :
    Sys.Inv ⟨h', ⟨some f⟩ :: W⟩ := by
  have h0 := hi.dangling _ hfree
  simp only at h0
  have ho : ∀ x, owners (⟨some f⟩ :: W) x = owners W x + (if x = f then 1 else 0) := by
    intro x
    rw [owners_cons]
    simp only [Option.some.injEq]
    by_cases hx : x = f
    · simp [hx]
    · have : ¬ f = x := fun e => hx e.symm
      simp [hx, this]
  refine ⟨fun x hx => ?_, fun x c' hx => ?_⟩
  · simp only [hfind] at hx
    by_cases hxf : x = f
    · rw [if_pos hxf] at hx; cases hx
    · rw [if_neg hxf] at hx
      simp only [ho, if_neg hxf]
      exact hi.dangling x hx
  · simp only [hfind] at hx
    by_cases hxf : x = f
    · rw [if_pos hxf] at hx
      cases hx
      simp only [ho, if_pos hxf]
      subst hxf
      exact ⟨by omega, le_refl _, hr, fun _ => trivial⟩
    · rw [if_neg hxf] at hx
      simp only [ho, if_neg hxf]
      exact hi.cells x c' hx

/-- Replacing the Body of a block that has one owner by a reachable Body keeps the
invariant, whatever the flag of the new Body. -/
theorem Sys.Inv.update_exclusive {h h' : Heap K V} {W : List stack} (hi : Sys.Inv ⟨h, W⟩)
    (a : Nat) (c : cell K V) (hf : find h a = some c) (hc : c.use_count = 1) (b : impl K V)
    (hfind : ∀ x, find h' x = if x = a then some ⟨b, 1⟩ else find h x) (hr : b.Reachable) :
    Sys.Inv ⟨h', W⟩ := by
  obtain ⟨h1, _, _, _⟩ := hi.cells a c hf
  simp only at h1
  refine ⟨fun x hx => ?_, fun x c' hx => ?_⟩
  · simp only [hfind] at hx
    by_cases hxa : x = a
    · rw [if_pos hxa] at hx; cases hx
    · rw [if_neg hxa] at hx
      exact hi.dangling x hx
  · simp only [hfind] at hx
    by_cases hxa : x = a
    · rw [if_pos hxa] at hx
      cases hx
      subst hxa
      exact ⟨by simp only; omega, le_refl _, hr, fun _ => rfl⟩
    · rw [if_neg hxa] at hx
      exact hi.cells x c' hx

/-- One more owner of a block whose Body is flagged safe keeps the invariant. -/
theorem Sys.Inv.share {h : Heap K V} {W : List stack} (hi : Sys.Inv ⟨h, W⟩) (a : Nat)
    (c : cell K V) (hf : find h a = some c) (hsafe : c.obj.is_safe = true) :
    Sys.Inv ⟨acquire h a, ⟨some a⟩ :: W⟩ := by
  obtain ⟨h1, h2, h3, _⟩ := hi.cells a c hf
  simp only at h1
  have ho : ∀ x, owners (⟨some a⟩ :: W) x = owners W x + (if x = a then 1 else 0) := by
    intro x
    rw [owners_cons]
    simp only [Option.some.injEq]
    by_cases hx : x = a
    · simp [hx]
    · have : ¬ a = x := fun e => hx e.symm
      simp [hx, this]
  refine ⟨fun x hx => ?_, fun x c' hx => ?_⟩
  · simp only [find_acquire] at hx
    by_cases hxa : x = a
    · rw [if_pos hxa, hf] at hx; cases hx
    · rw [if_neg hxa] at hx
      simp only [ho, if_neg hxa]
      exact hi.dangling x hx
  · simp only [find_acquire] at hx
    by_cases hxa : x = a
    · rw [if_pos hxa, hf] at hx
      cases hx
      subst hxa
      simp only [ho, if_true]
      refine ⟨by omega, by omega, h3, ?_⟩
      intro hu
      rw [hsafe] at hu
      cases hu
    · rw [if_neg hxa] at hx
      simp only [ho, if_neg hxa]
      exact hi.cells x c' hx

/-- Copy construction from a Handle with a Body, case by case. -/
theorem stack.copy_cases (h : Heap K V) (src : stack) (a : Nat) (c : cell K V)
    (hst : src.st = some a) (hf : find h a = some c) (hc : 1 ≤ c.use_count) :
    (c.obj.is_safe = true → stack.copy h src = .ok ⟨some a⟩ (acquire h a)) ∧
    (c.obj.is_safe = false →
      ∃ h', stack.copy h src = .ok ⟨some (freshAddr (acquire h a))⟩ h' ∧
        find h (freshAddr (acquire h a)) = none ∧
        ∀ x, find h' x = if x = freshAddr (acquire h a)
          then some ⟨impl.move (impl.copy c.obj), 1⟩ else find h x) := by
  refine ⟨?_, ?_⟩
  · intro hsafe
    unfold stack.copy
    rw [hst]
    simp [hf, hsafe]
  · intro hsafe
    have hne := freshAddr_acquire_ne h a c hf
    refine ⟨release (make_shared (acquire h a) (impl.move (impl.copy c.obj))).2 a, ?_,
      find_freshAddr_acquire h a c hf, ?_⟩
    · unfold stack.copy
      rw [hst]
      simp [hf, hsafe, make_shared_fst]
    · intro x
      by_cases hx : x = freshAddr (acquire h a)
      · subst hx
        simp [find_release, find_make_shared, hne]
      · by_cases hxa : x = a
        · subst hxa
          have h0 : c.use_count ≠ 0 := by omega
          simp [find_release, find_make_shared, find_acquire, hf, hne.symm, h0]
        · simp [find_release, find_make_shared, find_acquire, hx, hxa]

/-- Copy construction keeps the invariant. -/
theorem Sys.Inv.copy {h : Heap K V} {W : List stack} (hi : Sys.Inv ⟨h, W⟩) (src : stack)
    (hs : src ∈ W) (c : stack) (h' : Heap K V) (hc : stack.copy h src = .ok c h') :
    Sys.Inv ⟨h', c :: W⟩ := by
  cases hst : src.st with
  | none => simp [stack.copy, hst] at hc
  | some a =>
    have hpos := owners_pos_of_mem W src hs a hst
    cases hf : find h a with
    | none =>
      have := hi.dangling a hf
      simp only at this
      omega
    | some cl =>
      obtain ⟨_, h2, h3, _⟩ := hi.cells a cl hf
      obtain ⟨hsafe, hunsafe⟩ := stack.copy_cases h src a cl hst hf h2
      by_cases hs : cl.obj.is_safe = true
      · rw [hsafe hs] at hc
        cases hc
        exact hi.share a cl hf hs
      · have hs' : cl.obj.is_safe = false := by simpa using hs
        obtain ⟨h1, heq, hfree, hfind⟩ := hunsafe hs'
        rw [heq] at hc
        cases hc
        exact hi.alloc _ _ hfree hfind (impl.Reachable.move _ (impl.Reachable.copy _ h3))

end SysPrimitives

section SysMutate
variable {K V : Type} [LinearOrder K]

/-- A call through the macro has defined behaviour and keeps the invariant, when `expr`
returns or throws in a reachable Body on every reachable Body. -/
theorem COW_sys {α : Type} (expr : impl K V → Res (impl K V) α) (safety : Bool)
    {h : Heap K V} {s : stack} {W : List stack} (hi : Sys.Inv ⟨h, s :: W⟩)
    (hexpr : ∀ b0 : impl K V, b0.Reachable →
      (∃ r b', expr b0 = .ok r b' ∧ b'.Reachable) ∨ (∃ e b', expr b0 = .throw e b' ∧ b'.Reachable)) :
    ∃ h' s', (COPY_ON_WRITE_CORE expr safety h s).state? = some (h', s') ∧
      Sys.Inv ⟨h', s' :: W⟩ := by
  cases hst : s.st with
  | none =>
    have hi' : Sys.Inv ⟨h, W⟩ := (Sys.Inv.cons_null hst).mp hi
    have hfind : ∀ (b' : impl K V) x, find (store (make_shared h impl.new).2 (freshAddr h) b') x =
        if x = freshAddr h then some ⟨b', 1⟩ else find h x := by
      intro b' x
      by_cases hx : x = freshAddr h
      · subst hx
        simp [find_store, find_make_shared]
      · simp [find_store, find_make_shared, hx]
    rw [COW_null expr safety h s hst]
    rcases hexpr _ impl.Reachable.new with ⟨r, b', he, hr'⟩ | ⟨e, b', he, hr'⟩
    · rw [he]
      exact ⟨_, _, rfl, hi'.alloc _ b' (find_freshAddr h) (hfind b') hr'⟩
    · rw [he]
      exact ⟨_, _, rfl, hi'.alloc _ b' (find_freshAddr h) (hfind b') hr'⟩
  | some a =>
    obtain ⟨c, hf, hc, hr, _⟩ := hi.cell_of_head a hst
    have hs : s = ⟨some a⟩ := stack.eq_of_st s a hst
    by_cases hsh : 2 ≤ c.use_count
    · have hr0 : impl.Reachable { impl.move (impl.copy c.obj) with is_safe := safety } :=
        impl.Reachable.set_safe _ _ (impl.Reachable.move _ (impl.Reachable.copy _ hr))
      rcases hexpr _ hr0 with ⟨r, b', he, hr'⟩ | ⟨e, b', he, hr'⟩
      · obtain ⟨h', heq, hfind⟩ := COW_shared_ok expr safety h s a c hst hf hsh r b' he
        have hd := hi.destroy
        have hdh : stack.destroy h s = release h a := by simp [stack.destroy, hst]
        rw [hdh] at hd
        have hne := freshAddr_acquire_ne h a c hf
        have hfree : find (release h a) (freshAddr (acquire h a)) = none := by
          rw [find_release, if_neg hne]
          exact find_freshAddr_acquire h a c hf
        refine ⟨h', _, by rw [heq]; rfl, hd.alloc _ b' hfree ?_ hr'⟩
        intro x
        rw [hfind x, find_release]
        by_cases hx : x = freshAddr (acquire h a)
        · rw [if_pos hx, if_pos hx]
        · rw [if_neg hx, if_neg hx]
          by_cases hxa : x = a
          · have hle : ¬ c.use_count ≤ 1 := by omega
            rw [if_pos hxa, if_pos hxa, hf]
            simp [hle]
          · rw [if_neg hxa, if_neg hxa]
      · obtain ⟨h', heq, hfind⟩ := COW_shared_throw expr safety h s a c hst hf hsh e b' he
        refine ⟨h', ⟨some a⟩, by rw [heq]; rfl, ?_⟩
        rw [← hs]
        exact hi.congr hfind
    · have hone : c.use_count = 1 := by omega
      have hr0 : impl.Reachable { c.obj with is_safe := safety } :=
        impl.Reachable.set_safe _ _ hr
      rcases hexpr _ hr0 with ⟨r, b', he, hr'⟩ | ⟨e, b', he, hr'⟩
      · obtain ⟨h', heq, hfind⟩ := COW_exclusive_ok expr safety h s a c hst hf hone r b' he
        refine ⟨h', ⟨some a⟩, by rw [heq]; rfl, ?_⟩
        rw [← hs]
        exact hi.update_exclusive a c hf hone b' hfind hr'
      · obtain ⟨h', heq, hfind⟩ := COW_exclusive_throw expr safety h s a c hst hf hone e b' he
        refine ⟨h', ⟨some a⟩, by rw [heq]; rfl, ?_⟩
        rw [← hs]
        exact hi.update_exclusive a c hf hone b' hfind hr'

/-- `clear()` on a Handle with a Body keeps the invariant. -/
theorem Sys.Inv.clear {h : Heap K V} {s : stack} {W : List stack} (hi : Sys.Inv ⟨h, s :: W⟩)
    (h' : Heap K V) (s' : stack) (hc : stack.clear h s = .ok () (h', s')) :
    Sys.Inv ⟨h', s' :: W⟩ := by
  cases hst : s.st with
  | none => simp [stack.clear, hst, use_count] at hc
  | some a =>
    obtain ⟨c, hf, hcnt, hr, _⟩ := hi.cell_of_head a hst
    by_cases hsh : 2 ≤ c.use_count
    · rw [(stack.clear_result h s a c hst hf).2 hsh] at hc
      cases hc
      have hd := hi.destroy
      have hdh : stack.destroy h s = release h a := by simp [stack.destroy, hst]
      rw [hdh] at hd
      exact (Sys.Inv.cons_null rfl).mpr hd
    · have hone : c.use_count = 1 := by omega
      rw [(stack.clear_result h s a c hst hf).1 (by omega)] at hc
      cases hc
      refine hi.update_exclusive a c hf hone c.obj.clear ?_ (impl.Reachable.clear _ hr)
      intro x
      by_cases hx : x = a
      · subst hx
        simp [find_store, hf, hone]
      · simp [find_store, hx]

/-- A call of a mutating member function that has defined behaviour keeps the invariant. -/
theorem Sys.Inv.mutate {h : Heap K V} {s : stack} {W : List stack} (hi : Sys.Inv ⟨h, s :: W⟩)
    (m : Mutation K V) (st' : Heap K V × stack) (hm : stack.mutate m h s = some st') :
    Sys.Inv ⟨st'.1, st'.2 :: W⟩ := by
  have key : ∀ {α : Type} (expr : impl K V → Res (impl K V) α) (safety : Bool),
      (∀ b0 : impl K V, b0.Reachable →
        (∃ r b', expr b0 = .ok r b' ∧ b'.Reachable) ∨
        (∃ e b', expr b0 = .throw e b' ∧ b'.Reachable)) →
      (COPY_ON_WRITE_CORE expr safety h s).state? = some st' →
      Sys.Inv ⟨st'.1, st'.2 :: W⟩ := by
    intro α expr safety hexpr hst
    obtain ⟨h', s', heq, hinv⟩ := COW_sys expr safety hi hexpr
    rw [heq] at hst
    cases hst
    exact hinv
  cases m with
  | push k v =>
    exact key _ true (fun b0 h0 => Or.inl ⟨(), _, rfl, impl.Reachable.push b0 k v h0⟩) hm
  | pop =>
    refine key _ true (fun b0 h0 => ?_) hm
    rcases impl.pop_total b0 h0 with ⟨r, b', he, hr', _⟩ | ⟨e, he⟩
    · exact Or.inl ⟨r, b', he, hr'⟩
    · exact Or.inr ⟨e, b0, he, h0⟩
  | pop_key k =>
    refine key _ true (fun b0 h0 => ?_) hm
    rcases impl.pop_key_total b0 h0 k with ⟨r, b', he, hr', _⟩ | ⟨e, he⟩
    · exact Or.inl ⟨r, b', he, hr'⟩
    · exact Or.inr ⟨e, b0, he, h0⟩
  | front =>
    refine key _ false (fun b0 h0 => ?_) hm
    rcases impl.front_total b0 h0 with ⟨r, he⟩ | ⟨e, he⟩
    · exact Or.inl ⟨r, b0, he, h0⟩
    · exact Or.inr ⟨e, b0, he, h0⟩
  | front_key k =>
    refine key _ false (fun b0 h0 => ?_) hm
    rcases impl.front_key_total b0 h0 k with ⟨r, he⟩ | ⟨e, he⟩
    · exact Or.inl ⟨r, b0, he, h0⟩
    · exact Or.inr ⟨e, b0, he, h0⟩
  | clear =>
    simp only [stack.mutate] at hm
    cases hc : stack.clear h s with
    | ok r st =>
      rw [hc] at hm
      cases hm
      exact hi.clear _ _ hc
    | throw e st =>
      exfalso
      unfold stack.clear at hc
      split at hc <;> split at hc <;> first | cases hc | (split at hc <;> cases hc)
    | ub => rw [hc] at hm; cases hm

end SysMutate

section SysRun
variable {K V : Type} [LinearOrder K]

theorem mem_of_index (l : List stack) (i : Nat) (s : stack) (h : l[i]? = some s) : s ∈ l := by
  obtain ⟨pre, post, h1, _, _⟩ := split_at_index l i s h
  rw [h1]
  simp

/-- Move construction keeps the invariant. -/
theorem Sys.Inv.move {h : Heap K V} {W : List stack} (hi : Sys.Inv ⟨h, W⟩) (j : Nat)
    (src : stack) (hj : W[j]? = some src) :
    Sys.Inv ⟨h, (stack.move src).1 :: W.set j (stack.move src).2⟩ := by
  obtain ⟨hp1, hp2⟩ := perm_of_index W j src hj
  have h1 : Sys.Inv ⟨h, src :: W.eraseIdx j⟩ := hi.perm hp1
  have h2 : Sys.Inv ⟨h, (stack.move src).2 :: src :: W.eraseIdx j⟩ :=
    (Sys.Inv.cons_null rfl).mpr h1
  refine h2.perm ?_
  have h3 : ((stack.move src).1 :: W.set j (stack.move src).2).Perm
      ((stack.move src).1 :: (stack.move src).2 :: W.eraseIdx j) :=
    List.Perm.cons _ (hp2 _)
  exact (h3.trans (List.Perm.swap _ _ _)).symm

/-- Every action of a program that is defined keeps the invariant. -/
theorem Sys.step_inv (σ σ' : Sys K V) (hi : σ.Inv) (act : Action K V)
    (hstep : σ.step act = some σ') : σ'.Inv := by
  obtain ⟨h, W⟩ := σ
  cases act with
  | construct =>
    simp only [Sys.step, Option.some.injEq] at hstep
    subst hstep
    exact hi.construct.perm (List.perm_append_singleton _ _).symm
  | copy j =>
    simp only [Sys.step] at hstep
    cases hj : W[j]? with
    | none => rw [hj] at hstep; cases hstep
    | some src =>
      rw [hj] at hstep
      simp only at hstep
      cases hc : stack.copy h src with
      | ok c h' =>
        rw [hc] at hstep
        cases hstep
        exact (hi.copy src (mem_of_index W j src hj) c h' hc).perm
          (List.perm_append_singleton _ _).symm
      | throw e st => rw [hc] at hstep; cases hstep
      | ub => rw [hc] at hstep; cases hstep
  | move j =>
    simp only [Sys.step] at hstep
    cases hj : W[j]? with
    | none => rw [hj] at hstep; cases hstep
    | some src =>
      rw [hj] at hstep
      cases hstep
      exact (hi.move j src hj).perm (List.perm_append_singleton _ _).symm
  | assign i j =>
    simp only [Sys.step] at hstep
    cases hvi : W[i]? with
    | none => rw [hvi] at hstep; cases hstep
    | some s =>
      cases hj : W[j]? with
      | none => rw [hvi, hj] at hstep; cases hstep
      | some src =>
        rw [hvi, hj] at hstep
        simp only [stack.assign] at hstep
        cases hc : stack.copy h src with
        | ok c h1 =>
          rw [hc] at hstep
          cases hstep
          obtain ⟨hp1, hp2⟩ := perm_of_index W i s hvi
          have h1' : Sys.Inv ⟨h1, c :: W⟩ := hi.copy src (mem_of_index W j src hj) c h1 hc
          have h2 : Sys.Inv ⟨h1, s :: c :: W.eraseIdx i⟩ :=
            h1'.perm ((List.Perm.cons c hp1).trans (List.Perm.swap _ _ _))
          exact h2.destroy.perm (hp2 c).symm
        | throw e st => rw [hc] at hstep; cases hstep
        | ub => rw [hc] at hstep; cases hstep
  | move_assign i j =>
    simp only [Sys.step] at hstep
    cases hvi : W[i]? with
    | none => rw [hvi] at hstep; cases hstep
    | some s =>
      cases hj : W[j]? with
      | none => rw [hvi, hj] at hstep; cases hstep
      | some src =>
        rw [hvi, hj] at hstep
        simp only at hstep
        by_cases hij : i = j
        · rw [if_pos hij] at hstep
          cases hstep
          exact hi
        · rw [if_neg hij] at hstep
          cases hstep
          have h1 := hi.move j src hj
          have hvi' : (W.set j (stack.move src).2)[i]? = some s := by
            rw [List.getElem?_set_ne (fun e => hij e.symm)]
            exact hvi
          obtain ⟨hp1, hp2⟩ := perm_of_index _ i s hvi'
          have h2 : Sys.Inv ⟨h, s :: (stack.move src).1 ::
              (W.set j (stack.move src).2).eraseIdx i⟩ :=
            h1.perm ((List.Perm.cons _ hp1).trans (List.Perm.swap _ _ _))
          exact h2.destroy.perm (hp2 _).symm
  | destroy i =>
    simp only [Sys.step] at hstep
    cases hvi : W[i]? with
    | none => rw [hvi] at hstep; cases hstep
    | some s =>
      rw [hvi] at hstep
      cases hstep
      exact (hi.perm (perm_of_index W i s hvi).1).destroy
  | call i m =>
    simp only [Sys.step] at hstep
    cases hvi : W[i]? with
    | none => rw [hvi] at hstep; cases hstep
    | some s =>
      rw [hvi] at hstep
      simp only at hstep
      cases hm : stack.mutate m h s with
      | none => rw [hm] at hstep; cases hstep
      | some st' =>
        rw [hm] at hstep
        cases hstep
        obtain ⟨hp1, hp2⟩ := perm_of_index W i s hvi
        exact ((hi.perm hp1).mutate m st' hm).perm (hp2 _).symm
  | write a r v =>
    simp only [Sys.step] at hstep
    cases hf : find h a with
    | none => rw [hf] at hstep; cases hstep
    | some c =>
      rw [hf] at hstep
      cases hstep
      exact hi.write a r v c hf

theorem Sys.run_inv (acts : List (Action K V)) (σ σ' : Sys K V) (hi : σ.Inv)
    (hrun : Sys.run acts σ = some σ') : σ'.Inv := by
  induction acts generalizing σ with
  | nil =>
    simp only [Sys.run, Option.some.injEq] at hrun
    subst hrun
    exact hi
  | cons act t ih =>
    simp only [Sys.run] at hrun
    cases hs : σ.step act with
    | none => rw [hs] at hrun; cases hrun
    | some σ1 =>
      rw [hs] at hrun
      exact ih σ1 (Sys.step_inv σ σ1 hi act hs) hrun

/-- C26: in every program state reached from the start by default construction, copy
construction, move construction, copy and move assignment, destruction, calls of the
mutating member functions, returning or throwing, and assignments through references,
every Body whose flag is unsafe is in a block with `use_count` one and is the Body of
exactly one live Handle; every block has as many owning Handles as its `use_count` says. -/
theorem unsafe_body_has_one_owner (acts : List (Action K V)) (σ : Sys K V)
    (hrun : Sys.run acts Sys.init = some σ) :
    (∀ a c, find σ.heap a = some c → c.obj.is_safe = false →
      c.use_count = 1 ∧ (σ.vars.filter (fun s => decide (s.st = some a))).length = 1) ∧
    (∀ a c, find σ.heap a = some c →
      (σ.vars.filter (fun s => decide (s.st = some a))).length = c.use_count) := by
  have hi := Sys.run_inv acts Sys.init σ Sys.init_inv hrun
  have hcount : ∀ a, (σ.vars.filter (fun s => decide (s.st = some a))).length =
      owners σ.vars a := by
    intro a
    unfold owners
    rw [List.count_eq_countP, List.countP_eq_length_filter]
    congr 1
    apply List.filter_congr
    intro s _
    by_cases h : s.st = some a
    · have : s = ⟨some a⟩ := stack.eq_of_st s a h
      simp [h, this]
    · have : ¬ s = ⟨some a⟩ := fun e => h (by rw [e])
      simp [h, this]
  refine ⟨?_, ?_⟩
  · intro a c hf hu
    obtain ⟨h1, _, _, h4⟩ := hi.cells a c hf
    have := h4 hu
    exact ⟨this, by rw [hcount, ← h1, this]⟩
  · intro a c hf
    rw [hcount, (hi.cells a c hf).1]

end SysRun

section SysWitness

theorem unsafe_body_has_one_owner_witness :
    ∃ σ, Sys.run demoProgram Sys.init = some σ ∧
      find σ.heap 1 = some ⟨⟨false, [(1, [1])], [(1, 1, 10)], 1⟩, 1⟩ ∧
      σ.vars = [⟨none⟩, ⟨some 2⟩, ⟨some 2⟩, ⟨some 1⟩] ∧
      ((∀ a c, find σ.heap a = some c → c.obj.is_safe = false →
        c.use_count = 1 ∧ (σ.vars.filter (fun s => decide (s.st = some a))).length = 1) ∧
      (∀ a c, find σ.heap a = some c →
        (σ.vars.filter (fun s => decide (s.st = some a))).length = c.use_count)) :=
  ⟨_, rfl, by decide, by decide, unsafe_body_has_one_owner demoProgram _ rfl⟩

end SysWitness

/-! ## pop() and pop(key) of the Handle -/

section HandleNull
variable {K V : Type}

theorem stack.st_ne_none_of_size (h : Heap K V) (s : stack) (n : Nat)
    (hsz : stack.size h s = .val (n + 1)) : s.st ≠ none := by
  intro hnone
  simp [stack.size, hnone] at hsz

theorem stack.ledger_of_null (h : Heap K V) (s : stack) (hst : s.st = none) :
    s.ledger h = [] := by
  simp [stack.ledger, hst]

end HandleNull

section HandlePopLemmas
variable {K V : Type} [LinearOrder K]

/-- The call `pop()` on a valid Handle whose container is not empty: it returns normally
and the (key, value) sequence loses its last entry. -/
theorem stack.pop_result (h : Heap K V) (s : stack) (hv : s.Valid h) (hne : s.ledger h ≠ []) :
    ∃ h' s', stack.pop h s = .ok () (h', s') ∧ s'.Valid h' ∧ s'.st ≠ none ∧
      s'.ledger h' = (s.ledger h).dropLast := by
  obtain ⟨b0, hr0, hent, _, hok, _, _⟩ := COW_result impl.pop true h s hv
  have hsz : b0.sz ≠ 0 := by
    rw [hr0.inv.size_eq, ← entries_length, hent]
    intro hz
    exact hne (List.length_eq_zero.mp hz)
  obtain ⟨init, n, k, v, hpos⟩ := hr0.inv.exists_last hsz
  have heq0 := impl.pop_eq b0 hr0.inv init n k v hpos
  obtain ⟨h', a', m, heq, hf, hm⟩ := hok () _ heq0
  refine ⟨h', ⟨some a'⟩, heq,
    stack.valid_of_find h' a' _ m hf hm (impl.Reachable.pop b0 _ hr0 heq0), by simp, ?_⟩
  rw [stack.ledger_of_find h' a' _ hf, ← hent, hpos, entries_append]
  simp [entries]

/-- The call `pop(k)` on a valid Handle in whose container `k` has an entry: it returns
normally and the (key, value) sequence loses its last entry of key `k`. -/
theorem stack.pop_key_result (h : Heap K V) (s : stack) (hv : s.Valid h) (k : K)
    (hck : countKey k (s.ledger h) ≠ 0) :
    ∃ h' s' pre v post, stack.pop_key h s k = .ok () (h', s') ∧ s'.Valid h' ∧ s'.st ≠ none ∧
      s.ledger h = pre ++ (k, v) :: post ∧ (∀ e ∈ post, e.1 ≠ k) ∧
      s'.ledger h' = pre ++ post := by
  obtain ⟨b0, hr0, hent, _, hok, _, _⟩ := COW_result (fun b => b.pop_key k) true h s hv
  have hc0 : b0.count k ≠ 0 := by rw [hr0.inv.count_entries, hent]; exact hck
  obtain ⟨r, rest, hfk⟩ := hr0.inv.find_of_count k hc0
  obtain ⟨pre, v, post, hpos, hpost, _, heq0⟩ := impl.pop_key_eq b0 hr0.inv k r rest hfk
  obtain ⟨h', a', m, heq, hf, hm⟩ := hok () _ heq0
  refine ⟨h', ⟨some a'⟩, entries pre, v, entries post, heq,
    stack.valid_of_find h' a' _ m hf hm (impl.Reachable.pop_key b0 _ k hr0 heq0), by simp,
    ?_, ?_, ?_⟩
  · rw [← hent, hpos, entries_append]
    rfl
  · intro e he
    obtain ⟨x, hx, rfl⟩ := List.mem_map.mp he
    exact hpost x hx
  · rw [stack.ledger_of_find h' a' _ hf]
    exact entries_append pre post

/-- A call through the macro on a valid Handle whose `expr` throws `e` and leaves the Body
as it was: the call throws `e`, and the Handle is valid, has a Body and has the same
(key, value) sequence afterwards. -/
theorem COW_throw_ledger {α : Type} (expr : impl K V → Res (impl K V) α) (safety : Bool)
    (h : Heap K V) (s : stack) (hv : s.Valid h) (e : Exn)
    (hexpr : ∀ b0 : impl K V, b0.Reachable → entries b0.pos_order = s.ledger h →
      expr b0 = .throw e b0) :
    ∃ h' s', COPY_ON_WRITE_CORE expr safety h s = .throw e (h', s') ∧ s'.Valid h' ∧
      s'.st ≠ none ∧ s'.ledger h' = s.ledger h := by
  cases hst : s.st with
  | none =>
    have hl : s.ledger h = [] := by simp [stack.ledger, hst]
    have he := hexpr impl.new impl.Reachable.new (by rw [hl]; rfl)
    have hfind : find (store (make_shared h (impl.new : impl K V)).2 (freshAddr h) impl.new)
        (freshAddr h) = some ⟨impl.new, 1⟩ := by
      simp [find_store, find_make_shared]
    refine ⟨store (make_shared h impl.new).2 (freshAddr h) impl.new, ⟨some (freshAddr h)⟩,
      ?_, ?_, by simp, ?_⟩
    · rw [COW_null expr safety h s hst, he]
    · exact stack.valid_of_find _ _ impl.new 1 hfind (le_refl _) impl.Reachable.new
    · rw [stack.ledger_of_find _ _ _ hfind, hl]
      rfl
  | some a =>
    obtain ⟨c, hf, hc, hr⟩ := hv a hst
    obtain ⟨b0, hr0, hent, _, _, hthrow, _⟩ := COW_result expr safety h s hv
    obtain ⟨h', a', c', heq, hf', hone, hsame, hall⟩ := hthrow e b0 (hexpr b0 hr0 hent)
    have ha : a' = a := by
      have := hsame (by rw [hst]; simp)
      rw [hst] at this
      exact (Option.some.inj this).symm
    subst ha
    obtain ⟨_, hshared, hexcl, _⟩ := hall a' c hst hf
    have hobj : c'.obj.Reachable ∧ entries c'.obj.pos_order = s.ledger h := by
      by_cases h2 : 2 ≤ c.use_count
      · rw [hshared h2]
        exact ⟨hr, by simp [stack.ledger, hst, hf]⟩
      · rw [hexcl (by omega)]
        exact ⟨hr0, hent⟩
    refine ⟨h', ⟨some a'⟩, heq, ?_, by simp, ?_⟩
    · exact stack.valid_of_find h' a' c'.obj c'.use_count hf' hone hobj.1
    · rw [stack.ledger_of_find h' a' c' hf']
      exact hobj.2

/-- The call `pop(k)` on a valid Handle in whose container `k` has no entry: it throws,
`EmptyContainer` on the empty container and `KeyNotFound` otherwise, and the (key, value)
sequence is the same afterwards. -/
theorem stack.pop_key_throw_result (h : Heap K V) (s : stack) (hv : s.Valid h) (k : K)
    (hck : countKey k (s.ledger h) = 0) :
    ∃ h' s', stack.pop_key h s k =
        .throw (if (s.ledger h).length = 0 then .EmptyContainer else .KeyNotFound) (h', s') ∧
      s'.Valid h' ∧ s'.st ≠ none ∧ s'.ledger h' = s.ledger h := by
  apply COW_throw_ledger (fun b => b.pop_key k) true h s hv
  intro b0 hr0 hent
  have hc0 : b0.count k = 0 := by rw [hr0.inv.count_entries, hent]; exact hck
  have hsz : b0.size = (s.ledger h).length := by rw [hr0.inv.size_entries, hent]
  rw [impl.pop_key_of_count_zero b0 hr0.inv k hc0, hsz]

theorem stack.st_ne_none_of_count (h : Heap K V) (s : stack) (k : K) (n : Nat)
    (hc : stack.count h s k = .val n) : s.st ≠ none := by
  intro hnone
  simp [stack.count, hnone] at hc

/-- The count of `k` in a valid Handle, where `count(k)` has a value or not. -/
theorem stack.countKey_of_count (h : Heap K V) (s : stack) (hv : s.Valid h) (k : K)
    (hk : ∀ n, stack.count h s k = .val n → n = 0) : countKey k (s.ledger h) = 0 := by
  cases hst : s.st with
  | none => simp [stack.ledger, hst, countKey]
  | some a =>
    have hne : s.st ≠ none := by rw [hst]; simp
    exact hk _ (stack.count_ledger h s hv hne k)

theorem stack.pop_key_times_result (k : K) (n : Nat) (h : Heap K V) (s : stack)
    (hv : s.Valid h) (hst : s.st ≠ none) (hn : countKey k (s.ledger h) = n) :
    ∃ h' s', stack.pop_key_times k n h s = .ok () (h', s') ∧ s'.Valid h' ∧ s'.st ≠ none ∧
      countKey k (s'.ledger h') = 0 ∧ (s'.ledger h').length + n = (s.ledger h).length := by
  induction n generalizing h s with
  | zero => exact ⟨h, s, rfl, hv, hst, hn, rfl⟩
  | succ n ih =>
    obtain ⟨h1, s1, pre, v, post, heq, hv1, hst1, hsplit, hpost, hled⟩ :=
      stack.pop_key_result h s hv k (by omega)
    have hcons : pre ++ (k, v) :: post = pre ++ ([(k, v)] ++ post) := rfl
    have hn1 : countKey k (s1.ledger h1) = n := by
      rw [hsplit, hcons, countKey_append, countKey_append] at hn
      rw [hled, countKey_append]
      have : countKey k [(k, v)] = 1 := by simp [countKey]
      omega
    obtain ⟨h', s', heq', hv', hst', hc', hlen'⟩ := ih h1 s1 hv1 hst1 hn1
    refine ⟨h', s', ?_, hv', hst', hc', ?_⟩
    · simp only [stack.pop_key_times, heq]
      exact heq'
    · rw [hled] at hlen'
      rw [hsplit]
      simp only [List.length_append, List.length_cons] at hlen' ⊢
      omega

end HandlePopLemmas

section HandlePopTheorems
variable {K V : Type} [LinearOrder K]

/-- C3: for every valid Handle whose container is not empty (`size()` is `n + 1`), with a
Body of its own or with a shared Body, the call `pop()` of the container returns normally
and removes exactly the last entry of the (key, value) sequence, the entry most recently
pushed and still present, whatever its key: the sequence before is `init ++ [last]` and
the sequence afterwards is `init`; `size()` is `n` afterwards, `count` of the key of the
removed entry goes down by one, and `count` of every other key is unchanged. -/
theorem pop_removes_ledger_tail (h : Heap K V) (s : stack) (hv : s.Valid h) (n : Nat)
    (hsz : stack.size h s = .val (n + 1)) :
    ∃ h' s' init last, stack.pop h s = .ok () (h', s') ∧
      s.ledger h = init ++ [last] ∧ s'.ledger h' = init ∧
      stack.size h' s' = .val n ∧
      (∃ m, stack.count h s last.1 = .val (m + 1) ∧ stack.count h' s' last.1 = .val m) ∧
      (∀ k', k' ≠ last.1 → stack.count h' s' k' = stack.count h s k') := by
  have hst := stack.st_ne_none_of_size h s n hsz
  have hlen : (s.ledger h).length = n + 1 := by
    rw [stack.size_ledger h s hv] at hsz
    exact Out.val.inj hsz
  have hne : s.ledger h ≠ [] := by
    intro hnil
    rw [hnil] at hlen
    cases hlen
  obtain ⟨h', s', heq, hv', hst', hled⟩ := stack.pop_result h s hv hne
  have hsplit : s.ledger h = (s.ledger h).dropLast ++ [(s.ledger h).getLast hne] :=
    (List.dropLast_append_getLast hne).symm
  have hcount : ∀ k', countKey k' (s.ledger h) = countKey k' (s.ledger h).dropLast +
      countKey k' [(s.ledger h).getLast hne] := by
    intro k'
    rw [← countKey_append, ← hsplit]
  refine ⟨h', s', (s.ledger h).dropLast, (s.ledger h).getLast hne, heq, hsplit, hled, ?_, ?_, ?_⟩
  · rw [stack.size_ledger h' s' hv', hled, List.length_dropLast, hlen]
    rfl
  · refine ⟨countKey ((s.ledger h).getLast hne).1 (s.ledger h).dropLast, ?_, ?_⟩
    · rw [stack.count_ledger h s hv hst, hcount]
      simp [countKey]
    · rw [stack.count_ledger h' s' hv' hst', hled]
  · intro k' hk'
    have hk : ¬ ((s.ledger h).getLast hne).1 = k' := fun e => hk' e.symm
    rw [stack.count_ledger h' s' hv' hst', stack.count_ledger h s hv hst, hled, hcount k']
    simp [countKey, hk]

/-- C4: for every valid Handle, with a Body of its own or with a shared Body, and every
key `k` with `count(k) > 0`, the call `pop(k)` of the container returns normally and
removes exactly the last entry of key `k` of the (key, value) sequence, also when entries
of other keys follow it: the sequence before is `pre ++ (k, v) :: post` with no entry of
key `k` in `post`, and the sequence afterwards is `pre ++ post`; `size()` and `count(k)`
go down by one and `count` of every other key is unchanged. -/
theorem pop_key_removes_newest_of_key (h : Heap K V) (s : stack) (hv : s.Valid h) (k : K)
    (n : Nat) (hc : stack.count h s k = .val (n + 1)) :
    ∃ h' s' pre v post, stack.pop_key h s k = .ok () (h', s') ∧
      s.ledger h = pre ++ (k, v) :: post ∧ (∀ e ∈ post, e.1 ≠ k) ∧
      s'.ledger h' = pre ++ post ∧
      (∃ m, stack.size h s = .val (m + 1) ∧ stack.size h' s' = .val m) ∧
      stack.count h' s' k = .val n ∧
      (∀ k', k' ≠ k → stack.count h' s' k' = stack.count h s k') := by
  have hst := stack.st_ne_none_of_count h s k _ hc
  rw [stack.count_ledger h s hv hst] at hc
  have hck : countKey k (s.ledger h) = n + 1 := Out.val.inj hc
  obtain ⟨h', s', pre, v, post, heq, hv', hst', hsplit, hpost, hled⟩ :=
    stack.pop_key_result h s hv k (by omega)
  have hcons : pre ++ (k, v) :: post = pre ++ ([(k, v)] ++ post) := rfl
  have hcount : ∀ k', countKey k' (s.ledger h) =
      countKey k' pre + (countKey k' [(k, v)] + countKey k' post) := by
    intro k'
    rw [hsplit, hcons, countKey_append, countKey_append]
  refine ⟨h', s', pre, v, post, heq, hsplit, hpost, hled, ⟨(pre ++ post).length, ?_, ?_⟩,
    ?_, ?_⟩
  · rw [stack.size_ledger h s hv, hsplit]
    simp only [List.length_append, List.length_cons]
    rfl
  · rw [stack.size_ledger h' s' hv', hled]
  · rw [stack.count_ledger h' s' hv' hst', hled, countKey_append]
    have h1 := hcount k
    have h2 : countKey k [(k, v)] = 1 := by simp [countKey]
    congr 1
    omega
  · intro k' hk'
    have hk : ¬ k = k' := fun e => hk' e.symm
    rw [stack.count_ledger h' s' hv' hst', stack.count_ledger h s hv hst, hled,
      countKey_append, hcount k']
    simp [countKey, hk]

/-- C10 (amended): for every valid Handle (with a Body of its own, with a shared Body or
without a Body) and every key `k` without entries (`count(k)`, where it has a value, is
`0`), the call `pop(k)` of the container throws: `KeyNotFound` when `size()` is not `0`,
and `EmptyContainer` when `size()` is `0`; `size()` and the (key, value) sequence are the
same afterwards. -/
theorem pop_key_absent_throws (h : Heap K V) (s : stack) (hv : s.Valid h) (k : K)
    (hk : ∀ n, stack.count h s k = .val n → n = 0) :
    ∃ m h' s', stack.size h s = .val m ∧
      stack.pop_key h s k =
        .throw (if m = 0 then .EmptyContainer else .KeyNotFound) (h', s') ∧
      stack.size h' s' = .val m ∧ s'.ledger h' = s.ledger h := by
  have hck := stack.countKey_of_count h s hv k hk
  obtain ⟨h', s', heq, hv', _, hled⟩ := stack.pop_key_throw_result h s hv k hck
  refine ⟨(s.ledger h).length, h', s', stack.size_ledger h s hv, heq, ?_, hled⟩
  rw [stack.size_ledger h' s' hv', hled]

/-- C11: for every valid Handle and every key `k`, the call `pop(k)` of the container
throws `EmptyContainer` when `size() == 0`, throws `KeyNotFound` when `size() > 0` and
`count(k) == 0`, and returns normally exactly when `count(k) > 0`; `count(k)` calls of
`pop(k)` in a row all return normally and leave `count(k) == 0` with `size()` reduced by
their number, and one more `pop(k)` on that container, if it is not empty, throws
`KeyNotFound`. -/
theorem pop_key_outcomes (h : Heap K V) (s : stack) (hv : s.Valid h) (k : K) :
    (stack.size h s = .val 0 → (stack.pop_key h s k).out = .exn .EmptyContainer) ∧
    (∀ m, stack.size h s = .val (m + 1) → stack.count h s k = .val 0 →
      (stack.pop_key h s k).out = .exn .KeyNotFound) ∧
    ((∃ st', stack.pop_key h s k = .ok () st') ↔ ∃ n, stack.count h s k = .val (n + 1)) ∧
    (∀ n, stack.count h s k = .val n →
      ∃ h' s', stack.pop_key_times k n h s = .ok () (h', s') ∧
        stack.count h' s' k = .val 0 ∧
        (∃ m, stack.size h' s' = .val m ∧ stack.size h s = .val (m + n)) ∧
        (∀ m, stack.size h' s' = .val (m + 1) →
          (stack.pop_key h' s' k).out = .exn .KeyNotFound)) := by
  have hthrow : ∀ (h1 : Heap K V) (s1 : stack), s1.Valid h1 → countKey k (s1.ledger h1) = 0 →
      (stack.pop_key h1 s1 k).out =
        .exn (if (s1.ledger h1).length = 0 then .EmptyContainer else .KeyNotFound) := by
    intro h1 s1 hv1 hck
    obtain ⟨h', s', heq, _⟩ := stack.pop_key_throw_result h1 s1 hv1 k hck
    rw [heq]
    rfl
  refine ⟨?_, ?_, ?_, ?_⟩
  · intro hz
    rw [stack.size_ledger h s hv] at hz
    have hlen : (s.ledger h).length = 0 := Out.val.inj hz
    have hnil := List.length_eq_zero.mp hlen
    rw [hthrow h s hv (by rw [hnil]; rfl), if_pos hlen]
  · intro m hsz hc
    have hst := stack.st_ne_none_of_count h s k _ hc
    rw [stack.count_ledger h s hv hst] at hc
    rw [stack.size_ledger h s hv] at hsz
    have hlen : (s.ledger h).length = m + 1 := Out.val.inj hsz
    rw [hthrow h s hv (Out.val.inj hc), if_neg (by omega)]
  · constructor
    · rintro ⟨st', heq⟩
      have hck : countKey k (s.ledger h) ≠ 0 := by
        intro hck
        have := hthrow h s hv hck
        rw [heq] at this
        cases this
      have hst : s.st ≠ none := by
        intro hnone
        apply hck
        rw [stack.ledger_of_null h s hnone]
        rfl
      refine ⟨countKey k (s.ledger h) - 1, ?_⟩
      rw [stack.count_ledger h s hv hst, Nat.sub_add_cancel (Nat.pos_of_ne_zero hck)]
    · rintro ⟨n, hc⟩
      have hst := stack.st_ne_none_of_count h s k _ hc
      rw [stack.count_ledger h s hv hst] at hc
      have hck : countKey k (s.ledger h) = n + 1 := Out.val.inj hc
      obtain ⟨h', s', _, _, _, heq, _⟩ := stack.pop_key_result h s hv k (by omega)
      exact ⟨(h', s'), heq⟩
  · intro n hc
    have hst := stack.st_ne_none_of_count h s k _ hc
    rw [stack.count_ledger h s hv hst] at hc
    obtain ⟨h', s', heq, hv', hst', hc', hlen'⟩ :=
      stack.pop_key_times_result k n h s hv hst (Out.val.inj hc)
    refine ⟨h', s', heq, ?_, ⟨(s'.ledger h').length, stack.size_ledger h' s' hv', ?_⟩, ?_⟩
    · rw [stack.count_ledger h' s' hv' hst', hc']
    · rw [stack.size_ledger h s hv, ← hlen']
    · intro m hsz
      rw [stack.size_ledger h' s' hv'] at hsz
      have hlen : (s'.ledger h').length = m + 1 := Out.val.inj hsz
      rw [hthrow h' s' hv' hc', if_neg (by omega)]

end HandlePopTheorems

section HandlePopWitnesses

theorem pop_removes_ledger_tail_witness :
    stack.Valid sharedHeap ⟨some 1⟩ ∧ stack.size sharedHeap ⟨some 1⟩ = .val (2 + 1) ∧
    ∃ h' s' init last, stack.pop sharedHeap ⟨some 1⟩ = .ok () (h', s') ∧
      stack.ledger sharedHeap ⟨some 1⟩ = init ++ [last] ∧ s'.ledger h' = init ∧
      stack.size h' s' = .val 2 ∧
      (∃ m, stack.count sharedHeap ⟨some 1⟩ last.1 = .val (m + 1) ∧
        stack.count h' s' last.1 = .val m) ∧
      (∀ k', k' ≠ last.1 → stack.count h' s' k' = stack.count sharedHeap ⟨some 1⟩ k') :=
  ⟨sharedHeap_valid, by decide,
    pop_removes_ledger_tail sharedHeap ⟨some 1⟩ sharedHeap_valid 2 (by decide)⟩

theorem pop_key_removes_newest_of_key_witness :
    stack.Valid sharedHeap ⟨some 1⟩ ∧ stack.count sharedHeap ⟨some 1⟩ 2 = .val (0 + 1) ∧
    ∃ h' s' pre v post, stack.pop_key sharedHeap ⟨some 1⟩ 2 = .ok () (h', s') ∧
      stack.ledger sharedHeap ⟨some 1⟩ = pre ++ (2, v) :: post ∧ (∀ e ∈ post, e.1 ≠ 2) ∧
      s'.ledger h' = pre ++ post ∧
      (∃ m, stack.size sharedHeap ⟨some 1⟩ = .val (m + 1) ∧ stack.size h' s' = .val m) ∧
      stack.count h' s' 2 = .val 0 ∧
      (∀ k', k' ≠ 2 → stack.count h' s' k' = stack.count sharedHeap ⟨some 1⟩ k') :=
  ⟨sharedHeap_valid, by decide,
    pop_key_removes_newest_of_key sharedHeap ⟨some 1⟩ sharedHeap_valid 2 0 (by decide)⟩

theorem ownedHeap_no_seven (n : Nat) (hn : stack.count ownedHeap ⟨some 1⟩ 7 = .val n) :
    n = 0 := by
  have h0 : stack.count ownedHeap ⟨some 1⟩ 7 = .val 0 := by decide
  rw [h0] at hn
  exact (Out.val.inj hn).symm

theorem pop_key_absent_throws_witness :
    stack.Valid ownedHeap ⟨some 1⟩ ∧ (∀ n, stack.count ownedHeap ⟨some 1⟩ 7 = .val n → n = 0) ∧
    ∃ m h' s', stack.size ownedHeap ⟨some 1⟩ = .val m ∧
      stack.pop_key ownedHeap ⟨some 1⟩ 7 =
        .throw (if m = 0 then .EmptyContainer else .KeyNotFound) (h', s') ∧
      stack.size h' s' = .val m ∧ s'.ledger h' = stack.ledger ownedHeap ⟨some 1⟩ :=
  ⟨ownedHeap_valid, ownedHeap_no_seven,
    pop_key_absent_throws ownedHeap ⟨some 1⟩ ownedHeap_valid 7 ownedHeap_no_seven⟩

/-- C10 as stated fails on the empty container: on a default-constructed Handle key `7`
has no entries, and `pop(7)` throws `EmptyContainer`, not `KeyNotFound`. -/
theorem pop_key_on_empty_is_not_KeyNotFound :
    stack.count (stack.new ([] : Heap Nat Nat)).1 (stack.new ([] : Heap Nat Nat)).2 7 = .val 0 ∧
    (stack.pop_key (stack.new ([] : Heap Nat Nat)).1 (stack.new ([] : Heap Nat Nat)).2 7).out =
      .exn .EmptyContainer ∧
    (stack.pop_key (stack.new ([] : Heap Nat Nat)).1 (stack.new ([] : Heap Nat Nat)).2 7).out ≠
      .exn .KeyNotFound := by
  decide

theorem pop_key_outcomes_witness :
    stack.Valid sharedHeap ⟨some 1⟩ ∧ stack.count sharedHeap ⟨some 1⟩ 1 = .val 2 ∧
    ((stack.size sharedHeap ⟨some 1⟩ = .val 0 →
      (stack.pop_key sharedHeap ⟨some 1⟩ 1).out = .exn .EmptyContainer) ∧
    (∀ m, stack.size sharedHeap ⟨some 1⟩ = .val (m + 1) →
      stack.count sharedHeap ⟨some 1⟩ 1 = .val 0 →
      (stack.pop_key sharedHeap ⟨some 1⟩ 1).out = .exn .KeyNotFound) ∧
    ((∃ st', stack.pop_key sharedHeap ⟨some 1⟩ 1 = .ok () st') ↔
      ∃ n, stack.count sharedHeap ⟨some 1⟩ 1 = .val (n + 1)) ∧
    (∀ n, stack.count sharedHeap ⟨some 1⟩ 1 = .val n →
      ∃ h' s', stack.pop_key_times 1 n sharedHeap ⟨some 1⟩ = .ok () (h', s') ∧
        stack.count h' s' 1 = .val 0 ∧
        (∃ m, stack.size h' s' = .val m ∧ stack.size sharedHeap ⟨some 1⟩ = .val (m + n)) ∧
        (∀ m, stack.size h' s' = .val (m + 1) →
          (stack.pop_key h' s' 1).out = .exn .KeyNotFound))) :=
  ⟨sharedHeap_valid, by decide, pop_key_outcomes sharedHeap ⟨some 1⟩ sharedHeap_valid 1⟩

end HandlePopWitnesses

end cxx
